import Mathlib

/-!
# The pipe shell of `develop/dev08/task.go`

A shallow embedding of the shell: a line is cut at `|` into segments, every
segment is cut at spaces into a token list, the token list is resolved to an
internal (built-in) or external unit, adjacent units are joined by pipes and
every unit is run.

Modelling conventions.

* A Go `string` is a list of characters (`Str`); `strings.Split` is only used
  with the one-byte separators `"|"` and `" "`, so it is modelled for a
  one-character separator.
* Go mutates units through pointers; here a method returns the updated unit.
* The operating system is an oracle `OS` giving the outcome of every
  `os.Pipe` call (numbered in call order), of `Close` and of `exec.Cmd.Run`.
* What the program does is recorded as a list of `Event`s.
* The goroutines of `processChain` run their bodies one after another in the
  order given by a schedule `sched`, a list of unit positions. The launch loop
  and the `WaitGroup` are the step model `Conc`; the order in which the
  goroutines of a run of `Conc` call `exec` is such a schedule
  (`Conc.returned_perm`).
-/

set_option autoImplicit false

namespace Dev08

/-- Go `string`: a sequence of characters. -/
abbrev Str := List Char

/-- Go `error` values, identified with their message. -/
abbrev Err := String

/-! ## `strings` functions used by the shell -/

/-- `unicode.IsSpace`: the Latin-1 spaces `\t \n \v \f \r ' '`, U+0085, U+00A0
and the characters with the `White_Space` property. -/
def isSpace (c : Char) : Bool :=
  let n := c.toNat
  n == 0x09 || n == 0x0A || n == 0x0B || n == 0x0C || n == 0x0D || n == 0x20 ||
  n == 0x85 || n == 0xA0 || n == 0x1680 || (0x2000 ≤ n && n ≤ 0x200A) ||
  n == 0x2028 || n == 0x2029 || n == 0x202F || n == 0x205F || n == 0x3000

/-- `strings.TrimSpace`: drop the leading and the trailing white space. -/
def TrimSpace (s : Str) : Str :=
  ((s.dropWhile isSpace).reverse.dropWhile isSpace).reverse

/-- `strings.Split(s, sep)` for a one-character separator: the pieces of `s`
between the occurrences of `sep`; always at least one piece. -/
def Split : Str → Char → List Str
  | [], _ => [[]]
  | c :: cs, sep =>
    if c = sep then [] :: Split cs sep
    else
      match Split cs sep with
      | [] => [[c]]
      | t :: ts => (c :: t) :: ts

/-- `strings.Join(elems, sep)` for a one-character separator. -/
def Join : List Str → Char → Str
  | [], _ => []
  | [t], _ => t
  | t :: u :: ts, sep => t ++ sep :: Join (u :: ts) sep

/-! ## Files, events and the operating system -/

/-- The `*os.File` values the shell handles: the two standard streams of the
process and the two ends of the pipe made by the `id`-th call of `os.Pipe`. -/
inductive File where
  | stdin
  | stdout
  | pipeRead (id : Nat)
  | pipeWrite (id : Nat)
  deriving DecidableEq, Repr

/-- What a built-in handler does to the outside world. -/
inductive Effect where
  /-- Text written to a stream. -/
  | write (f : Option File) (text : Str)
  /-- `syscall.Kill(pid, SIGKILL)`. -/
  | kill (pid : Int)
  /-- `os.Chdir(dir)`. -/
  | chdir (dir : Str)
  deriving DecidableEq, Repr

/-- Observable actions of the shell, in the order they happen. -/
inductive Event where
  /-- `getStdoutPipe` was called on a unit by the wiring loop. -/
  | getStdoutPipe
  /-- The `id`-th call of `os.Pipe` returned a pipe. -/
  | pipe (id : Nat)
  /-- The goroutine of the unit at position `i` called `cmd.exec()`. -/
  | exec (i : Nat)
  /-- A built-in handler was called with these arguments and streams. -/
  | handler (args : List Str) (stdin stdout : Option File)
  /-- Something the handler did while it ran. -/
  | effect (e : Effect)
  /-- `exec.Cmd.Run` was called for this program, arguments and streams. -/
  | run (name : Str) (args : List Str) (stdin stdout : Option File)
  /-- `Close` was called on a file. -/
  | close (f : Option File)
  /-- `fmt.Println(err)`: one diagnostic line on the process's standard output. -/
  | println (err : Err)
  /-- `Shell.printf`: text printed on the shell's output `out`. -/
  | printf (out : File) (text : Str)
  deriving DecidableEq, Repr

/-- The error a diagnostic line of a goroutine carries. -/
def Event.diagnostic? : Event → Option Err
  | .println err => some err
  | _ => none

/-- Whether the event is a successful `os.Pipe` call. -/
def Event.isPipe : Event → Bool
  | .pipe _ => true
  | _ => false

/-- The outcomes the operating system gives: `none` is success, `some e` is the
error `e`. -/
structure OS where
  /-- Outcome of the `n`-th call of `os.Pipe` (calls are numbered from 0). -/
  pipe : Nat → Option Err
  /-- Outcome of `Close` on a file. -/
  close : Option File → Option Err
  /-- Outcome of `exec.Cmd.Run` for a program, its arguments and its streams. -/
  run : Str → List Str → Option File → Option File → Option Err
  /-- Outcome of `syscall.Kill(pid, syscall.SIGKILL)`. -/
  kill : Int → Option Err := fun _ => none
  /-- Outcome of writing a text to a stream (`fmt.Fprintln`, `fmt.Fprintf`). -/
  write : Option File → Str → Option Err := fun _ _ => none
  /-- What `os.Getwd()` returns. -/
  getwd : Except Err Str := .ok ['/']
  /-- Outcome of `os.Chdir(dir)`. -/
  chdir : Str → Option Err := fun _ => none

/-- `os.Pipe()`, as its `n`-th call: the read end and the write end of a new
pipe, or the error. -/
def osPipe (os : OS) (n : Nat) : Except Err (File × File) :=
  match os.pipe n with
  | some err => .error err
  | none => .ok (File.pipeRead n, File.pipeWrite n)

/-- `Command`: the function of a built-in command. It gets the arguments and
the two streams and gives what it did and its error, if any. -/
abbrev Command := List Str → Option File → Option File → List Effect × Option Err

/-! ## Executable units -/

/-- `ExternalCommand`: a wrapper of `exec.Cmd`, of which the program name, the
arguments after the name and the two streams are kept. -/
structure ExternalCommand where
  name : Str
  args : List Str
  stdin : Option File
  stdout : Option File

/-- `NewExternalCommand(name, args...)`: `exec.Command(name, args...)`, no
stream set. -/
def NewExternalCommand (name : Str) (args : List Str) : ExternalCommand :=
  { name := name, args := args, stdin := none, stdout := none }

/-- `(*ExternalCommand).setStdin`. -/
def ExternalCommand.setStdin (e : ExternalCommand) (stdin : Option File) : ExternalCommand :=
  { e with stdin := stdin }

/-- `(*ExternalCommand).setStdout`. -/
def ExternalCommand.setStdout (e : ExternalCommand) (stdout : Option File) : ExternalCommand :=
  { e with stdout := stdout }

/-- `(*ExternalCommand).getStdoutPipe`, through `exec.Cmd.StdoutPipe`: an error
when `Stdout` is already set; otherwise a pipe is made, `Stdout` becomes its
write end and the read end is returned. Gives the events, the number of
`os.Pipe` calls made so far, the result and the updated unit. -/
def ExternalCommand.getStdoutPipe (os : OS) (n : Nat) (e : ExternalCommand) :
    List Event × Nat × Except Err File × ExternalCommand :=
  match e.stdout with
  | some _ => ([], n, .error "exec: Stdout already set", e)
  | none =>
    match osPipe os n with
    | .error err => ([], n + 1, .error err, e)
    | .ok (reader, writer) => ([Event.pipe n], n + 1, .ok reader, { e with stdout := some writer })

/-- `(*ExternalCommand).exec`: `e.cmd.Run()`. -/
def ExternalCommand.exec (os : OS) (e : ExternalCommand) : List Event × Option Err :=
  ([Event.run e.name e.args e.stdin e.stdout], os.run e.name e.args e.stdin e.stdout)

/-- `InternalCommand`: a command handled by the shell itself. -/
structure InternalCommand where
  stdin : Option File
  stdout : Option File
  command : Command
  args : List Str
  shouldCloseOut : Bool

/-- `NewInternalCommand(command, args...)`. -/
def NewInternalCommand (command : Command) (args : List Str) : InternalCommand :=
  { stdin := none, stdout := none, command := command, args := args, shouldCloseOut := false }

/-- `(*InternalCommand).setStdin`. -/
def InternalCommand.setStdin (i : InternalCommand) (stdin : Option File) : InternalCommand :=
  { i with stdin := stdin }

/-- `(*InternalCommand).setStdout`. -/
def InternalCommand.setStdout (i : InternalCommand) (stdout : Option File) : InternalCommand :=
  { i with stdout := stdout }

/-- `(*InternalCommand).getStdoutPipe`: make a pipe with `os.Pipe` (its `n`-th
call); on an error return it, otherwise set `stdout` to the write end, set
`shouldCloseOut` and return the read end. Gives the events, the number of
`os.Pipe` calls made so far, the result and the updated unit. -/
def InternalCommand.getStdoutPipe (os : OS) (n : Nat) (i : InternalCommand) :
    List Event × Nat × Except Err File × InternalCommand :=
  match osPipe os n with
  | .error err => ([], n + 1, .error err, i)
  | .ok (reader, writer) =>
    ([Event.pipe n], n + 1, .ok reader, { i with stdout := some writer, shouldCloseOut := true })

/-- `(*InternalCommand).exec`: call the handler; if it gives an error return
it; otherwise, if `shouldCloseOut`, return what closing `stdout` gives. -/
def InternalCommand.exec (os : OS) (i : InternalCommand) : List Event × Option Err :=
  let r := i.command i.args i.stdin i.stdout
  let events := Event.handler i.args i.stdin i.stdout :: r.1.map Event.effect
  match r.2 with
  | some err => (events, some err)
  | none =>
    if i.shouldCloseOut then (events ++ [Event.close i.stdout], os.close i.stdout)
    else (events, none)

/-- The `executable` interface with its two implementations. -/
inductive Executable where
  | internal (c : InternalCommand)
  | external (c : ExternalCommand)

namespace Executable

/-- `executable.setStdin`. -/
def setStdin : Executable → Option File → Executable
  | internal c, f => internal (c.setStdin f)
  | external c, f => external (c.setStdin f)

/-- `executable.setStdout`. -/
def setStdout : Executable → Option File → Executable
  | internal c, f => internal (c.setStdout f)
  | external c, f => external (c.setStdout f)

/-- `executable.getStdoutPipe`. -/
def getStdoutPipe (os : OS) (n : Nat) : Executable → List Event × Nat × Except Err File × Executable
  | internal c =>
    let r := c.getStdoutPipe os n
    (r.1, r.2.1, r.2.2.1, internal r.2.2.2)
  | external c =>
    let r := c.getStdoutPipe os n
    (r.1, r.2.1, r.2.2.1, external r.2.2.2)

/-- `executable.exec`. -/
def exec (os : OS) : Executable → List Event × Option Err
  | internal c => c.exec os
  | external c => c.exec os

/-- The input stream bound to a unit. -/
def stdin : Executable → Option File
  | internal c => c.stdin
  | external c => c.stdin

/-- The output stream bound to a unit. -/
def stdout : Executable → Option File
  | internal c => c.stdout
  | external c => c.stdout

/-- The arguments of a unit (after the command name). -/
def args : Executable → List Str
  | internal c => c.args
  | external c => c.args

/-- Whether the unit closes its output after running; only an internal unit
has the flag. -/
def shouldCloseOut : Executable → Bool
  | internal c => c.shouldCloseOut
  | external _ => false

/-- Whether the unit is an internal one. -/
def isInternal : Executable → Bool
  | internal _ => true
  | external _ => false

/-- The unit without its bindings: no stream bound and the flag not set, as
`NewInternalCommand` and `NewExternalCommand` make it. -/
def unbound : Executable → Executable
  | internal c => internal (NewInternalCommand c.command c.args)
  | external c => external (NewExternalCommand c.name c.args)

end Executable

/-! ## The shell -/

/-- `Shell`: the built-in commands (the Go map, as a lookup function) and the
shell's output and input. -/
structure Shell where
  commands : Str → Option Command
  out : File
  inp : File

/-- `(*Shell).parseCommand`: an error for no token; an internal unit when the
first token names a built-in; an external unit otherwise. -/
def Shell.parseCommand (s : Shell) (args : List Str) : Except Err Executable :=
  match args with
  | [] => .error "no command"
  | name :: rest =>
    match s.commands name with
    | some command => .ok (.internal (NewInternalCommand command rest))
    | none => .ok (.external (NewExternalCommand name rest))

/-- The token list `processChain` makes of a segment:
`strings.Split(strings.TrimSpace(rawCommand), " ")`. -/
def tokens (rawCommand : Str) : List Str :=
  Split (TrimSpace rawCommand) ' '

/-- The events of `m` calls of `getStdoutPipe` that all get a pipe, `n` calls of
`os.Pipe` having been made before. -/
def wireEvents (n m : Nat) : List Event :=
  (List.range m).flatMap fun j => [Event.getStdoutPipe, Event.pipe (n + j)]

/-- The first loop of `processChain`, from position `i` on, `len` being
`len(rawCommands)`: parse every segment, bind the shell's input to the unit at
position 0 and the shell's output to the unit at position `len - 1`; stop at the
first parse error. -/
def Shell.buildLoop (s : Shell) (len : Nat) : Nat → List Str → Except Err (List Executable)
  | _, [] => .ok []
  | i, rawCommand :: rest =>
    match s.parseCommand (tokens rawCommand) with
    | .error err => .error err
    | .ok command =>
      let command := if i = 0 then command.setStdin (some s.inp) else command
      let command := if i = len - 1 then command.setStdout (some s.out) else command
      match s.buildLoop len (i + 1) rest with
      | .error err => .error err
      | .ok commands => .ok (command :: commands)

/-- The first loop of `processChain` over all of `rawCommands`. -/
def Shell.build (s : Shell) (rawCommands : List Str) : Except Err (List Executable) :=
  s.buildLoop rawCommands.length 0 rawCommands

/-- The second loop of `processChain` when the unit at the current position is
`previousCommand` and the units after it are given: `getStdoutPipe` on
`previousCommand`, and the pipe it returns becomes the input of the next unit;
stop at the first error. `n` is the number of `os.Pipe` calls made so far.
Gives the events, the new number of calls and the wired units or the error. -/
def wireFrom (os : OS) :
    Nat → Executable → List Executable → List Event × Nat × Except Err (List Executable)
  | n, previousCommand, [] => ([], n, .ok [previousCommand])
  | n, previousCommand, command :: rest =>
    match previousCommand.getStdoutPipe os n with
    | (ev, n1, .error err, _) => (Event.getStdoutPipe :: ev, n1, .error err)
    | (ev, n1, .ok pipe, previousCommand1) =>
      match wireFrom os n1 (command.setStdin (some pipe)) rest with
      | (ev2, n2, .error err) => (Event.getStdoutPipe :: ev ++ ev2, n2, .error err)
      | (ev2, n2, .ok commands) =>
        (Event.getStdoutPipe :: ev ++ ev2, n2, .ok (previousCommand1 :: commands))

/-- The second loop of `processChain` (`for i, command := range commands[1:]`)
on a non-empty list of units. -/
def wireLoop (os : OS) (n : Nat) :
    List Executable → List Event × Nat × Except Err (List Executable)
  | [] => ([], n, .ok [])
  | first :: rest => wireFrom os n first rest

/-- The body of the goroutine started for the unit at position `i`: run the
unit and print its error, if any. -/
def goroutine (os : OS) (i : Nat) (cmd : Executable) : List Event :=
  let r := cmd.exec os
  match r.2 with
  | some err => Event.exec i :: r.1 ++ [Event.println err]
  | none => Event.exec i :: r.1

/-- The third loop of `processChain` with `wg.Wait()`: one goroutine for every
unit; the bodies run in the order `sched` of unit positions. -/
def runAll (os : OS) (commands : List Executable) (sched : List Nat) : List Event :=
  sched.flatMap fun i =>
    match commands[i]? with
    | some cmd => goroutine os i cmd
    | none => []

/-- What a call of `processChain` gives: the events, the number of `os.Pipe`
calls made so far and the returned error (`none` is `nil`). -/
structure Result where
  events : List Event
  pipes : Nat
  err : Option Err
  deriving DecidableEq, Repr

/-- `(*Shell).processChain`. `none` is the run-time panic of `commands[1:]` on
an empty `rawCommands`. -/
def Shell.processChain (s : Shell) (os : OS) (sched : List Nat) (n : Nat)
    (rawCommands : List Str) : Option Result :=
  match s.build rawCommands with
  | .error err => some { events := [], pipes := n, err := some err }
  | .ok commands =>
    if commands.length = 0 then none
    else
      match wireLoop os n commands with
      | (ev, n1, .error err) => some { events := ev, pipes := n1, err := some err }
      | (ev, n1, .ok commands) =>
        some { events := ev ++ runAll os commands sched, pipes := n1, err := none }

/-- The body of the loop of `Run` for one line: cut the line at `|`, process
the chain, then print the error or the prompt on the shell's output. The
returned `err` is the one of `processChain`. -/
def Shell.runLine (s : Shell) (os : OS) (sched : List Nat) (n : Nat) (line : Str) :
    Option Result :=
  match s.processChain os sched n (Split line '|') with
  | none => none
  | some r =>
    match r.err with
    | some err =>
      some { r with events := r.events ++ [Event.printf s.out ("error: " ++ err ++ "\n").toList] }
    | none => some { r with events := r.events ++ [Event.printf s.out "> ".toList] }

/-- The loop of `Run` over the lines the scanner gives, each with the schedule
of its goroutines. -/
def Shell.runLoop (s : Shell) (os : OS) : Nat → List (Str × List Nat) → Option (List Event × Nat)
  | n, [] => some ([], n)
  | n, (line, sched) :: rest =>
    match s.runLine os sched n line with
    | none => none
    | some r =>
      match s.runLoop os r.pipes rest with
      | none => none
      | some (ev, n1) => some (r.events ++ ev, n1)

/-- `(*Shell).Run`: print the prompt, then process every line. -/
def Shell.Run (s : Shell) (os : OS) (n : Nat) (lines : List (Str × List Nat)) :
    Option (List Event × Nat) :=
  match s.runLoop os n lines with
  | none => none
  | some (ev, n1) => some (Event.printf s.out "> ".toList :: ev, n1)

/-- An operating system on which every call succeeds. -/
def OS.allOk : OS :=
  { pipe := fun _ => none, close := fun _ => none, run := fun _ _ _ _ => none }

/-- A shell without built-in commands, on the standard streams. -/
def Shell.bare : Shell :=
  { commands := fun _ => none, out := File.stdout, inp := File.stdin }

/-- An operating system on which running the program `b` fails and every other
call succeeds. -/
def OS.failsOnB : OS :=
  { pipe := fun _ => none, close := fun _ => none,
    run := fun name _ _ _ => if name = ['b'] then some "exit status 1" else none }

/-- An operating system without a free descriptor: every `os.Pipe` call fails. -/
def OS.noPipe : OS :=
  { pipe := fun _ => some "too many open files", close := fun _ => none,
    run := fun _ _ _ _ => none }

end Dev08

namespace Dev08

/-! ## The built-in commands of `main` -/

/-- The value of a string of decimal digits read from the left, `acc` being
the value of the digits read so far; `none` when a character is no digit. -/
def digitsValue : Nat → Str → Option Nat
  | acc, [] => some acc
  | acc, c :: cs =>
    if '0' ≤ c ∧ c ≤ '9' then digitsValue (acc * 10 + (c.toNat - '0'.toNat)) cs else none

/-- Modelled from the library: `strconv.Atoi`, which accepts an optional sign
followed by at least one decimal digit and a value in the range of `int`
(64 bits), and fails on anything else. -/
def Atoi (s : Str) : Option Int :=
  match s with
  | [] => none
  | '-' :: ds =>
    if ds = [] then none
    else (digitsValue 0 ds).bind fun v => if v ≤ 2 ^ 63 then some (-(v : Int)) else none
  | '+' :: ds =>
    if ds = [] then none
    else (digitsValue 0 ds).bind fun v => if v < 2 ^ 63 then some (v : Int) else none
  | ds => (digitsValue 0 ds).bind fun v => if v < 2 ^ 63 then some (v : Int) else none

/-- The built-in `cd`: nothing without arguments, otherwise `os.Chdir` to the
arguments joined by spaces. -/
def cd (os : OS) : Command := fun args _ _ =>
  match args with
  | [] => ([], none)
  | _ :: _ => ([Effect.chdir (Join args ' ')], os.chdir (Join args ' '))

/-- The built-in `pwd`: print the working directory on the output. -/
def pwd (os : OS) : Command := fun _ _ stdout =>
  match os.getwd with
  | .error err => ([], some err)
  | .ok dir => ([Effect.write stdout (dir ++ ['\n'])], os.write stdout (dir ++ ['\n']))

/-- The built-in `echo`: print the arguments, joined by spaces, and a newline
on the output. -/
def echo (os : OS) : Command := fun args _ stdout =>
  ([Effect.write stdout (Join args ' ' ++ ['\n'])], os.write stdout (Join args ' ' ++ ['\n']))

/-- The loop of the built-in `kill` over the arguments still to be handled,
`arg0` being `args[0]`: an argument that is no integer ends the command with
the error `illegal pid: ` followed by `args[0]`; otherwise the process is
signalled and a failure of the signal is written to the output. -/
def killLoop (os : OS) (stdout : Option File) (arg0 : Str) : List Str → List Effect × Option Err
  | [] => ([], none)
  | strPid :: rest =>
    match Atoi strPid with
    | none => ([], some ("illegal pid: " ++ String.mk arg0))
    | some pid =>
      let r := killLoop os stdout arg0 rest
      match os.kill pid with
      | some err =>
        (Effect.kill pid ::
          Effect.write stdout ("kill " ++ toString pid ++ ": " ++ err ++ "\n").toList :: r.1, r.2)
      | none => (Effect.kill pid :: r.1, r.2)

/-- The built-in `kill`. -/
def kill (os : OS) : Command := fun args _ stdout =>
  match args with
  | [] => ([], some "not enough arguments")
  | arg0 :: _ => killLoop os stdout arg0 args

/-- The `Shell` that `main` makes: the four built-in commands, `out` set to
`os.Stdin` and `in` set to `os.Stdout`. -/
def mainShell (os : OS) : Shell :=
  { commands := fun name =>
      if name = "cd".toList then some (cd os)
      else if name = "pwd".toList then some (pwd os)
      else if name = "echo".toList then some (echo os)
      else if name = "kill".toList then some (kill os)
      else none
    out := File.stdin
    inp := File.stdout }

/-! ## The goroutines of `processChain`, step by step -/

/-- Where the goroutine of one unit is: not yet started by its `go` statement,
started with `cmd.exec()` still to be called, past `cmd.exec()` and the
printing of its error with the deferred `wg.Done()` still to run, or done. -/
inductive Task where
  | notStarted
  | started
  | executed
  | done
  deriving DecidableEq, Repr

/-- The state of the third loop of `processChain`: the counter of the
`WaitGroup`, the number of `go` statements the loop has run, the state of
every goroutine, whether `processChain` has returned, and the events so far. -/
structure Conc where
  counter : Nat
  launched : Nat
  tasks : List Task
  returned : Bool
  events : List Event
  deriving DecidableEq, Repr

/-- Who takes the next step: `processChain` itself or the goroutine of the unit
at position `i`. -/
inductive Action where
  | main
  | task (i : Nat)
  deriving DecidableEq, Repr

/-- The state after `wg.Add(len(commands))`. -/
def Conc.init (commands : List Executable) : Conc :=
  { counter := commands.length, launched := 0,
    tasks := List.replicate commands.length Task.notStarted, returned := false, events := [] }

/-- One step. `processChain` starts the next goroutine while there is one, then
waits in `wg.Wait()`, which lets it return only when the counter is 0. A
started goroutine calls `cmd.exec()` and prints the error; then its deferred
`wg.Done()` lowers the counter. `none` when the step cannot be taken. -/
def Conc.step (os : OS) (commands : List Executable) (a : Action) (c : Conc) : Option Conc :=
  match a with
  | .main =>
    if c.returned then none
    else if c.launched < commands.length then
      some { c with launched := c.launched + 1, tasks := c.tasks.set c.launched Task.started }
    else if c.counter = 0 then some { c with returned := true }
    else none
  | .task i =>
    match c.tasks[i]?, commands[i]? with
    | some Task.started, some cmd =>
      some { c with tasks := c.tasks.set i Task.executed, events := c.events ++ goroutine os i cmd }
    | some Task.executed, some _ =>
      some { c with tasks := c.tasks.set i Task.done, counter := c.counter - 1 }
    | _, _ => none

/-- The state after the steps of a list of actions, from the left. -/
def Conc.run (os : OS) (commands : List Executable) : List Action → Conc → Option Conc
  | [], c => some c
  | a :: rest, c =>
    match Conc.step os commands a c with
    | none => none
    | some c1 => Conc.run os commands rest c1

end Dev08

namespace Dev08

/-- What holds in every state the steps reach: there is one goroutine for every
unit; the counter is the number of goroutines that are not done; the
goroutines the loop has not reached are not started; `processChain` has
returned only with the counter at 0 and every goroutine started; and `exec` was
called on exactly the units whose goroutine is past `cmd.exec()`. -/
def Conc.Inv (commands : List Executable) (c : Conc) : Prop :=
  c.tasks.length = commands.length ∧
  c.counter + c.tasks.count Task.done = commands.length ∧
  c.launched ≤ commands.length ∧
  (∀ i, c.launched ≤ i → i < commands.length → c.tasks[i]? = some Task.notStarted) ∧
  (c.returned = true → c.counter = 0 ∧ c.launched = commands.length) ∧
  ∀ i, i < commands.length →
    c.events.count (Event.exec i) =
      if c.tasks[i]? = some Task.executed ∨ c.tasks[i]? = some Task.done then 1 else 0

end Dev08

namespace Dev08

/-- The process an effect signals, when it is a `syscall.Kill`. -/
def Effect.killed? : Effect → Option Int
  | .kill pid => some pid
  | _ => none

end Dev08

/-!
# Writers, `sort` (`develop/dev03/task.go`) and `grep` (`develop/dev05/task.go`)

Modelling conventions.

* An `io.Writer` is a `Writer`: the texts written so far, the number of `Write`
  calls so far and an oracle that says which calls fail; a failing call writes
  nothing.
* `sort.Sort` is library code: what it may leave behind is given by its
  contract, `Dev03.SortResult`. It reaches the lines through the methods `Len`,
  `Less` and `Swap` of the holder (`Golang.Interface`); its contract on such
  methods is `Golang.SortContract`, and `insertionSort`, the routine it sorts a
  short input with, is modelled.
* `strconv.ParseFloat` is library code on floating point numbers: it is a
  parameter `pf` of the functions that use it.
* Go's `int` is an `Int`; the two additions of `Print` that involve a command
  line flag wrap around at 64 bits (`Golang.wrap`).
-/

namespace Golang

open Dev08 (Str Err)

/-- The number of bytes of a string, `len([]byte(s))`. -/
def byteLen (s : Str) : Nat :=
  (s.map Char.utf8Size).sum

/-- The value of an `int` computation: 64 bits, two's complement. -/
def wrap (x : Int) : Int :=
  (x + 2 ^ 63) % 2 ^ 64 - 2 ^ 63

/-- An `io.Writer`. -/
structure Writer where
  /-- The texts of the `Write` calls that succeeded, in order. -/
  chunks : List Str
  /-- The number of `Write` calls made so far. -/
  calls : Nat
  /-- Whether the `k`-th `Write` call fails, and with which error. -/
  fail : Nat → Option Err

/-- `writer.Write([]byte(text))`: the writer afterwards, the number of bytes
written and the error. -/
def Writer.Write (w : Writer) (text : Str) : Writer × Nat × Option Err :=
  match w.fail w.calls with
  | some err => ({ w with calls := w.calls + 1 }, 0, some err)
  | none => ({ w with chunks := w.chunks ++ [text], calls := w.calls + 1 }, byteLen text, none)

/-- A `bytes.Buffer` without content: no `Write` call fails. -/
def Writer.buffer : Writer :=
  { chunks := [], calls := 0, fail := fun _ => none }

end Golang

namespace Dev03

open Dev08 (Str Err Split)
open Golang

/-- Go's `a < b` on strings: byte by byte. On UTF-8 text this is the order
character by character, by code point. -/
def strLess : Str → Str → Bool
  | _, [] => false
  | [], _ :: _ => true
  | a :: as, b :: bs => decide (a.toNat < b.toNat) || (a.toNat == b.toNat && strLess as bs)

/-- The value `Key` returns, of type `any`: a `string` or a `float64`. -/
inductive KeyVal where
  | str (s : Str)
  | num (f : Float)

/-- Equality of two keys of a `map[any]bool`: the same type and equal values
(`==` of `float64` for numbers). -/
def KeyVal.same : KeyVal → KeyVal → Bool
  | .str a, .str b => a == b
  | .num a, .num b => a == b
  | _, _ => false

/-- `FileHolder`: the lines and the settings of the sort. -/
structure FileHolder where
  lines : List Str
  columnIndex : Int
  arithmeticValue : Bool
  reverseOrder : Bool
  unique : Bool

/-- The first step of `Key`: the column with the index `columnIndex` of the
line cut at spaces, or the whole line when the index is negative or not less
than the number of columns. -/
def FileHolder.column (h : FileHolder) (input : Str) : Str :=
  if 0 ≤ h.columnIndex then
    match (Split input ' ')[h.columnIndex.toNat]? with
    | some col => col
    | none => input
  else input

/-- `(*FileHolder).Key`: the column, as a string or, when `arithmeticValue` is
set, as the number `strconv.ParseFloat` reads in it, 0 when it reads none. -/
def FileHolder.Key (pf : Str → Option Float) (h : FileHolder) (input : Str) : KeyVal :=
  if h.arithmeticValue then
    match pf (h.column input) with
    | none => .num 0.0
    | some float => .num float
  else .str (h.column input)

/-- `(*FileHolder).Len`. -/
def FileHolder.Len (h : FileHolder) : Nat :=
  h.lines.length

/-- The comparison of `Less` on two lines. `none` is a panic: the keys are of
different types. -/
def FileHolder.lessLines (pf : Str → Option Float) (h : FileHolder) (li lj : Str) : Option Bool :=
  let a := h.Key pf li
  let b := h.Key pf lj
  let ab := if h.reverseOrder then (b, a) else (a, b)
  match ab with
  | (.str x, .str y) => some (strLess x y)
  | (.num x, .num y) => some (decide (x < y))
  | _ => none

/-- `(*FileHolder).Less`. `none` is a panic: an index out of range, or keys of
different types. -/
def FileHolder.Less (pf : Str → Option Float) (h : FileHolder) (i j : Nat) : Option Bool :=
  match h.lines[i]?, h.lines[j]? with
  | some li, some lj => h.lessLines pf li lj
  | _, _ => none

/-- `(*FileHolder).Swap`. -/
def FileHolder.Swap (h : FileHolder) (i j : Nat) : FileHolder :=
  match h.lines[i]?, h.lines[j]? with
  | some li, some lj => { h with lines := (h.lines.set i lj).set j li }
  | _, _ => h

/-- Modelled from the library: `sort.Sort(h)` only swaps lines and leaves them
in ascending order as `Less` determines it, so `sorted` can be what it leaves in
`h.lines` when it is a permutation of the lines in which no line is `Less` than
a line before it. -/
def SortResult (pf : Str → Option Float) (h : FileHolder) (sorted : List Str) : Prop :=
  sorted.Perm h.lines ∧ sorted.Pairwise fun a b => h.lessLines pf b a = some false

/-- The loop of `WriteOutput` on the lines still to be handled: `uniqueKeys`
are the keys of the map, `n` the bytes written so far. -/
def FileHolder.writeLoop (pf : Str → Option Float) (h : FileHolder) :
    List KeyVal → List Str → Writer → Nat → Writer × Nat × Option Err
  | _, [], writer, n => (writer, n, none)
  | uniqueKeys, line :: rest, writer, n =>
    let k := h.Key pf line
    if uniqueKeys.any (fun k1 => k1.same k) && h.unique then
      FileHolder.writeLoop pf h uniqueKeys rest writer n
    else
      match writer.Write (line ++ ['\n']) with
      | (writer1, m, some err) => (writer1, n + m, some err)
      | (writer1, m, none) => FileHolder.writeLoop pf h (k :: uniqueKeys) rest writer1 (n + m)

/-- `(*FileHolder).WriteOutput`: the writer afterwards, the number of bytes
written and the error. -/
def FileHolder.WriteOutput (pf : Str → Option Float) (h : FileHolder) (writer : Writer) :
    Writer × Nat × Option Err :=
  h.writeLoop pf [] h.lines writer 0

/-- What the documentation of the flag `-u` asks for, in its words: the lines
whose key is not equal to the key of an already processed line, `earlier` being
the lines processed before. -/
def firstOfKey (key : Str → Str) : List Str → List Str → List Str
  | _, [] => []
  | earlier, line :: rest =>
    if key line ∈ earlier.map key then firstOfKey key (earlier ++ [line]) rest
    else line :: firstOfKey key (earlier ++ [line]) rest

end Dev03

namespace Dev03

open Dev08 (Str)

/-- The lines of the input of `TestFileHolder`. -/
def testInput : List Str :=
  ["5 0".toList, "10 1".toList, "4 2".toList, "3 3".toList, "3 3".toList, "2 4".toList,
    "2 5".toList]

/-- The holders of the first four cases of `TestFileHolder`: the whole line is
the key. -/
def testHolder (reverseOrder unique : Bool) : FileHolder :=
  { lines := testInput, columnIndex := -1, arithmeticValue := false,
    reverseOrder := reverseOrder, unique := unique }

end Dev03

namespace Dev05

open Dev08 (Str Err)
open Golang

/-- `LinePredicate`. -/
abbrev LinePredicate := Str → Bool

/-- `Search`: the lines, the map `matches` (here `matches_`) from line numbers
to whether the line matches (`none` for a key that is absent), the flag
`invert` and the number of matching lines. -/
structure Search where
  sourceLines : List Str
  matches_ : Int → Option Bool
  invert : Bool
  count : Int

/-- `m[k]` on a `map[int]bool`: `false` for a key that is absent. -/
def lookup (m : Int → Option Bool) (k : Int) : Bool :=
  (m k).getD false

/-- `m[k] = v` on a `map[int]bool`. -/
def store (m : Int → Option Bool) (k : Int) (v : Bool) : Int → Option Bool :=
  fun j => if j = k then some v else m j

/-- The loop of `Find` from the line with the index `i` on. -/
def Search.findLoop (predicate : LinePredicate) : Nat → List Str → Search → Search
  | _, [], s => s
  | i, line :: rest, s =>
    let r := predicate line
    let r := if s.invert then !r else r
    Search.findLoop predicate (i + 1) rest
      { s with matches_ := store s.matches_ i r, count := if r then s.count + 1 else s.count }

/-- `(*Search).Find`. -/
def Search.Find (s : Search) (predicate : LinePredicate) : Search :=
  Search.findLoop predicate 0 s.sourceLines s

/-- `Printer`. -/
structure Printer where
  linesBefore : Int
  linesAfter : Int
  lineNumbers : Bool
  onlyCount : Bool

/-- The loop of `Print` from the line with the index `i` on, with the values of
`shouldPrint` and `lastMatch`, the writer and the number `n` of bytes written
so far. -/
def Printer.printLoop (p : Printer) (search : Search) :
    Nat → List Str → Bool → Int → Writer → Nat → Writer × Nat × Option Err
  | _, [], _, _, writer, n => (writer, n, none)
  | i, line :: rest, shouldPrint, lastMatch, writer, n =>
    let currentMatches := lookup search.matches_ i
    let hasMatchFurther :=
      decide (wrap (i + p.linesBefore) < search.sourceLines.length) &&
        lookup search.matches_ (wrap (i + p.linesBefore))
    let shouldPrint := shouldPrint || currentMatches || hasMatchFurther
    let lastMatch := if currentMatches then (i : Int) else lastMatch
    let printed : Writer × Nat × Option Err :=
      if shouldPrint then
        let numbered : Writer × Nat × Option Err :=
          if p.lineNumbers then
            match writer.Write
                ((toString (i + 1)).toList ++ (if currentMatches then [':'] else ['-'])) with
            | (writer1, m, err) => (writer1, n + m, err)
          else (writer, n, none)
        match numbered with
        | (writer1, n1, some err) => (writer1, n1, some err)
        | (writer1, n1, none) =>
          match writer1.Write (line ++ ['\n']) with
          | (writer2, m, err) => (writer2, n1 + m, err)
      else (writer, n, none)
    match printed with
    | (writer1, n1, some err) => (writer1, n1, some err)
    | (writer1, n1, none) =>
      let shouldPrint := if wrap (lastMatch + p.linesAfter) ≤ i then false else shouldPrint
      Printer.printLoop p search (i + 1) rest shouldPrint lastMatch writer1 n1

/-- `(*Printer).Print`: the writer afterwards, the number of bytes written and
the error. -/
def Printer.Print (p : Printer) (search : Search) (writer : Writer) :
    Writer × Nat × Option Err :=
  if p.onlyCount then writer.Write ((toString search.count).toList ++ ['\n'])
  else p.printLoop search 0 search.sourceLines false (-1) writer 0

/-- The search of `TestSearch_Find` before `Find`. -/
def testSearch (invert : Bool) : Search :=
  { sourceLines := ["2".toList, "2".toList, "1".toList, "1".toList, "2".toList, "2".toList],
    matches_ := fun _ => none, invert := invert, count := 0 }

end Dev05

namespace Dev05

open Dev08 (Str)

/-- Three lines of which only the last one matches: the search `Find` leaves
for the lines `a`, `b`, `m` and the pattern `m`. -/
def gapSearch : Search :=
  ({ sourceLines := ["a".toList, "b".toList, "m".toList],
     matches_ := fun _ => none, invert := false, count := 0 } : Search).Find
    fun l => l == "m".toList

end Dev05

/-!
# `cut` (`develop/dev06/task.go`)

Modelling conventions.

* A call ends in a value or in a `Fault`: a panic, or, for the loop of
  `GetEntries`, which is run with fuel, the end of the fuel. An `error` result
  of Go is an `Except` inside the value.
* Go's `int` is an `Int`; the step `i++` of `GetEntries` wraps around at 64
  bits (`Golang.wrap`).
* The set `values` of `GetColumns`, a `map[int]struct{}`, is the list of its
  keys without repetition; `sort.Ints` is library code and leaves the keys in
  increasing order.
* `strings.Contains`, `strings.Split` and `strings.Join` take the delimiter of
  `-d`, which may be any string.
-/

namespace Golang

open Dev08 (Str Err)

/-- How a call ends when it does not return. -/
inductive Fault where
  /-- A run-time panic with its message. -/
  | panic (message : String)
  /-- The loop was still running when the fuel was used up. -/
  | outOfFuel
deriving DecidableEq, Repr

deriving instance DecidableEq for Except

/-- Modelled from the library: `strings.Contains(s, substr)`. -/
def Contains : Str → Str → Bool
  | [], substr => substr.isEmpty
  | c :: cs, substr => substr.isPrefixOf (c :: cs) || Contains cs substr

/-- The scan of `strings.Split` for a non-empty separator: `skip` characters of
a separator found are still to be passed over, `piece` holds the current piece
in reverse. -/
def splitLoop (sep : Str) : Nat → Str → Str → List Str
  | _, [], piece => [piece.reverse]
  | skip + 1, _ :: cs, piece => splitLoop sep skip cs piece
  | 0, c :: cs, piece =>
    if sep.isPrefixOf (c :: cs) then piece.reverse :: splitLoop sep (sep.length - 1) cs []
    else splitLoop sep 0 cs (c :: piece)

/-- Modelled from the library: `strings.Split(s, sep)`, which cuts `s` at the
occurrences of `sep` found from the left, and into its characters when `sep`
is empty. -/
def SplitStr (s sep : Str) : List Str :=
  if sep = [] then s.map fun c => [c] else splitLoop sep 0 s []

/-- Modelled from the library: `strings.Join(elems, sep)`. -/
def JoinStr (elems : List Str) (sep : Str) : Str :=
  List.intercalate sep elems

/-- Modelled from the library: `sort.Ints`, which leaves the numbers in
increasing order. -/
def sortInts (l : List Int) : List Int :=
  l.insertionSort (· ≤ ·)

end Golang

namespace Dev06

open Dev08 (Str Split Atoi)
open Golang

/-- The type of a bound that is not written out. The Go type is a `byte`; only
the three named values are ever made. -/
inductive ConstraintType where
  | NoConstraint
  | ConstraintMin
  | ConstraintMax
deriving DecidableEq, Repr

/-- A bound of a range. -/
structure RangeBound where
  Constraint : ConstraintType
  Explicit : Int
deriving DecidableEq, Repr

/-- A range: one bound for a single value, two bounds for an interval. -/
structure Range where
  Bounds : List RangeBound
deriving DecidableEq, Repr

/-- The numbers of the chosen columns, as ranges. -/
structure ColumnSelector where
  Ranges : List Range
deriving DecidableEq, Repr

def NewColumnSelector (ranges : List Range) : ColumnSelector :=
  { Ranges := ranges }

/-- `NewRange(bounds...)`: panics unless there are one or two bounds. -/
def NewRange (bounds : List RangeBound) : Except Fault Range :=
  if bounds.length = 0 ∨ bounds.length > 2 then .error (.panic "invalid list of bounds")
  else .ok { Bounds := bounds }

def NewSpecificRangeBound (specific : Int) : RangeBound :=
  { Explicit := specific, Constraint := .NoConstraint }

/-- `NewRangeBound(constraint)`: panics on `NoConstraint`. -/
def NewRangeBound (constraint : ConstraintType) : Except Fault RangeBound :=
  if constraint = .NoConstraint then .error (.panic "attempted to create an empty range")
  else .ok { Explicit := -1, Constraint := constraint }

/-- `GetValue(min, max)`: the value of a bound, `min` or `max` for a bound that
is not written out. -/
def RangeBound.GetValue (r : RangeBound) (min max : Int) : Except Fault Int :=
  match r.Constraint with
  | .NoConstraint =>
    if r.Explicit < 0 then .error (.panic "requested a value of an empty bound")
    else .ok r.Explicit
  | .ConstraintMin => .ok min
  | .ConstraintMax => .ok max

/-- The loop `for i := ..; i <= hi; i++ { result = append(result, i) }` of
`GetEntries`; one unit of fuel pays for one test of `i <= hi`. -/
def entriesLoop (hi : Int) : Nat → Int → List Int → Except Fault (List Int)
  | 0, _, _ => .error .outOfFuel
  | fuel + 1, i, result =>
    if i ≤ hi then entriesLoop hi fuel (wrap (i + 1)) (result ++ [i]) else .ok result

/-- `GetEntries(min, max)`: the values of the range. -/
def Range.GetEntries (fuel : Nat) (r : Range) (min max : Int) : Except Fault (List Int) :=
  match r.Bounds with
  | [value] =>
    if value.Explicit < 0 then .error (.panic "faced a single bound without a specific value")
    else .ok [value.Explicit]
  | [start, end_] =>
    match start.GetValue min max with
    | .error fault => .error fault
    | .ok lo =>
      match end_.GetValue min max with
      | .error fault => .error fault
      | .ok hi => entriesLoop hi fuel lo []
  | _ => .error (.panic "invalid length of bound list")

/-- `values[v] = struct{}{}` on the set of keys. -/
def insertKey (values : List Int) (v : Int) : List Int :=
  if v ∈ values then values else values ++ [v]

/-- The inner loop of `GetColumns` over the entries of one range. -/
def collectEntries (max : Int) : List Int → List Int → List Int
  | [], values => values
  | v :: vs, values =>
    if v < 1 ∨ v > max then collectEntries max vs values
    else collectEntries max vs (insertKey values v)

/-- The outer loop of `GetColumns` over the ranges. -/
def collectRanges (fuel : Nat) (max : Int) : List Range → List Int → Except Fault (List Int)
  | [], values => .ok values
  | r :: rs, values =>
    match r.GetEntries fuel 1 max with
    | .error fault => .error fault
    | .ok entries => collectRanges fuel max rs (collectEntries max entries values)

/-- `GetColumns(max)`: the chosen column numbers within `[1, max]`, sorted. -/
def ColumnSelector.GetColumns (fuel : Nat) (c : ColumnSelector) (max : Int) :
    Except Fault (List Int) :=
  match collectRanges fuel max c.Ranges [] with
  | .error fault => .error fault
  | .ok values => .ok (sortInts values)

/-- The errors of `ParseRange`. -/
inductive RangeError where
  /-- The text `empty range value`. -/
  | emptyValue
  /-- The text `invalid range: ` and the input. -/
  | invalidRange (input : Str)
  /-- The text `parsing bound value: ` and the error of `strconv.Atoi` on the
  input. -/
  | boundValue (input : Str)
deriving DecidableEq, Repr

/-- `parseRangeBound(input, constraint)`: a number, or nothing for a bound that
is not written out. -/
def parseRangeBound (input : Str) (constraint : ConstraintType) :
    Except Fault (Except RangeError RangeBound) :=
  if input = [] then
    match NewRangeBound constraint with
    | .error fault => .error fault
    | .ok bound => .ok (.ok bound)
  else
    match Atoi input with
    | none => .ok (.error (.boundValue input))
    | some value => .ok (.ok (NewSpecificRangeBound value))

/-- `ParseRange(input)`: the range written as `N`, `N-M`, `N-`, `-M` or `-`. -/
def ParseRange (input : Str) : Except Fault (Except RangeError Range) :=
  match Split input '-' with
  | [raw] =>
    if raw = [] then .ok (.error .emptyValue)
    else
      match parseRangeBound raw .NoConstraint with
      | .error fault => .error fault
      | .ok (.error err) => .ok (.error err)
      | .ok (.ok bound) =>
        match NewRange [bound] with
        | .error fault => .error fault
        | .ok r => .ok (.ok r)
  | [left, right] =>
    match parseRangeBound left .ConstraintMin with
    | .error fault => .error fault
    | .ok (.error err) => .ok (.error err)
    | .ok (.ok leftBound) =>
      match parseRangeBound right .ConstraintMax with
      | .error fault => .error fault
      | .ok (.error err) => .ok (.error err)
      | .ok (.ok rightBound) =>
        match NewRange [leftBound, rightBound] with
        | .error fault => .error fault
        | .ok r => .ok (.ok r)
  | _ => .ok (.error (.invalidRange input))

/-- The error of `ParseColumnSelector`: the text `error parsing range ` with
the range in quotes and the error of `ParseRange`. -/
structure SelectorError where
  rawRange : Str
  err : RangeError
deriving DecidableEq, Repr

/-- The loop of `ParseColumnSelector` over the parts of the input. -/
def parseRanges : List Str → Except Fault (Except SelectorError (List Range))
  | [] => .ok (.ok [])
  | rawRange :: rest =>
    match ParseRange rawRange with
    | .error fault => .error fault
    | .ok (.error err) => .ok (.error { rawRange := rawRange, err := err })
    | .ok (.ok r) =>
      match parseRanges rest with
      | .error fault => .error fault
      | .ok (.error err) => .ok (.error err)
      | .ok (.ok ranges) => .ok (.ok (r :: ranges))

/-- `ParseColumnSelector(input)`: the ranges between the commas. -/
def ParseColumnSelector (input : Str) : Except Fault (Except SelectorError ColumnSelector) :=
  match parseRanges (Split input ',') with
  | .error fault => .error fault
  | .ok (.error err) => .ok (.error err)
  | .ok (.ok ranges) => .ok (.ok (NewColumnSelector ranges))

/-- The settings of the run. -/
structure Processor where
  fields : ColumnSelector
  delimiter : Str
  onlySeparated : Bool

/-- The loop `result[i] = allParts[col-1]` of `ProcessLine`; an index outside
`allParts` panics. -/
def pickColumns (allParts : List Str) : List Int → Except Fault (List Str)
  | [] => .ok []
  | col :: cols =>
    if col - 1 < 0 then .error (.panic "index out of range")
    else
      match allParts[(col - 1).toNat]? with
      | none => .error (.panic "index out of range")
      | some part =>
        match pickColumns allParts cols with
        | .error fault => .error fault
        | .ok result => .ok (part :: result)

/-- `ProcessLine(line)`: the line to print and whether to print it. -/
def Processor.ProcessLine (fuel : Nat) (p : Processor) (line : Str) :
    Except Fault (Str × Bool) :=
  if !Contains line p.delimiter then
    if p.onlySeparated then .ok ([], false) else .ok (line, true)
  else
    match p.fields.GetColumns fuel (SplitStr line p.delimiter).length with
    | .error fault => .error fault
    | .ok requestedColumns =>
      match pickColumns (SplitStr line p.delimiter) requestedColumns with
      | .error fault => .error fault
      | .ok result => .ok (JoinStr result p.delimiter, true)

end Dev06

namespace Dev06

open Dev08 (Str)
open Golang

/-- The value a written bound stands for, `missing` when it is not written. -/
def RangeBound.valueOr (b : RangeBound) (missing : Int) : Int :=
  if b.Constraint = .NoConstraint then b.Explicit else missing

/-- Whether a range covers the column `v` when there are `max` columns: a
single value `N` covers only `N`; `lo-hi` covers every `v` with
`lo <= v <= hi`, a missing `lo` meaning 1 and a missing `hi` meaning `max`. -/
def Range.covers (r : Range) (max v : Int) : Bool :=
  match r.Bounds with
  | [value] => decide (v = value.Explicit)
  | [lo, hi] => decide (lo.valueOr 1 ≤ v) && decide (v ≤ hi.valueOr max)
  | _ => false

/-- The selector `ParseColumnSelector` returns for `1-9223372036854775807`,
whose upper bound is the largest `int`. -/
def maxIntSelector : ColumnSelector :=
  NewColumnSelector [{ Bounds := [NewSpecificRangeBound 1, NewSpecificRangeBound (2 ^ 63 - 1)] }]

end Dev06

/-!
# The calendar server (`develop/dev11/task.go`)

Modelling conventions.

* A `time.Time` is the instant it stands for, in nanoseconds (`Time`);
  `Before` and `After` compare instants.
* The map `events` is an association list without repeated keys (`AList`), and
  a `*Event` is the event it points to. An `int64` id is an `Int`; `lastId++`
  wraps around at 64 bits.
* The calls on a calendar are made one after another; its lock is left out. A
  method returns the calendar it leaves behind.
* `strconv.ParseInt`, `time.Parse` and `Time.Format` are library code: they are
  the oracle `Std`. `goStd` is the library with `strconv.ParseInt(s, 10, 64)`
  and `time.Parse(dateFormat, s)` modelled; only the texts of their errors and
  `Format` are left to oracles.
* An `http.Request` is its method and what `ParseForm` makes of its body; what
  a handler writes is the status, the content type and the value handed to the
  JSON encoder.
-/

namespace Dev11

open Dev08 (Str Err TrimSpace)
open Golang

/-- A `time.Time`: the instant, in nanoseconds since the start of 1970. -/
structure Time where
  nanos : Int
deriving DecidableEq, Repr

/-- `t.Before(u)`. -/
def Time.Before (t u : Time) : Bool :=
  decide (t.nanos < u.nanos)

/-- `t.After(u)`. -/
def Time.After (t u : Time) : Bool :=
  decide (u.nanos < t.nanos)

/-- The zero `time.Time`, the start of the year 1. -/
def Time.zero : Time :=
  { nanos := -62135596800000000000 }

/-- An event of the calendar. -/
structure Event where
  Name : Str
  Date : Time
deriving DecidableEq, Repr

/-- A `map[int64]*Event`. -/
abbrev Events := AList fun _ : Int => Event

/-- The calendar: the events by id and the id given out last. -/
structure Calendar where
  events : Events
  lastId : Int

def NewCalendar : Calendar :=
  { events := ∅, lastId := 0 }

/-- `CreateEvent(event)`: the calendar afterwards and the new id. -/
def Calendar.CreateEvent (c : Calendar) (event : Event) : Calendar × Int :=
  let lastId := wrap (c.lastId + 1)
  ({ events := c.events.insert lastId event, lastId := lastId }, lastId)

/-- `UpdateEvent(id, event)`: the calendar afterwards and whether the id was
there. -/
def Calendar.UpdateEvent (c : Calendar) (id : Int) (event : Event) : Calendar × Bool :=
  match c.events.lookup id with
  | none => (c, false)
  | some _ => ({ c with events := c.events.insert id event }, true)

/-- `DeleteEvent(id)`. -/
def Calendar.DeleteEvent (c : Calendar) (id : Int) : Calendar :=
  { c with events := c.events.erase id }

/-- The loop of `GetEvents` over the entries of the map. -/
def getEventsLoop (since till : Time) : List (Sigma fun _ : Int => Event) → Events → Events
  | [], result => result
  | ⟨id, event⟩ :: rest, result =>
    if event.Date.Before since || event.Date.After till then getEventsLoop since till rest result
    else getEventsLoop since till rest (result.insert id event)

/-- `GetEvents(since, till)`: the calendar afterwards and the events found. -/
def Calendar.GetEvents (c : Calendar) (since till : Time) : Calendar × Events :=
  (c, getEventsLoop since till c.events.entries ∅)

/-- A call of one of the three methods that write to the calendar. -/
inductive Call where
  | create (event : Event)
  | update (id : Int) (event : Event)
  | delete (id : Int)

def Call.isCreate : Call → Bool
  | .create _ => true
  | _ => false

/-- The calendar after a call. -/
def Calendar.call (c : Calendar) : Call → Calendar
  | .create event => (c.CreateEvent event).1
  | .update id event => (c.UpdateEvent id event).1
  | .delete id => c.DeleteEvent id

/-- The calendar after a sequence of calls. -/
def Calendar.calls (c : Calendar) (l : List Call) : Calendar :=
  l.foldl Calendar.call c

/-! ## The HTTP server -/

def StatusOK : Nat := 200
def StatusNoContent : Nat := 204
def StatusBadRequest : Nat := 400
def StatusNotFound : Nat := 404
def StatusMethodNotAllowed : Nat := 405
def StatusServiceUnavailable : Nat := 503

def MethodGet : String := "GET"
def MethodPost : String := "POST"

/-- The library functions of the server. -/
structure Std where
  /-- The results of `strconv.ParseInt(s, 10, 64)`. -/
  ParseInt : Str → Int × Option Err
  /-- The results of `time.Parse(dateFormat, s)`. -/
  Parse : Str → Time × Option Err
  /-- `t.Format(dateFormat)`. -/
  Format : Time → Str

/-- `url.Values`: the values of every key. -/
abbrev Values := String → List Str

/-- `values.Get(key)`: the first value of the key, or the empty string. -/
def Values.Get (values : Values) (key : String) : Str :=
  (values key).headD []

/-- An error the server has dealt with. -/
structure ErrorResponse where
  code : Nat
  Message : Err
deriving DecidableEq, Repr

def NewErrorResponse (code : Nat) (message : Err) : ErrorResponse :=
  { code := code, Message := message }

/-- A value of the interface `error`: an `*ErrorResponse`, or an error of some
other type. -/
inductive GoError where
  | response (e : ErrorResponse)
  | other (message : Err)
deriving DecidableEq, Repr

/-- `errors.As(err, &errorResponse)`. -/
def GoError.asErrorResponse : GoError → Option ErrorResponse
  | .response e => some e
  | .other _ => none

/-- A request that holds an id. -/
structure IdRequest where
  ID : Int
deriving DecidableEq, Repr

/-- `(*IdRequest).Parse(values)`. -/
def IdRequest.Parse (std : Std) (r : IdRequest) (values : Values) :
    IdRequest × Option GoError :=
  match std.ParseInt (values.Get "id") with
  | (id, some err) =>
    ({ r with ID := id }, some (.response (NewErrorResponse StatusBadRequest err)))
  | (id, none) => ({ r with ID := id }, none)

/-- A request that holds an event. -/
structure EventRequest where
  Name : Str
  Date : Time
deriving DecidableEq, Repr

/-- `(*EventRequest).Parse(values)`. -/
def EventRequest.Parse (std : Std) (e : EventRequest) (values : Values) :
    EventRequest × Option GoError :=
  match std.Parse (values.Get "date") with
  | (date, some err) =>
    ({ e with Date := date }, some (.response (NewErrorResponse StatusBadRequest err)))
  | (date, none) =>
    if TrimSpace (values.Get "name") = [] then
      ({ Name := TrimSpace (values.Get "name"), Date := date },
        some (.response (NewErrorResponse StatusBadRequest "name cannot be empty")))
    else ({ Name := TrimSpace (values.Get "name"), Date := date }, none)

/-- A request that holds an id and an event. -/
structure EventRequestWithId where
  IdRequest : IdRequest
  EventRequest : EventRequest
deriving DecidableEq, Repr

/-- `(*EventRequestWithId).Parse(values)`. -/
def EventRequestWithId.Parse (std : Std) (e : EventRequestWithId) (values : Values) :
    EventRequestWithId × Option GoError :=
  match e.IdRequest.Parse std values with
  | (idRequest, some err) => ({ e with IdRequest := idRequest }, some err)
  | (idRequest, none) =>
    match e.EventRequest.Parse std values with
    | (eventRequest, err) => ({ IdRequest := idRequest, EventRequest := eventRequest }, err)

/-- `new(EventRequestWithId)`. -/
def EventRequestWithId.new : EventRequestWithId :=
  { IdRequest := { ID := 0 }, EventRequest := { Name := [], Date := Time.zero } }

/-- The answer that describes an event. -/
structure EventResponse where
  ID : Int
  Name : Str
  Date : Str
deriving DecidableEq, Repr

/-- The `any` a handler returns. -/
inductive Payload where
  | nil
  | event (e : EventResponse)
  | events (l : List EventResponse)
deriving DecidableEq, Repr

/-- An `http.Request`: the method, the form read so far and what `ParseForm`
makes of the body. -/
structure Request where
  Method : String
  PostForm : Values
  body : Values × Option Err

/-- `r.ParseForm()`. -/
def Request.ParseForm (r : Request) : Request × Option Err :=
  ({ r with PostForm := r.body.1 }, r.body.2)

/-- A `handler` on the calendar of the server. -/
abbrev Handler := Calendar → Request → Calendar × Payload × Option GoError

/-- `(*CalendarServer).UpdateEvent`. -/
def CalendarServer.UpdateEvent (std : Std) : Handler := fun c r =>
  match EventRequestWithId.new.Parse std r.PostForm with
  | (_, some err) => (c, .nil, some err)
  | (request, none) =>
    match c.UpdateEvent request.IdRequest.ID
        { Name := request.EventRequest.Name, Date := request.EventRequest.Date } with
    | (c1, false) =>
      (c1, .nil, some (.response (NewErrorResponse StatusNotFound "event not found")))
    | (c1, true) =>
      (c1, .event { ID := request.IdRequest.ID, Name := request.EventRequest.Name,
                    Date := std.Format request.EventRequest.Date }, none)

/-- The value handed to the JSON encoder. -/
inductive Body where
  /-- An `*ErrorResponse`, encoded with the one key `error`. -/
  | error (e : ErrorResponse)
  /-- A `*Response`, encoded with the one key `result`. -/
  | result (p : Payload)
deriving DecidableEq, Repr

/-- What has been written to the `http.ResponseWriter`. -/
structure Written where
  status : Nat
  contentType : Option String
  body : Option Body
deriving DecidableEq, Repr

/-- `writeResponse(w, data, status)`. -/
def writeResponse (data : Body) (status : Nat) : Written :=
  if status = StatusNoContent then { status := status, contentType := none, body := none }
  else { status := status, contentType := some "application/json", body := some data }

/-- `(*ErrorResponse).write(w)`. -/
def ErrorResponse.write (e : ErrorResponse) : Written :=
  writeResponse (.error e) e.code

/-- The handler `makeHandler(method, handler)` returns: the calendar afterwards
and what was written. -/
def makeHandler (method : String) (handler : Handler) (c : Calendar) (r : Request) :
    Calendar × Written :=
  if r.Method ≠ method then
    (c, (NewErrorResponse StatusMethodNotAllowed "invalid request method").write)
  else
    match (if r.Method = MethodPost then r.ParseForm else (r, none)) with
    | (_, some err) => (c, (NewErrorResponse StatusBadRequest err).write)
    | (r1, none) =>
      match handler c r1 with
      | (c1, _, some err) =>
        match err.asErrorResponse with
        | some errorResponse => (c1, errorResponse.write)
        | none =>
          (c1, ({ code := StatusServiceUnavailable, Message := "service error" } :
            ErrorResponse).write)
      | (c1, result, none) =>
        (c1, writeResponse (.result result)
          (if result = .nil then StatusNoContent else StatusOK))

/-- A library for the examples: `ParseInt` reads what `Atoi` reads, and
`Parse` knows the one date `2019-09-09`. -/
def exampleStd : Std where
  ParseInt s :=
    match Dev08.Atoi s with
    | some v => (v, none)
    | none => (0, some "invalid syntax")
  Parse s :=
    if s = "2019-09-09".toList then ({ nanos := 1567987200000000000 }, none)
    else (Time.zero, some "cannot parse")
  Format t :=
    if t = { nanos := 1567987200000000000 } then "2019-09-09".toList else "0001-01-01".toList

/-- The form `id=<id>&name=<name>&date=<date>`. -/
def exampleForm (id name date : String) : Values := fun key =>
  if key = "id" then [id.toList]
  else if key = "name" then [name.toList]
  else if key = "date" then [date.toList]
  else []

end Dev11

namespace Dev08

/-- The units the first loop of `processChain` builds for the line
`echo a|cat` in the shell of `main`. -/
def echoCatBuilt : List Executable :=
  [Executable.internal
      { stdin := some File.stdout, stdout := none, command := echo OS.allOk,
        args := ["a".toList], shouldCloseOut := false },
    Executable.external
      { name := "cat".toList, args := [], stdin := none, stdout := some File.stdin }]

/-- The units of `echo a|cat` after the wiring loop. -/
def echoCatUnits : List Executable :=
  [Executable.internal
      { stdin := some File.stdout, stdout := some (File.pipeWrite 0), command := echo OS.allOk,
        args := ["a".toList], shouldCloseOut := true },
    Executable.external
      { name := "cat".toList, args := [], stdin := some (File.pipeRead 0),
        stdout := some File.stdin }]

end Dev08

/-!
# The or-channel (`develop/dev07/task.go`)

Modelling conventions.

* The goroutines started by `or` and the code around it run interleaved: a
  state holds which input channels are closed, where every goroutine `wait`
  is and whether the returned channel is closed, and an `Action` is one step of
  a goroutine or of the code that owns the input channels.
* Values are numbers; a channel has no buffer.
-/

namespace Dev07

/-- Where a goroutine `wait(c, m)` is. -/
inductive Wait where
  /-- In `range c`: waiting for a value or for the close of `c`. -/
  | receiving
  /-- At `m <- v`: waiting for a receiver on `m`. -/
  | sending (v : Nat)
  /-- After the loop: the goroutine has returned. -/
  | returned
deriving DecidableEq, Repr

def Wait.isSending : Wait → Bool
  | .sending _ => true
  | _ => false

/-- The channels of one call of `or` and its goroutines. -/
structure State where
  /-- Whether the `i`-th input channel is closed. -/
  closed : List Bool
  /-- Where the goroutine of the `i`-th input channel is. -/
  waits : List Wait
  /-- Whether `merged`, the channel `or` returns, is closed. -/
  mergedClosed : Bool
  /-- The values received from `merged` so far. -/
  delivered : List Nat
deriving DecidableEq, Repr

/-- `or(channels...)`: `merged` is made, one goroutine `wait(c, merged)` is
started for every channel, and `merged` is returned. -/
def or (channels : List Bool) : State :=
  { closed := channels, waits := channels.map fun _ => Wait.receiving,
    mergedClosed := false, delivered := [] }

/-- One step of the system. -/
inductive Action where
  /-- The owner of the `i`-th input channel closes it. -/
  | close (i : Nat)
  /-- The owner of the `i`-th input channel sends `v`, and the goroutine of the
  channel receives it in `range c`. -/
  | send (i : Nat) (v : Nat)
  /-- The caller of `or` receives from `merged` the value the `i`-th goroutine
  is sending. -/
  | receive (i : Nat)
  /-- The `i`-th goroutine finds its channel closed, leaves `range c` and
  returns. -/
  | leave (i : Nat)
deriving DecidableEq, Repr

def Action.isSend : Action → Bool
  | .send _ _ => true
  | _ => false

/-- The state after a step; a step that cannot be taken changes nothing. -/
def State.step (s : State) : Action → State
  | .close i =>
    if s.closed[i]? = some false then { s with closed := s.closed.set i true } else s
  | .send i v =>
    if s.closed[i]? = some false ∧ s.waits[i]? = some Wait.receiving then
      { s with waits := s.waits.set i (Wait.sending v) }
    else s
  | .receive i =>
    match s.waits[i]? with
    | some (Wait.sending v) =>
      { s with waits := s.waits.set i Wait.receiving, delivered := s.delivered ++ [v] }
    | _ => s
  | .leave i =>
    if s.closed[i]? = some true ∧ s.waits[i]? = some Wait.receiving then
      { s with waits := s.waits.set i Wait.returned }
    else s

/-- The state after a sequence of steps. -/
def State.run (s : State) (actions : List Action) : State :=
  actions.foldl State.step s

/-- Whether a receive `<-merged` can complete: `merged` is closed or some
goroutine is sending on it. -/
def State.receiveReady (s : State) : Bool :=
  s.mergedClosed || s.waits.any Wait.isSending

end Dev07

namespace Dev11

open Dev08 (Str Err TrimSpace)
open Golang

/-! ## The other handlers and the clock -/

/-- `(*CalendarServer).CreateEvent`. -/
def CalendarServer.CreateEvent (std : Std) : Handler := fun c r =>
  match ({ Name := [], Date := Time.zero } : EventRequest).Parse std r.PostForm with
  | (_, some err) => (c, .nil, some err)
  | (request, none) =>
    match c.CreateEvent { Name := request.Name, Date := request.Date } with
    | (c1, id) =>
      (c1, .event { ID := id, Name := request.Name, Date := std.Format request.Date }, none)

/-- `(*CalendarServer).DeleteEvent`. -/
def CalendarServer.DeleteEvent (std : Std) : Handler := fun c r =>
  match ({ ID := 0 } : IdRequest).Parse std r.PostForm with
  | (_, some err) => (c, .nil, some err)
  | (request, none) => (c.DeleteEvent request.ID, .nil, none)

/-- `(*CalendarServer).eventsFor(since, till)`: the events found, as a slice,
which is never the `nil` of `any`. The order of the slice is the order in which
the map is ranged over. -/
def CalendarServer.eventsFor (std : Std) (c : Calendar) (since till : Time) :
    Calendar × Payload × Option GoError :=
  match c.GetEvents since till with
  | (c1, events) =>
    (c1, .events (events.entries.map fun x =>
      { ID := x.1, Name := x.2.Name, Date := std.Format x.2.Date }), none)

/-- `isLeap(year)`. -/
def isLeap (year : Int) : Bool :=
  year % 4 = 0 && (year % 100 ≠ 0 || year % 400 = 0)

/-- The days from the first of January 1970 to the first of January of
`year`. -/
def daysSinceEpoch (year : Int) : Int :=
  365 * (year - 1) + (year - 1) / 4 - (year - 1) / 100 + (year - 1) / 400 - 719162

/-- The days of a year without leap day before the first of `month`
(1 to 12). -/
def daysBefore (month : Int) : Int :=
  [0, 31, 59, 90, 120, 151, 181, 212, 243, 273, 304, 334].getD (month - 1).toNat 0

/-- The days from the first of January 1970 to the day `day` of `month` in
`year`, for any numbers: a month outside 1 to 12 is carried into the year, a
day outside the month is counted on from its first day. -/
def civilDays (year month day : Int) : Int :=
  let y := year + (month - 1) / 12
  let m := (month - 1) % 12 + 1
  daysSinceEpoch y + daysBefore m + (if isLeap y && decide (3 ≤ m) then 1 else 0) + (day - 1)

/-- Modelled from the library: `time.Date(year, month, day, hour, min, sec, 0,
loc)` for a location that is `offset` seconds east of UTC all the time; values
outside their usual ranges are carried over. -/
def Date (year month day hour min sec offset : Int) : Time :=
  { nanos := (civilDays year month day * 86400 + hour * 3600 + min * 60 + sec - offset) *
      1000000000 }

/-- What `time.Now()` reads: the date in the location of the clock and the
offset of the location. -/
structure Now where
  Year : Int
  Month : Int
  Day : Int
  offset : Int
deriving DecidableEq, Repr

/-- `now.Weekday()`: 0 is Sunday; the first of January 1970 was a Thursday. -/
def Now.Weekday (now : Now) : Int :=
  (civilDays now.Year now.Month now.Day + 4) % 7

/-- The two times `EventsForDay` passes to `eventsFor`. -/
def dayBounds (now : Now) : Time × Time :=
  (Date now.Year now.Month now.Day 0 0 0 now.offset,
    Date now.Year now.Month now.Day 23 59 59 now.offset)

/-- The two times `EventsForWeek` passes to `eventsFor`. -/
def weekBounds (now : Now) : Time × Time :=
  let start := now.Day - now.Weekday
  (Date now.Year now.Month start 0 0 0 now.offset,
    Date now.Year now.Month (start + 7) 23 59 59 now.offset)

/-- The two times `EventsForMonth` passes to `eventsFor`. -/
def monthBounds (now : Now) : Time × Time :=
  (Date now.Year now.Month 1 0 0 0 now.offset,
    Date now.Year (now.Month + 1) 0 23 59 59 now.offset)

/-- `(*CalendarServer).EventsForDay`, `now` being what `time.Now()` reads. -/
def CalendarServer.EventsForDay (std : Std) (now : Now) : Handler := fun c _ =>
  CalendarServer.eventsFor std c (dayBounds now).1 (dayBounds now).2

/-- `(*CalendarServer).EventsForWeek`, `now` being what `time.Now()` reads. -/
def CalendarServer.EventsForWeek (std : Std) (now : Now) : Handler := fun c _ =>
  CalendarServer.eventsFor std c (weekBounds now).1 (weekBounds now).2

/-- `(*CalendarServer).EventsForMonth`, `now` being what `time.Now()`
reads. -/
def CalendarServer.EventsForMonth (std : Std) (now : Now) : Handler := fun c _ =>
  CalendarServer.eventsFor std c (monthBounds now).1 (monthBounds now).2

/-- Wednesday, the 11th of September 2019, in UTC. -/
def exampleNow : Now :=
  { Year := 2019, Month := 9, Day := 11, offset := 0 }

/-- A calendar with one event, at noon of Sunday, the 15th of September
2019. -/
def exampleCalendar : Calendar :=
  (NewCalendar.CreateEvent { Name := "party".toList, Date := Date 2019 9 15 12 0 0 0 }).1

end Dev11

namespace Dev05

open Dev08 (Str Err)
open Golang

/-- The value of `shouldPrint` with which line `i` is printed or not: the
value carried over, or a match on the line, or a match `linesBefore` lines
ahead. -/
def Printer.shouldPrintAt (p : Printer) (search : Search) (i : Nat) (shouldPrint : Bool) : Bool :=
  shouldPrint || lookup search.matches_ i ||
    (decide (wrap (i + p.linesBefore) < search.sourceLines.length) &&
      lookup search.matches_ (wrap (i + p.linesBefore)))

/-- The value of `lastMatch` after line `i`. -/
def Search.lastMatchAt (search : Search) (i : Nat) (lastMatch : Int) : Int :=
  if lookup search.matches_ i then (i : Int) else lastMatch

/-- The value of `shouldPrint` that line `i` hands on to the next line. -/
def Printer.carried (p : Printer) (i : Nat) (shouldPrint : Bool) (lastMatch : Int) : Bool :=
  if wrap (lastMatch + p.linesAfter) ≤ i then false else shouldPrint

/-- What `Print` writes for line `i`: the line number with `:` or `-` when
line numbers are asked for, then the line and a newline. -/
def Printer.lineChunks (p : Printer) (search : Search) (i : Nat) (line : Str) : List Str :=
  (if p.lineNumbers then
      [(toString (i + 1)).toList ++ (if lookup search.matches_ i then [':'] else ['-'])]
    else []) ++ [line ++ ['\n']]

/-- What holds before line `i` is handled: `lastMatch` is -1 when no line
before `i` matches and the index of a matching line before `i` otherwise, and
when `shouldPrint` is set some matching line lies within the context of line
`i`. -/
def Printer.ContextInv (p : Printer) (search : Search) (i : Nat) (shouldPrint : Bool)
    (lastMatch : Int) : Prop :=
  (-1 ≤ lastMatch ∧ lastMatch < i) ∧
  (lastMatch = -1 → ∀ j : Nat, j < i → lookup search.matches_ j = false) ∧
  (0 ≤ lastMatch → lookup search.matches_ lastMatch = true) ∧
  (shouldPrint = true → ∃ j : Nat, j < search.sourceLines.length ∧
    lookup search.matches_ j = true ∧ (i : Int) - p.linesAfter ≤ j ∧ (j : Int) ≤ i + p.linesBefore)

end Dev05

namespace Dev05

open Dev08 (Str Err)
open Golang

/-- The writes of `Print` for a line that is printed: the writer afterwards,
the number of bytes written so far and the error. -/
def Printer.printLine (p : Printer) (search : Search) (i : Nat) (line : Str) (writer : Writer)
    (n : Nat) : Writer × Nat × Option Err :=
  let numbered : Writer × Nat × Option Err :=
    if p.lineNumbers then
      match writer.Write
          ((toString (i + 1)).toList ++ (if lookup search.matches_ i then [':'] else ['-'])) with
      | (writer1, m, err) => (writer1, n + m, err)
    else (writer, n, none)
  match numbered with
  | (writer1, n1, some err) => (writer1, n1, some err)
  | (writer1, n1, none) =>
    match writer1.Write (line ++ ['\n']) with
    | (writer2, m, err) => (writer2, n1 + m, err)

end Dev05

namespace Dev05

open Dev08 (Str)

/-- `NewSearch`, with the value of the flag `-v` as an argument: the map is
empty. -/
def NewSearch (invert : Bool) (lines : List Str) : Search :=
  { sourceLines := lines, matches_ := fun _ => none, invert := invert, count := 0 }

end Dev05

namespace Dev08

/-- The events of the state `c` are those of `runAll` on `sched`, the order in
which the goroutines that have called `exec` did so: each of them once. -/
def Conc.RanIn (os : OS) (commands : List Executable) (c : Conc) (sched : List Nat) : Prop :=
  c.events = runAll os commands sched ∧ sched.Nodup ∧
  ∀ i, i ∈ sched ↔ (c.tasks[i]? = some Task.executed ∨ c.tasks[i]? = some Task.done)

/-- The interleaving in which `processChain` starts the goroutines one at a
time, each running to its end before the next `go` statement, and then returns
from `wg.Wait()`. -/
def Conc.inTurn (k : Nat) : List Action :=
  (List.range k).flatMap (fun i => [Action.main, Action.task i, Action.task i]) ++ [Action.main]

/-- The state after the goroutines of the first `j` units have run in turn. -/
def Conc.after (os : OS) (commands : List Executable) (j : Nat) : Conc :=
  { counter := commands.length - j, launched := j,
    tasks := List.replicate j Task.done ++ List.replicate (commands.length - j) Task.notStarted,
    returned := false, events := runAll os commands (List.range j) }

end Dev08

namespace Golang

/-- `sort.Interface` for the values of a type `σ`: `Len`, `Less` (`none` is a
panic) and `Swap`, which gives the value afterwards. -/
structure Interface (σ : Type) where
  Len : σ → Nat
  Less : σ → Nat → Nat → Option Bool
  Swap : σ → Nat → Nat → σ

/-- The values the routines of package `sort` can leave of `s`: they change it
by `Swap` calls only, with indices below `Len`. -/
inductive Interface.Reach {σ : Type} (I : Interface σ) : σ → σ → Prop where
  | refl (s : σ) : Interface.Reach I s s
  | swap (s t : σ) (i j : Nat) :
    Interface.Reach I s t → i < I.Len t → j < I.Len t → Interface.Reach I s (I.Swap t i j)

/-- Modelled from the library: the implementations of `sort.Interface` package
`sort` is written for. In the state `s` the value is a sequence `elems s` of
`Len` elements, `Less i j` compares the elements at `i` and `j` with `lt`, and
`Swap i j` exchanges them. -/
def Interface.IsSequenceAt {σ α : Type} (I : Interface σ) (elems : σ → List α)
    (lt : α → α → Bool) (s : σ) : Prop :=
  I.Len s = (elems s).length ∧
  (∀ i j a b, (elems s)[i]? = some a → (elems s)[j]? = some b →
    I.Less s i j = some (lt a b)) ∧
  (∀ i j a b, (elems s)[i]? = some a → (elems s)[j]? = some b →
    elems (I.Swap s i j) = ((elems s).set i b).set j a)

/-- Modelled from the library: the contract of `sort.Sort`, "Sort sorts data in
ascending order as determined by the Less method", for a `Less` that is a
transitive ordering as the documentation of `sort.Interface` asks: on an
implementation that is a sequence, `sort` returns, has only called `Swap`, and
leaves no element `Less` than an element before it. -/
def SortContract (sort : (σ : Type) → Interface σ → σ → Option σ) : Prop :=
  ∀ (σ α : Type) (I : Interface σ) (elems : σ → List α) (lt : α → α → Bool) (s : σ),
    (∀ t, I.Reach s t → I.IsSequenceAt elems lt t) →
    (∀ a b, lt a b = true → lt b a = false) →
    (∀ a b c, lt b a = false → lt c b = false → lt c a = false) →
    ∃ t, sort σ I s = some t ∧ I.Reach s t ∧ (elems t).Pairwise fun a b => lt b a = false

/-- Modelled from the library: the inner loop of `insertionSort`,
`for j := i; j > a && data.Less(j, j-1); j-- { data.Swap(j, j-1) }`, from `j`
on. -/
def insertLoop {σ : Type} (I : Interface σ) (a : Nat) : Nat → σ → Option σ
  | 0, data => some data
  | j + 1, data =>
    if a < j + 1 then
      match I.Less data (j + 1) j with
      | none => none
      | some true => insertLoop I a j (I.Swap data (j + 1) j)
      | some false => some data
    else some data

/-- Modelled from the library: `insertionSort(data, a, b)` of package `sort`,
the routine `sort.Sort` sorts a short input with:
`for i := a + 1; i < b; i++` around the inner loop. -/
def insertionSort {σ : Type} (I : Interface σ) (data : σ) (a b : Nat) : Option σ :=
  (List.range' (a + 1) (b - (a + 1))).foldlM (fun d i => insertLoop I a i d) data

/-- Modelled from the library: `sort.Sort(data)` on an input short enough to be
sorted by `insertionSort(data, 0, n)` alone (at most 12 elements since Go 1.19). -/
def sortShort (σ : Type) (I : Interface σ) (data : σ) : Option σ :=
  insertionSort I data 0 (I.Len data)

end Golang

namespace Dev03

open Golang

/-- The methods `Len`, `Less` and `Swap` of `*FileHolder`: the `sort.Interface`
that `sort.Sort(holder)` is called with. -/
def FileHolder.interface (pf : Dev08.Str → Option Float) : Interface FileHolder :=
  { Len := FileHolder.Len, Less := FileHolder.Less pf, Swap := FileHolder.Swap }

end Dev03

namespace Dev11

open Dev08 (Str Err digitsValue)
open Golang

/-! ## `strconv.ParseInt` and `time.Parse`

The characters of a string stand for its bytes: a character outside ASCII is no
digit, no letter and no sign, as none of its bytes is. -/

/-- The errors of `strconv.ParseInt`: `ErrSyntax`, `ErrRange`, and those for a
base and for a bit size that are not allowed. -/
inductive NumError where
  | invalidSyntax
  | outOfRange
  | invalidBase
  | invalidBitSize
deriving DecidableEq, Repr

/-- The digit a character stands for in `ParseUint`: `0` to `9`, and 10 to 35
for the letters in either case. -/
def digitOf (c : Char) : Option Nat :=
  if '0' ≤ c ∧ c ≤ '9' then some (c.toNat - '0'.toNat)
  else if 'a' ≤ c ∧ c ≤ 'z' then some (c.toNat - 'a'.toNat + 10)
  else if 'A' ≤ c ∧ c ≤ 'Z' then some (c.toNat - 'A'.toNat + 10)
  else none

/-- Modelled from the library: the loop of `strconv.ParseUint` over the
characters, `n` being the value so far, a `uint64`. -/
def parseUintLoop (base maxVal : Nat) : Nat → Str → Nat × Option NumError
  | n, [] => (n, none)
  | n, c :: cs =>
    match digitOf c with
    | none => (0, some .invalidSyntax)
    | some d =>
      if base ≤ d then (0, some .invalidSyntax)
      else if (2 ^ 64 - 1) / base + 1 ≤ n then (maxVal, some .outOfRange)
      else if (n * base + d) % 2 ^ 64 < n * base ∨ maxVal < (n * base + d) % 2 ^ 64 then
        (maxVal, some .outOfRange)
      else parseUintLoop base maxVal ((n * base + d) % 2 ^ 64) cs

/-- Modelled from the library: `strconv.ParseUint(s, base, bitSize)` for a base
other than 0 (with the base 0, which the server does not use, the base is read
from the string). -/
def ParseUint (s : Str) (base bitSize : Nat) : Nat × Option NumError :=
  if s = [] then (0, some .invalidSyntax)
  else if base < 2 ∨ 36 < base then (0, some .invalidBase)
  else if 64 < bitSize then (0, some .invalidBitSize)
  else parseUintLoop base (2 ^ (if bitSize = 0 then 64 else bitSize) - 1) 0 s

/-- Modelled from the library: `strconv.ParseInt` after the sign is taken off:
`ParseUint` on the rest, then the check of the range. -/
def parseIntRest (neg : Bool) (s : Str) (base bitSize : Nat) : Int × Option NumError :=
  match ParseUint s base bitSize with
  | (_, some .invalidSyntax) => (0, some .invalidSyntax)
  | (_, some .invalidBase) => (0, some .invalidBase)
  | (_, some .invalidBitSize) => (0, some .invalidBitSize)
  | (un, _) =>
    if neg = false ∧ 2 ^ ((if bitSize = 0 then 64 else bitSize) - 1) ≤ un then
      (2 ^ ((if bitSize = 0 then 64 else bitSize) - 1) - 1, some .outOfRange)
    else if neg = true ∧ 2 ^ ((if bitSize = 0 then 64 else bitSize) - 1) < un then
      (-2 ^ ((if bitSize = 0 then 64 else bitSize) - 1), some .outOfRange)
    else (if neg then wrap (-wrap un) else wrap un, none)

/-- Modelled from the library: `strconv.ParseInt(s, base, bitSize)` for a base
other than 0: the value and the error. -/
def ParseInt (s : Str) (base bitSize : Nat) : Int × Option NumError :=
  match s with
  | [] => (0, some .invalidSyntax)
  | '+' :: rest => parseIntRest false rest base bitSize
  | '-' :: rest => parseIntRest true rest base bitSize
  | c :: rest => parseIntRest false (c :: rest) base bitSize

/-- The elements of a layout of package `time` that `dateFormat` is made of: the
year in four digits, the month and the day in two digits, and a character that
stands for itself. -/
inductive Elem where
  | stdLongYear
  | stdZeroMonth
  | stdZeroDay
  | text (c : Char)
deriving DecidableEq, Repr

/-- Modelled from the library: `nextStdChunk` applied again and again, for a
layout made of `2006`, `01`, `02` and of characters that start no other element
of a layout and are no space. -/
def layoutElems : Str → List Elem
  | [] => []
  | '2' :: '0' :: '0' :: '6' :: rest => .stdLongYear :: layoutElems rest
  | '0' :: '1' :: rest => .stdZeroMonth :: layoutElems rest
  | '0' :: '2' :: rest => .stdZeroDay :: layoutElems rest
  | c :: rest => .text c :: layoutElems rest

/-- The errors of `time.Parse`: a value that does not fit an element of the
layout, a month or a day out of range, and text after the last element. -/
inductive ParseError where
  | bad
  | monthOutOfRange
  | dayOutOfRange
  | extraText
deriving DecidableEq, Repr

/-- `isDigit(s, i)` of package `time`. -/
def isDigit (s : Str) (i : Nat) : Bool :=
  match s[i]? with
  | some c => decide ('0' ≤ c ∧ c ≤ '9')
  | none => false

/-- Modelled from the library: `leadingInt` of package `time`, the number the
leading digits write and the rest; `none` is `errLeadingInt`. -/
def leadingInt : Nat → Str → Option (Nat × Str)
  | x, [] => some (x, [])
  | x, c :: cs =>
    if c < '0' ∨ '9' < c then some (x, c :: cs)
    else if 2 ^ 63 / 10 < x then none
    else if 2 ^ 63 < x * 10 + (c.toNat - '0'.toNat) then none
    else leadingInt (x * 10 + (c.toNat - '0'.toNat)) cs

/-- Modelled from the library: `atoi` of package `time`; `none` is `errAtoi`. -/
def atoi (s : Str) : Option Int :=
  match leadingInt 0 (if s.head? = some '-' ∨ s.head? = some '+' then s.tail else s) with
  | none => none
  | some (q, rem) =>
    if rem ≠ [] then none
    else some (if s.head? = some '-' then wrap (-wrap q) else wrap q)

/-- Modelled from the library: `getnum(s, fixed)` of package `time`, a number of
one or two digits (of two when `fixed`) and the rest; `none` is `errBad`. -/
def getnum (s : Str) (fixed : Bool) : Option (Int × Str) :=
  if isDigit s 0 = false then none
  else if isDigit s 1 = false then
    if fixed then none else some ((s.headD '0').toNat - '0'.toNat, s.drop 1)
  else
    some ((((s.headD '0').toNat - '0'.toNat) * 10 + ((s.getD 1 '0').toNat - '0'.toNat) : Nat),
      s.drop 2)

/-- The year, the month and the day read so far by `time.Parse`. -/
structure Fields where
  year : Int
  month : Int
  day : Int
deriving DecidableEq, Repr

/-- Modelled from the library: the loop of `time.Parse` over the elements of
the layout, `value` being what is left of the text. -/
def parseElems : List Elem → Str → Fields → Except ParseError Fields
  | [], value, f => if value ≠ [] then .error .extraText else .ok f
  | .text c :: rest, value, f =>
    match value with
    | [] => .error .bad
    | v :: vs => if v = c then parseElems rest vs f else .error .bad
  | .stdLongYear :: rest, value, f =>
    if value.length < 4 ∨ isDigit value 0 = false then .error .bad
    else
      match atoi (value.take 4) with
      | none => .error .bad
      | some year => parseElems rest (value.drop 4) { f with year := year }
  | .stdZeroMonth :: rest, value, f =>
    match getnum value true with
    | none => .error .bad
    | some (month, value1) =>
      if month ≤ 0 ∨ 12 < month then .error .monthOutOfRange
      else parseElems rest value1 { f with month := month }
  | .stdZeroDay :: rest, value, f =>
    match getnum value true with
    | none => .error .bad
    | some (day, value1) => parseElems rest value1 { f with day := day }

/-- Modelled from the library: `daysIn(m, year)` of package `time`. -/
def daysIn (month year : Int) : Int :=
  if month = 2 ∧ isLeap year = true then 29
  else
    [0, 31, 59, 90, 120, 151, 181, 212, 243, 273, 304, 334, 365].getD month.toNat 0 -
      [0, 31, 59, 90, 120, 151, 181, 212, 243, 273, 304, 334, 365].getD (month - 1).toNat 0

/-- Modelled from the library: `time.Parse(layout, value)` for a layout that
`layoutElems` reads: the elements are read one after the other, a month or a
day that is missing is 1, the day has to be one of the month, and the result is
`time.Date(year, month, day, 0, 0, 0, 0, time.UTC)`; with an error the result is
the zero `time.Time`. -/
def Parse (layout value : Str) : Time × Option ParseError :=
  match parseElems (layoutElems layout) value { year := 0, month := -1, day := -1 } with
  | .error e => (Time.zero, some e)
  | .ok f =>
    if (if f.day < 0 then 1 else f.day) < 1 ∨
        daysIn (if f.month < 0 then 1 else f.month) f.year < (if f.day < 0 then 1 else f.day) then
      (Time.zero, some .dayOutOfRange)
    else
      (Date f.year (if f.month < 0 then 1 else f.month) (if f.day < 0 then 1 else f.day)
        0 0 0 0, none)

/-- The constant `dateFormat`. -/
def dateFormat : Str := "2006-01-02".toList

/-- The library of the server with `strconv.ParseInt` and `time.Parse` as
modelled above, called as the server calls them: `ParseInt(s, 10, 64)` and
`Parse(dateFormat, s)`. The texts of their errors are those of `intMessage` and
`timeMessage`. -/
def goStd (intMessage : Str → NumError → Err) (timeMessage : Str → ParseError → Err)
    (format : Time → Str) : Std where
  ParseInt s :=
    match ParseInt s 10 64 with
    | (v, none) => (v, none)
    | (v, some e) => (v, some (intMessage s e))
  Parse s :=
    match Parse dateFormat s with
    | (t, none) => (t, none)
    | (t, some e) => (t, some (timeMessage s e))
  Format := format

/-- Modelled from the spec: the integer a string writes in base 10, an optional
sign and one decimal digit or more. -/
def decimalValue : Str → Option Int
  | [] => none
  | '-' :: ds => if ds = [] then none else (digitsValue 0 ds).map fun (n : Nat) => -(n : Int)
  | '+' :: ds => if ds = [] then none else (digitsValue 0 ds).map fun (n : Nat) => (n : Int)
  | c :: ds => (digitsValue 0 (c :: ds)).map fun (n : Nat) => (n : Int)

/-- Modelled from the spec: the number of days of a month of the Gregorian
calendar. -/
def monthLength (year month : Nat) : Nat :=
  if month = 2 then
    if year % 4 = 0 ∧ (year % 100 ≠ 0 ∨ year % 400 = 0) then 29 else 28
  else if month = 4 ∨ month = 6 ∨ month = 9 ∨ month = 11 then 30
  else 31

/-- Modelled from the spec: the date a string writes in the format
`YYYY-MM-DD`: four digits, two digits and two digits with `-` between them that
name a year, a month from 1 to 12 and a day of that month. -/
def dateOf : Str → Option (Nat × Nat × Nat)
  | [y1, y2, y3, y4, s1, m1, m2, s2, d1, d2] =>
    if s1 = '-' ∧ s2 = '-' then
      match digitsValue 0 [y1, y2, y3, y4], digitsValue 0 [m1, m2], digitsValue 0 [d1, d2] with
      | some y, some m, some d =>
        if 1 ≤ m ∧ m ≤ 12 ∧ 1 ≤ d ∧ d ≤ monthLength y m then some (y, m, d) else none
      | _, _, _ => none
    else none
  | _ => none

end Dev11

/-! # Theorems on the pipe shell -/

namespace Dev08

/-! ## Lemmas on `Split` and `Join` -/

theorem Split_ne_nil (s : Str) (sep : Char) : Split s sep ≠ [] := by
  induction s with
  | nil => simp [Split]
  | cons c cs ih =>
    unfold Split
    split_ifs
    · simp
    · split <;> simp

theorem Split_length (s : Str) (sep : Char) : (Split s sep).length = s.count sep + 1 := by
  induction s with
  | nil => simp [Split]
  | cons c cs ih =>
    unfold Split
    split_ifs with h
    · subst h
      simp [ih]
    · have hne : (c == sep) = false := by simpa using h
      split
      · next h0 => exact absurd h0 (Split_ne_nil cs sep)
      · next t ts h0 =>
        rw [h0] at ih
        simpa [List.count_cons, hne] using ih

theorem Join_cons_head (c : Char) (t : Str) (ts : List Str) (sep : Char) :
    Join ((c :: t) :: ts) sep = c :: Join (t :: ts) sep := by
  cases ts <;> simp [Join]

theorem Join_Split (s : Str) (sep : Char) : Join (Split s sep) sep = s := by
  induction s with
  | nil => simp [Split, Join]
  | cons c cs ih =>
    unfold Split
    split_ifs with h
    · subst h
      cases h0 : Split cs c with
      | nil => exact absurd h0 (Split_ne_nil cs c)
      | cons t ts =>
        rw [h0] at ih
        simp [Join, ih]
    · split
      · next h0 => exact absurd h0 (Split_ne_nil cs sep)
      · next t ts h0 =>
        rw [h0] at ih
        rw [Join_cons_head, ih]

theorem Split_not_mem (s : Str) (sep : Char) : ∀ t ∈ Split s sep, sep ∉ t := by
  induction s with
  | nil => simp [Split]
  | cons c cs ih =>
    unfold Split
    split_ifs with h
    · intro t ht
      rcases List.mem_cons.mp ht with rfl | ht
      · simp
      · exact ih t ht
    · split
      · next h0 => exact absurd h0 (Split_ne_nil cs sep)
      · next t ts h0 =>
        rw [h0] at ih
        intro u hu
        rcases List.mem_cons.mp hu with rfl | hu
        · have := ih t (List.mem_cons_self _ _)
          simp only [List.mem_cons, not_or]
          exact ⟨fun e => h e.symm, this⟩
        · exact ih u (List.mem_cons_of_mem _ hu)

theorem tokens_ne_nil (rawCommand : Str) : tokens rawCommand ≠ [] :=
  Split_ne_nil _ _

/-! ## Lemmas on the units -/

namespace Executable

@[simp] theorem stdin_setStdin (u : Executable) (f : Option File) : (u.setStdin f).stdin = f := by
  cases u <;> rfl

@[simp] theorem stdout_setStdin (u : Executable) (f : Option File) :
    (u.setStdin f).stdout = u.stdout := by
  cases u <;> rfl

@[simp] theorem unbound_setStdin (u : Executable) (f : Option File) :
    (u.setStdin f).unbound = u.unbound := by
  cases u <;> rfl

@[simp] theorem shouldCloseOut_setStdin (u : Executable) (f : Option File) :
    (u.setStdin f).shouldCloseOut = u.shouldCloseOut := by
  cases u <;> rfl

@[simp] theorem isInternal_setStdin (u : Executable) (f : Option File) :
    (u.setStdin f).isInternal = u.isInternal := by
  cases u <;> rfl

@[simp] theorem stdout_setStdout (u : Executable) (f : Option File) :
    (u.setStdout f).stdout = f := by
  cases u <;> rfl

@[simp] theorem stdin_setStdout (u : Executable) (f : Option File) :
    (u.setStdout f).stdin = u.stdin := by
  cases u <;> rfl

@[simp] theorem unbound_setStdout (u : Executable) (f : Option File) :
    (u.setStdout f).unbound = u.unbound := by
  cases u <;> rfl

@[simp] theorem shouldCloseOut_setStdout (u : Executable) (f : Option File) :
    (u.setStdout f).shouldCloseOut = u.shouldCloseOut := by
  cases u <;> rfl

@[simp] theorem isInternal_setStdout (u : Executable) (f : Option File) :
    (u.setStdout f).isInternal = u.isInternal := by
  cases u <;> rfl

/-- What a successful `getStdoutPipe` did. -/
theorem getStdoutPipe_ok {os : OS} {n n1 : Nat} {u u1 : Executable} {ev : List Event} {p : File}
    (h : u.getStdoutPipe os n = (ev, n1, .ok p, u1)) :
    ev = [Event.pipe n] ∧ n1 = n + 1 ∧ p = File.pipeRead n ∧
      u1.stdout = some (File.pipeWrite n) ∧ u1.stdin = u.stdin ∧ u1.unbound = u.unbound ∧
      u1.shouldCloseOut = u.isInternal ∧ u1.isInternal = u.isInternal ∧ os.pipe n = none := by
  cases u with
  | internal c =>
    simp only [getStdoutPipe, InternalCommand.getStdoutPipe, osPipe] at h
    cases hp : os.pipe n with
    | some e => simp [hp] at h
    | none =>
      simp only [hp, Prod.mk.injEq, Except.ok.injEq] at h
      obtain ⟨rfl, rfl, rfl, rfl⟩ := h
      simp [stdout, stdin, unbound, shouldCloseOut, isInternal]
  | external c =>
    simp only [getStdoutPipe, ExternalCommand.getStdoutPipe, osPipe] at h
    cases hs : c.stdout with
    | some f => simp [hs] at h
    | none =>
      cases hp : os.pipe n with
      | some e => simp [hs, hp] at h
      | none =>
        simp only [hs, hp, Prod.mk.injEq, Except.ok.injEq] at h
        obtain ⟨rfl, rfl, rfl, rfl⟩ := h
        simp [stdout, stdin, unbound, shouldCloseOut, isInternal]

/-- `getStdoutPipe` on a unit without output succeeds when `os.Pipe` does. -/
theorem getStdoutPipe_of_pipe_none {os : OS} {n : Nat} {u : Executable}
    (hp : os.pipe n = none) (hu : u.stdout = none) :
    ∃ u1, u.getStdoutPipe os n = ([Event.pipe n], n + 1, .ok (File.pipeRead n), u1) := by
  cases u with
  | internal c => simp [getStdoutPipe, InternalCommand.getStdoutPipe, osPipe, hp]
  | external c =>
    have hc : c.stdout = none := hu
    simp [getStdoutPipe, ExternalCommand.getStdoutPipe, osPipe, hp, hc]

/-- `getStdoutPipe` on a unit without output fails with the error of `os.Pipe`. -/
theorem getStdoutPipe_of_pipe_some {os : OS} {n : Nat} {u : Executable} {e : Err}
    (hp : os.pipe n = some e) (hu : u.stdout = none) :
    u.getStdoutPipe os n = ([], n + 1, .error e, u) := by
  cases u with
  | internal c => simp [getStdoutPipe, InternalCommand.getStdoutPipe, osPipe, hp]
  | external c =>
    have hc : c.stdout = none := hu
    simp [getStdoutPipe, ExternalCommand.getStdoutPipe, osPipe, hp, hc]

end Executable

/-- On a non-empty token list `parseCommand` gives a unit without bindings. -/
theorem parseCommand_ok (s : Shell) (args : List Str) (h : args ≠ []) :
    ∃ u, s.parseCommand args = .ok u ∧ u.unbound = u ∧ u.stdin = none ∧ u.stdout = none ∧
      u.shouldCloseOut = false := by
  cases args with
  | nil => exact absurd rfl h
  | cons name rest =>
    cases hc : s.commands name with
    | some command =>
      exact ⟨.internal (NewInternalCommand command rest), by simp [Shell.parseCommand, hc],
        rfl, rfl, rfl, rfl⟩
    | none =>
      exact ⟨.external (NewExternalCommand name rest), by simp [Shell.parseCommand, hc],
        rfl, rfl, rfl, rfl⟩

/-! ## The first loop: building the units -/

/-- The first loop never fails on segments: it gives one unit for every
segment, in order, each being what `parseCommand` makes of the segment's
tokens, with the shell's input bound at position 0 only and the shell's output
bound at position `len - 1` only. -/
theorem buildLoop_ok (s : Shell) (len : Nat) (rawCommands : List Str) :
    ∀ i, ∃ built, s.buildLoop len i rawCommands = .ok built ∧
      built.length = rawCommands.length ∧
      ∀ j u, built[j]? = some u →
        ∃ raw, rawCommands[j]? = some raw ∧ s.parseCommand (tokens raw) = .ok u.unbound ∧
          u.stdin = (if i + j = 0 then some s.inp else none) ∧
          u.stdout = (if i + j = len - 1 then some s.out else none) ∧
          u.shouldCloseOut = false := by
  induction rawCommands with
  | nil => intro i; exact ⟨[], rfl, rfl, by simp⟩
  | cons raw rest ih =>
    intro i
    obtain ⟨p, hp, hub, hin, hout, hflag⟩ := parseCommand_ok s (tokens raw) (tokens_ne_nil raw)
    obtain ⟨built, hb, hlen, hall⟩ := ih (i + 1)
    have hbuild : s.buildLoop len i (raw :: rest) = .ok
        ((if i = len - 1 then (if i = 0 then p.setStdin (some s.inp) else p).setStdout (some s.out)
          else if i = 0 then p.setStdin (some s.inp) else p) :: built) := by
      simp only [Shell.buildLoop, hp, hb]
    refine ⟨_, hbuild, by simp [hlen], ?_⟩
    intro j u hu
    cases j with
    | zero =>
      simp only [List.getElem?_cons_zero, Option.some.injEq] at hu
      subst hu
      refine ⟨raw, by simp, ?_, ?_, ?_, ?_⟩
      · rw [hp]
        congr 1
        split_ifs <;> simp only [Executable.unbound_setStdin, Executable.unbound_setStdout, hub]
      · split_ifs <;>
          simp only [Executable.stdin_setStdin, Executable.stdin_setStdout, hin] <;> simp_all
      · split_ifs <;>
          simp only [Executable.stdout_setStdin, Executable.stdout_setStdout, hout] <;> simp_all
      · split_ifs <;>
          simp only [Executable.shouldCloseOut_setStdin, Executable.shouldCloseOut_setStdout, hflag]
    | succ j =>
      simp only [List.getElem?_cons_succ] at hu
      obtain ⟨raw1, h1, h2, h3, h4, h5⟩ := hall j u hu
      refine ⟨raw1, by simpa using h1, h2, ?_, ?_, h5⟩
      · rw [h3, show i + 1 + j = i + (j + 1) by omega]
      · rw [h4, show i + 1 + j = i + (j + 1) by omega]

/-- The first loop of `processChain` succeeds on every list of segments. -/
theorem build_ok (s : Shell) (rawCommands : List Str) :
    ∃ built, s.build rawCommands = .ok built ∧ built.length = rawCommands.length ∧
      ∀ j u, built[j]? = some u →
        ∃ raw, rawCommands[j]? = some raw ∧ s.parseCommand (tokens raw) = .ok u.unbound ∧
          u.stdin = (if j = 0 then some s.inp else none) ∧
          u.stdout = (if j = rawCommands.length - 1 then some s.out else none) ∧
          u.shouldCloseOut = false := by
  obtain ⟨built, hb, hlen, hall⟩ := buildLoop_ok s rawCommands.length rawCommands 0
  refine ⟨built, hb, hlen, ?_⟩
  intro j u hu
  simpa using hall j u hu

/-! ## The second loop: wiring the units -/

theorem wireEvents_zero (n : Nat) : wireEvents n 0 = [] := by
  simp [wireEvents]

theorem wireEvents_succ (n m : Nat) :
    wireEvents n (m + 1) = Event.getStdoutPipe :: Event.pipe n :: wireEvents (n + 1) m := by
  simp [wireEvents, List.range_succ_eq_map, List.flatMap_map, Nat.add_assoc, Nat.add_comm 1]

/-- What a successful run of the wiring loop did: one call of `getStdoutPipe`
and one pipe for every unit but the last, every unit keeping its command, the
first its input and the last its output and flag. -/
theorem wireFrom_ok (os : OS) :
    ∀ (rest : List Executable) (n : Nat) (prev : Executable) (ev : List Event) (n1 : Nat)
      (units : List Executable),
      wireFrom os n prev rest = (ev, n1, .ok units) →
      ev = wireEvents n rest.length ∧ n1 = n + rest.length ∧ units.length = rest.length + 1 ∧
      (∀ j, j < rest.length → os.pipe (n + j) = none) ∧
      ∀ j u0 u, (prev :: rest)[j]? = some u0 → units[j]? = some u →
        u.unbound = u0.unbound ∧ u.isInternal = u0.isInternal ∧
        u.stdin = (if j = 0 then u0.stdin else some (File.pipeRead (n + j - 1))) ∧
        u.stdout = (if j < rest.length then some (File.pipeWrite (n + j)) else u0.stdout) ∧
        u.shouldCloseOut = (if j < rest.length then u0.isInternal else u0.shouldCloseOut) := by
  intro rest
  induction rest with
  | nil =>
    intro n prev ev n1 units h
    simp only [wireFrom, Prod.mk.injEq, Except.ok.injEq] at h
    obtain ⟨rfl, rfl, rfl⟩ := h
    refine ⟨by simp [wireEvents_zero], rfl, rfl, by simp, ?_⟩
    intro j u0 u h0 hu
    cases j with
    | zero =>
      simp at h0 hu
      subst h0 hu
      simp
    | succ j => simp at h0
  | cons command rest ih =>
    intro n prev ev n1 units h
    rcases hg : prev.getStdoutPipe os n with ⟨ev0, n', r, prev1⟩
    cases r with
    | error e => simp [wireFrom, hg] at h
    | ok pipe =>
      rcases hw : wireFrom os n' (command.setStdin (some pipe)) rest with ⟨ev2, n2, r2⟩
      cases r2 with
      | error e => simp [wireFrom, hg, hw] at h
      | ok commands =>
        simp only [wireFrom, hg, hw, Prod.mk.injEq, Except.ok.injEq] at h
        obtain ⟨rfl, rfl, rfl⟩ := h
        obtain ⟨rfl, rfl, rfl, ho, hi, hub, hf, hint, hp⟩ := Executable.getStdoutPipe_ok hg
        obtain ⟨rfl, rfl, hlen, hpipes, hall⟩ := ih _ _ _ _ _ hw
        refine ⟨by simp [wireEvents_succ], by simp; omega, by simp [hlen], ?_, ?_⟩
        · intro j hj
          cases j with
          | zero => simpa using hp
          | succ j =>
            have := hpipes j (by simpa using hj)
            rw [← this]; congr 1; omega
        · intro j u0 u h0 hu
          cases j with
          | zero =>
            simp at h0 hu
            subst h0 hu
            simp [hub, hint, hi, ho, hf]
          | succ j =>
            simp only [List.getElem?_cons_succ] at h0 hu
            cases j with
            | zero =>
              simp at h0
              subst h0
              have := hall 0 (command.setStdin (some (File.pipeRead n))) u (by simp) hu
              simpa using this
            | succ j =>
              simp only [List.getElem?_cons_succ] at h0
              have := hall (j + 1) u0 u (by simpa using h0) hu
              obtain ⟨a, b, c, d, e⟩ := this
              refine ⟨a, b, ?_, ?_, ?_⟩
              · rw [c]; simp; omega
              · rw [d]; simp only [List.length_cons]
                split_ifs <;> first | rfl | omega | (congr 2; omega)
              · rw [e]; simp only [List.length_cons]
                split_ifs <;> first | rfl | omega

/-- The wiring loop succeeds when every `os.Pipe` call does and no unit but the
last has an output yet. -/
theorem wireFrom_of_pipes (os : OS) :
    ∀ (rest : List Executable) (n : Nat) (prev : Executable),
      (∀ j, j < rest.length → os.pipe (n + j) = none) →
      (∀ j u, j < rest.length → (prev :: rest)[j]? = some u → u.stdout = none) →
      ∃ units, wireFrom os n prev rest = (wireEvents n rest.length, n + rest.length, .ok units) := by
  intro rest
  induction rest with
  | nil => intro n prev _ _; exact ⟨[prev], by simp [wireFrom, wireEvents_zero]⟩
  | cons command rest ih =>
    intro n prev hp hs
    have h0 : prev.stdout = none := hs 0 prev (by simp) (by simp)
    have hp0 : os.pipe n = none := by simpa using hp 0 (by simp)
    obtain ⟨u1, hu1⟩ := Executable.getStdoutPipe_of_pipe_none hp0 h0
    obtain ⟨units, hunits⟩ := ih (n + 1) (command.setStdin (some (File.pipeRead n)))
      (fun j hj => by
        have := hp (j + 1) (by simpa using hj)
        rw [← this]; congr 1; omega)
      (fun j u hj hu => by
        cases j with
        | zero =>
          simp at hu
          subst hu
          simpa using hs 1 command (by simpa using hj) (by simp)
        | succ j =>
          exact hs (j + 2) u (by simp at hj ⊢; omega) (by simpa using hu))
    refine ⟨u1 :: units, ?_⟩
    simp only [wireFrom, hu1, hunits, wireEvents_succ, List.length_cons]
    simp
    omega

/-- The wiring loop stops at the first `os.Pipe` call that fails and returns its
error. -/
theorem wireFrom_of_pipe_fail (os : OS) :
    ∀ (rest : List Executable) (n : Nat) (prev : Executable) (i : Nat) (e : Err),
      i < rest.length → os.pipe (n + i) = some e → (∀ j, j < i → os.pipe (n + j) = none) →
      (∀ j u, j < rest.length → (prev :: rest)[j]? = some u → u.stdout = none) →
      wireFrom os n prev rest = (wireEvents n i ++ [Event.getStdoutPipe], n + i + 1, .error e) := by
  intro rest
  induction rest with
  | nil => intro n prev i e hi; simp at hi
  | cons command rest ih =>
    intro n prev i e hi he hp hs
    have h0 : prev.stdout = none := hs 0 prev (by simp) (by simp)
    cases i with
    | zero =>
      have := Executable.getStdoutPipe_of_pipe_some (u := prev) (by simpa using he) h0
      simp [wireFrom, this, wireEvents_zero]
    | succ i =>
      have hp0 : os.pipe n = none := by simpa using hp 0 (by simp)
      obtain ⟨u1, hu1⟩ := Executable.getStdoutPipe_of_pipe_none hp0 h0
      have := ih (n + 1) (command.setStdin (some (File.pipeRead n))) i e (by simpa using hi)
        (by rw [← he]; congr 1; omega)
        (fun j hj => by
          have := hp (j + 1) (by omega)
          rw [← this]; congr 1; omega)
        (fun j u hj hu => by
          cases j with
          | zero =>
            simp at hu
            subst hu
            simpa using hs 1 command (by simpa using hj) (by simp)
          | succ j =>
            exact hs (j + 2) u (by simp at hj ⊢; omega) (by simpa using hu))
      simp only [wireFrom, hu1, this, wireEvents_succ]
      simp
      omega

/-- The units after the two loops of `processChain`: one for every segment, in
order; the first reads the shell's input and every other one the pipe of its
left neighbour; the last writes to the shell's output and every other one to
its own pipe; the flag is set on the internal units before the last. -/
theorem wireLoop_build (s : Shell) (os : OS) (n : Nat) (rawCommands : List Str)
    (built units : List Executable) (ev : List Event) (n1 : Nat)
    (hb : s.build rawCommands = .ok built) (hw : wireLoop os n built = (ev, n1, .ok units)) :
    units.length = rawCommands.length ∧ ev = wireEvents n (rawCommands.length - 1) ∧
      n1 = n + (rawCommands.length - 1) ∧
      (∀ j, j < rawCommands.length - 1 → os.pipe (n + j) = none) ∧
      ∀ j u, units[j]? = some u →
        ∃ raw, rawCommands[j]? = some raw ∧ s.parseCommand (tokens raw) = .ok u.unbound ∧
          u.stdin = (if j = 0 then some s.inp else some (File.pipeRead (n + j - 1))) ∧
          u.stdout = (if j < rawCommands.length - 1 then some (File.pipeWrite (n + j))
            else some s.out) ∧
          u.shouldCloseOut = (if j < rawCommands.length - 1 then u.isInternal else false) := by
  obtain ⟨built1, hb1, hlen, hall⟩ := build_ok s rawCommands
  rw [hb] at hb1
  cases hb1
  cases built with
  | nil =>
    simp only [wireLoop, Prod.mk.injEq, Except.ok.injEq] at hw
    obtain ⟨rfl, rfl, rfl⟩ := hw
    have h0 : rawCommands.length = 0 := by simpa using hlen.symm
    simp [h0, wireEvents_zero]
  | cons first rest =>
    simp only [wireLoop] at hw
    obtain ⟨rfl, rfl, hl, hp, hu⟩ := wireFrom_ok os rest n first ev n1 units hw
    have hk : rawCommands.length - 1 = rest.length := by
      rw [← hlen]; simp
    refine ⟨by rw [hl, ← hlen]; simp, by rw [hk], by rw [hk], by rw [hk]; exact hp, ?_⟩
    intro j u huj
    have hj : j < (first :: rest).length := by
      have := (List.getElem?_eq_some_iff.mp huj).1
      simpa [hl] using this
    obtain ⟨u0, hu0⟩ : ∃ u0, (first :: rest)[j]? = some u0 :=
      ⟨(first :: rest)[j], List.getElem?_eq_getElem hj⟩
    obtain ⟨a, b, c, d, e⟩ := hu j u0 u hu0 huj
    obtain ⟨raw, r1, r2, r3, r4, r5⟩ := hall j u0 hu0
    refine ⟨raw, r1, by rw [a]; exact r2, ?_, ?_, ?_⟩
    · rw [c, r3]; split_ifs <;> rfl
    · rw [d, r4, hk]
      split_ifs with h1 h2
      · rfl
      · rfl
      · simp at hj; omega
    · rw [e, r5, hk, b]

/-! ## The third loop: running the units -/

theorem wireEvents_count_exec (i n m : Nat) : (wireEvents n m).count (Event.exec i) = 0 := by
  induction m generalizing n with
  | zero => simp [wireEvents_zero]
  | succ m ih => simp [wireEvents_succ, ih]

theorem wireEvents_diagnostic (n m : Nat) :
    (wireEvents n m).filterMap Event.diagnostic? = [] := by
  induction m generalizing n with
  | zero => simp [wireEvents_zero]
  | succ m ih => simp [wireEvents_succ, ih, Event.diagnostic?]

theorem wireEvents_count_getStdoutPipe (n m : Nat) :
    (wireEvents n m).count Event.getStdoutPipe = m := by
  induction m generalizing n with
  | zero => simp [wireEvents_zero]
  | succ m ih => simp [wireEvents_succ, ih]

theorem wireEvents_countP_isPipe (n m : Nat) : (wireEvents n m).countP Event.isPipe = m := by
  induction m generalizing n with
  | zero => simp [wireEvents_zero]
  | succ m ih => simp [wireEvents_succ, ih, Event.isPipe]

theorem exec_count_exec (os : OS) (u : Executable) (i : Nat) :
    (u.exec os).1.count (Event.exec i) = 0 := by
  cases u with
  | internal c =>
    simp only [Executable.exec, InternalCommand.exec]
    split
    · simp [List.count_eq_zero]
    · split_ifs <;> simp [List.count_eq_zero]
  | external c => simp [Executable.exec, ExternalCommand.exec]

theorem exec_diagnostic (os : OS) (u : Executable) :
    (u.exec os).1.filterMap Event.diagnostic? = [] := by
  cases u with
  | internal c =>
    simp only [Executable.exec, InternalCommand.exec]
    split
    · simp [List.filterMap_eq_nil_iff, Event.diagnostic?]
    · split_ifs <;> simp [List.filterMap_eq_nil_iff, Event.diagnostic?]
  | external c => simp [Executable.exec, ExternalCommand.exec, Event.diagnostic?]

theorem goroutine_count_exec (os : OS) (i j : Nat) (u : Executable) :
    (goroutine os i u).count (Event.exec j) = if i = j then 1 else 0 := by
  simp only [goroutine]
  cases h : (u.exec os).2 with
  | some err => by_cases hij : i = j <;> simp [List.count_cons, exec_count_exec, hij]
  | none => by_cases hij : i = j <;> simp [List.count_cons, exec_count_exec, hij]

theorem goroutine_diagnostic (os : OS) (i : Nat) (u : Executable) :
    (goroutine os i u).filterMap Event.diagnostic? = (u.exec os).2.toList := by
  simp only [goroutine]
  cases h : (u.exec os).2 with
  | some err => simp [exec_diagnostic, Event.diagnostic?]
  | none => simp [exec_diagnostic, Event.diagnostic?]

theorem runAll_cons (os : OS) (units : List Executable) (i : Nat) (sched : List Nat) :
    runAll os units (i :: sched) =
      (match units[i]? with
        | some cmd => goroutine os i cmd
        | none => []) ++ runAll os units sched := by
  simp [runAll]

theorem runAll_count_exec (os : OS) (units : List Executable) (sched : List Nat) (j : Nat) :
    (runAll os units sched).count (Event.exec j) =
      if j < units.length then sched.count j else 0 := by
  induction sched with
  | nil => simp [runAll]
  | cons i sched ih =>
    rw [runAll_cons, List.count_append, ih]
    cases h : units[i]? with
    | none =>
      have hi : units.length ≤ i := List.getElem?_eq_none_iff.mp h
      have hij : (j < units.length) → ¬ i = j := by intro h1 h2; omega
      by_cases hj : j < units.length
      · simp [hj, List.count_cons, hij hj]
      · simp [hj]
    | some u =>
      have hi : i < units.length := (List.getElem?_eq_some_iff.mp h).1
      simp only [goroutine_count_exec]
      by_cases hij : i = j
      · subst hij
        simp [hi, List.count_cons]
        omega
      · by_cases hj : j < units.length <;> simp [hj, hij, List.count_cons]

theorem runAll_diagnostic (os : OS) (units : List Executable) (sched : List Nat) :
    (runAll os units sched).filterMap Event.diagnostic? =
      sched.filterMap fun i => (units[i]?).bind fun u => (u.exec os).2 := by
  induction sched with
  | nil => simp [runAll]
  | cons i sched ih =>
    rw [runAll_cons, List.filterMap_append, ih]
    cases h : units[i]? with
    | none => simp [h]
    | some u =>
      simp only [goroutine_diagnostic]
      cases h2 : (u.exec os).2 with
      | none => simp [List.filterMap_cons, h, h2]
      | some err => simp [List.filterMap_cons, h, h2]

theorem filterMap_range_getElem? {α β : Type} (f : α → Option β) (l : List α) :
    ((List.range l.length).filterMap fun i => (l[i]?).bind f) = l.filterMap f := by
  induction l with
  | nil => simp
  | cons a l ih =>
    rw [List.length_cons, List.range_succ_eq_map, List.filterMap_cons, List.filterMap_map]
    have : ((fun i => ((a :: l)[i]?).bind f) ∘ Nat.succ) = fun i => (l[i]?).bind f := by
      funext i; simp
    rw [this, ih]
    simp only [List.getElem?_cons_zero, Option.some_bind, List.filterMap_cons]

/-! ## `processChain` as a whole -/

/-- When both loops succeed on a non-empty list of units, `processChain` runs
the wired units and returns `nil`. -/
theorem processChain_of_wire_ok (s : Shell) (os : OS) (sched : List Nat) (n : Nat)
    (rawCommands : List Str) (built units : List Executable) (ev : List Event) (n1 : Nat)
    (hb : s.build rawCommands = .ok built) (hw : wireLoop os n built = (ev, n1, .ok units))
    (hk : built ≠ []) :
    s.processChain os sched n rawCommands =
      some { events := ev ++ runAll os units sched, pipes := n1, err := none } := by
  have : built.length ≠ 0 := by simpa using hk
  simp [Shell.processChain, hb, hw, this]

/-- When the wiring loop fails, `processChain` returns its error and runs
nothing. -/
theorem processChain_of_wire_error (s : Shell) (os : OS) (sched : List Nat) (n : Nat)
    (rawCommands : List Str) (built : List Executable) (ev : List Event) (n1 : Nat) (e : Err)
    (hb : s.build rawCommands = .ok built) (hw : wireLoop os n built = (ev, n1, .error e))
    (hk : built ≠ []) :
    s.processChain os sched n rawCommands = some { events := ev, pipes := n1, err := some e } := by
  have : built.length ≠ 0 := by simpa using hk
  simp [Shell.processChain, hb, hw, this]

/-- No unit but the last has an output after the first loop. -/
theorem build_stdout_none (s : Shell) (rawCommands : List Str) (first : Executable)
    (rest : List Executable) (hb : s.build rawCommands = .ok (first :: rest)) :
    rawCommands.length = rest.length + 1 ∧
      ∀ j u, j < rest.length → (first :: rest)[j]? = some u → u.stdout = none := by
  obtain ⟨built1, hb1, hlen, hall⟩ := build_ok s rawCommands
  rw [hb] at hb1
  cases hb1
  have hl : rawCommands.length = rest.length + 1 := by rw [← hlen]; simp
  refine ⟨hl, ?_⟩
  intro j u hj hu
  obtain ⟨raw, _, _, _, h4, _⟩ := hall j u hu
  rw [h4, if_neg]
  omega

/-- C1: for every input line, with `k` the number of `|` in it plus one, when no
pipe allocation fails the two building loops of `processChain` give exactly `k`
units, the unit at position `i` being what `parseCommand` makes of the tokens of
segment `i`, with exactly `k - 1` calls of `getStdoutPipe` and exactly `k - 1`
pipes. -/
theorem processChain_builds_units (s : Shell) (os : OS) (sched : List Nat) (n : Nat) (line : Str)
    (hp : ∀ j, os.pipe j = none) :
    ∃ built units ev,
      s.build (Split line '|') = .ok built ∧
      wireLoop os n built = (ev, n + line.count '|', .ok units) ∧
      s.processChain os sched n (Split line '|') =
        some { events := ev ++ runAll os units sched, pipes := n + line.count '|', err := none } ∧
      units.length = line.count '|' + 1 ∧
      (∀ (i : Nat) (u : Executable), units[i]? = some u →
        ∃ raw, (Split line '|')[i]? = some raw ∧ s.parseCommand (tokens raw) = .ok u.unbound) ∧
      ev.count Event.getStdoutPipe = line.count '|' ∧
      ev.countP Event.isPipe = line.count '|' := by
  obtain ⟨built, hb, hlen, -⟩ := build_ok s (Split line '|')
  have hk : (Split line '|').length = line.count '|' + 1 := Split_length line '|'
  cases built with
  | nil => simp [hk] at hlen
  | cons first rest =>
    obtain ⟨hl, hnone⟩ := build_stdout_none s _ first rest hb
    have hr : rest.length = line.count '|' := by omega
    obtain ⟨units, hw⟩ := wireFrom_of_pipes os rest n first (fun j _ => hp _) hnone
    have hw1 : wireLoop os n (first :: rest) =
        (wireEvents n rest.length, n + rest.length, .ok units) := hw
    obtain ⟨h1, -, -, -, h5⟩ := wireLoop_build s os n _ _ _ _ _ hb hw1
    refine ⟨first :: rest, units, wireEvents n rest.length, hb, by rw [hw1, hr], ?_, ?_, ?_, ?_, ?_⟩
    · rw [processChain_of_wire_ok s os sched n _ _ _ _ _ hb hw1 (by simp), hr]
    · rw [h1, hk]
    · intro i u hu
      obtain ⟨raw, r1, r2, -⟩ := h5 i u hu
      exact ⟨raw, r1, r2⟩
    · rw [wireEvents_count_getStdoutPipe, hr]
    · rw [wireEvents_countP_isPipe, hr]

/-- Witness of C1 on the line `a|b`. -/
theorem processChain_builds_units_witness :
    (∀ j, OS.allOk.pipe j = none) ∧
    ∃ built units ev,
      Shell.bare.build (Split "a|b".toList '|') = .ok built ∧
      wireLoop OS.allOk 0 built = (ev, 0 + "a|b".toList.count '|', .ok units) ∧
      Shell.bare.processChain OS.allOk [0, 1] 0 (Split "a|b".toList '|') =
        some { events := ev ++ runAll OS.allOk units [0, 1],
               pipes := 0 + "a|b".toList.count '|', err := none } ∧
      units.length = "a|b".toList.count '|' + 1 ∧
      (∀ (i : Nat) (u : Executable), units[i]? = some u →
        ∃ raw, (Split "a|b".toList '|')[i]? = some raw ∧
          Shell.bare.parseCommand (tokens raw) = .ok u.unbound) ∧
      ev.count Event.getStdoutPipe = "a|b".toList.count '|' ∧
      ev.countP Event.isPipe = "a|b".toList.count '|' :=
  ⟨fun _ => rfl, processChain_builds_units Shell.bare OS.allOk [0, 1] 0 "a|b".toList (fun _ => rfl)⟩

/-- The wiring loop gives no unit only when it gets none. -/
theorem wireLoop_ne_nil (os : OS) (n n1 : Nat) (built units : List Executable)
    (ev : List Event) (hw : wireLoop os n built = (ev, n1, .ok units)) (hk : units ≠ []) :
    built ≠ [] := by
  rintro rfl
  simp only [wireLoop, Prod.mk.injEq, Except.ok.injEq] at hw
  exact hk hw.2.2.symm

/-- C2: after the two building loops of `processChain` succeed on `k ≥ 1` units,
unit 0 reads the shell's input, unit `k - 1` writes to the shell's output, and
for every `i` with `i + 1 < k` the output of unit `i` is the write end and the
input of unit `i + 1` is the read end of the same pipe, the one of the
`(n + i)`-th `os.Pipe` call, so different pairs use different pipes; the units
that are run are these wired units, and no `exec` happens during the wiring. -/
theorem processChain_wiring (s : Shell) (os : OS) (sched : List Nat) (n : Nat)
    (rawCommands : List Str) (built units : List Executable) (ev : List Event) (n1 : Nat)
    (hb : s.build rawCommands = .ok built) (hw : wireLoop os n built = (ev, n1, .ok units))
    (hk : units ≠ []) :
    (∃ u, units[0]? = some u ∧ u.stdin = some s.inp) ∧
    (∃ u, units[units.length - 1]? = some u ∧ u.stdout = some s.out) ∧
    (∀ i, i + 1 < units.length →
      ∃ u v, units[i]? = some u ∧ units[i + 1]? = some v ∧
        u.stdout = some (File.pipeWrite (n + i)) ∧ v.stdin = some (File.pipeRead (n + i))) ∧
    s.processChain os sched n rawCommands =
      some { events := ev ++ runAll os units sched, pipes := n1, err := none } ∧
    (∀ i, Event.exec i ∉ ev) := by
  obtain ⟨hlen, hev, -, -, hall⟩ := wireLoop_build s os n rawCommands built units ev n1 hb hw
  have hpos : 0 < units.length := List.length_pos.mpr hk
  have hbne : built ≠ [] := wireLoop_ne_nil os n n1 built units ev hw hk
  have get : ∀ i, i < units.length → ∃ u, units[i]? = some u := fun i hi =>
    ⟨units[i], List.getElem?_eq_getElem hi⟩
  refine ⟨?_, ?_, ?_, processChain_of_wire_ok s os sched n _ _ _ _ _ hb hw hbne, ?_⟩
  · obtain ⟨u, hu⟩ := get 0 hpos
    obtain ⟨raw, -, -, h3, -⟩ := hall 0 u hu
    exact ⟨u, hu, by simpa using h3⟩
  · obtain ⟨u, hu⟩ := get (units.length - 1) (by omega)
    obtain ⟨raw, -, -, -, h4, -⟩ := hall _ u hu
    refine ⟨u, hu, ?_⟩
    rw [h4, hlen, if_neg (lt_irrefl _)]
  · intro i hi
    obtain ⟨u, hu⟩ := get i (by omega)
    obtain ⟨v, hv⟩ := get (i + 1) hi
    obtain ⟨_, -, -, -, h4, -⟩ := hall i u hu
    obtain ⟨_, -, -, h3, -⟩ := hall (i + 1) v hv
    refine ⟨u, v, hu, hv, ?_, ?_⟩
    · rw [h4, if_pos (by omega)]
    · rw [h3, if_neg (by omega)]
      rfl
  · intro i hi
    have := wireEvents_count_exec i n (rawCommands.length - 1)
    rw [← hev] at this
    exact List.count_pos_iff.mpr hi |>.ne' this

/-- Witness of C2 on the segments `a` and `b`, the goroutine of `b` running
first. -/
theorem processChain_wiring_witness :
    Shell.bare.build [['a'], ['b']] =
      .ok [Executable.external ⟨['a'], [], some File.stdin, none⟩,
        Executable.external ⟨['b'], [], none, some File.stdout⟩] ∧
    wireLoop OS.allOk 0 [Executable.external ⟨['a'], [], some File.stdin, none⟩,
        Executable.external ⟨['b'], [], none, some File.stdout⟩] =
      ([Event.getStdoutPipe, Event.pipe 0], 1,
        .ok [Executable.external ⟨['a'], [], some File.stdin, some (File.pipeWrite 0)⟩,
          Executable.external ⟨['b'], [], some (File.pipeRead 0), some File.stdout⟩]) ∧
    Shell.bare.processChain OS.allOk [1, 0] 0 [['a'], ['b']] =
      some (Result.mk ([Event.getStdoutPipe, Event.pipe 0] ++
          runAll OS.allOk [Executable.external ⟨['a'], [], some File.stdin, some (File.pipeWrite 0)⟩,
            Executable.external ⟨['b'], [], some (File.pipeRead 0), some File.stdout⟩] [1, 0])
        1 none) ∧
    ∀ i, Event.exec i ∉ [Event.getStdoutPipe, Event.pipe 0] :=
  have h := processChain_wiring Shell.bare OS.allOk [1, 0] 0 [['a'], ['b']]
    [Executable.external ⟨['a'], [], some File.stdin, none⟩,
      Executable.external ⟨['b'], [], none, some File.stdout⟩]
    [Executable.external ⟨['a'], [], some File.stdin, some (File.pipeWrite 0)⟩,
      Executable.external ⟨['b'], [], some (File.pipeRead 0), some File.stdout⟩]
    [Event.getStdoutPipe, Event.pipe 0] 1 rfl rfl (by simp)
  ⟨rfl, rfl, h.2.2.2.1, h.2.2.2.2⟩

/-- C5: if the `os.Pipe` call of `getStdoutPipe` fails for the unit at position
`i` while `processChain` wires the pipeline (the calls for the units before it
having succeeded), `processChain` returns exactly that error and `exec` is not
called on any unit. -/
theorem processChain_pipe_failure (s : Shell) (os : OS) (sched : List Nat) (n : Nat)
    (rawCommands : List Str) (i : Nat) (e : Err) (hi : i + 1 < rawCommands.length)
    (he : os.pipe (n + i) = some e) (hp : ∀ j, j < i → os.pipe (n + j) = none) :
    ∃ r, s.processChain os sched n rawCommands = some r ∧ r.err = some e ∧
      r.events = wireEvents n i ++ [Event.getStdoutPipe] ∧ r.pipes = n + i + 1 ∧
      ∀ j, Event.exec j ∉ r.events := by
  obtain ⟨built, hb, hlen, -⟩ := build_ok s rawCommands
  cases built with
  | nil => simp at hlen; omega
  | cons first rest =>
    obtain ⟨hl, hnone⟩ := build_stdout_none s _ first rest hb
    have hw : wireLoop os n (first :: rest) =
        (wireEvents n i ++ [Event.getStdoutPipe], n + i + 1, .error e) :=
      wireFrom_of_pipe_fail os rest n first i e (by omega) he hp hnone
    refine ⟨_, processChain_of_wire_error s os sched n _ _ _ _ _ hb hw (by simp), rfl, rfl, rfl, ?_⟩
    intro j hj
    have h0 := wireEvents_count_exec j n i
    have : (wireEvents n i ++ [Event.getStdoutPipe]).count (Event.exec j) = 0 := by
      simp [List.count_append, h0]
    exact (List.count_pos_iff.mpr hj).ne' this

/-- Witness of C5 on the segments `a` and `b` when no pipe can be made. -/
theorem processChain_pipe_failure_witness :
    0 + 1 < [['a'], ['b']].length ∧ OS.noPipe.pipe (0 + 0) = some "too many open files" ∧
    (∀ j, j < 0 → OS.noPipe.pipe (0 + j) = none) ∧
    ∃ r, Shell.bare.processChain OS.noPipe [0, 1] 0 [['a'], ['b']] = some r ∧
      r.err = some "too many open files" ∧
      r.events = wireEvents 0 0 ++ [Event.getStdoutPipe] ∧ r.pipes = 0 + 0 + 1 ∧
      ∀ j, Event.exec j ∉ r.events :=
  ⟨by decide, rfl, fun j hj => absurd hj (Nat.not_lt_zero j),
    processChain_pipe_failure Shell.bare OS.noPipe [0, 1] 0 [['a'], ['b']] 0
      "too many open files" (by decide) rfl (fun j hj => absurd hj (Nat.not_lt_zero j))⟩

/-! ## Resolving a token list -/

/-- C3: on a non-empty token list `name :: rest`, for every registry,
`parseCommand` succeeds: it gives an internal unit with the handler the
registry has for `name` and the arguments `rest` when `name` is a key of the
registry, and an external unit for the program `name` with the arguments `rest`
otherwise; so it gives an external unit only for a name that is no key. -/
theorem parseCommand_resolves (s : Shell) (name : Str) (rest : List Str) :
    s.parseCommand (name :: rest) =
      (match s.commands name with
        | some command =>
          .ok (.internal { stdin := none, stdout := none, command := command, args := rest,
                           shouldCloseOut := false })
        | none => .ok (.external { name := name, args := rest, stdin := none, stdout := none })) ∧
    (∃ u, s.parseCommand (name :: rest) = .ok u ∧
      u.isInternal = (s.commands name).isSome ∧ u.args = rest) ∧
    ∀ c, s.parseCommand (name :: rest) = .ok (.external c) → s.commands name = none := by
  cases h : s.commands name with
  | some command =>
    refine ⟨by simp [Shell.parseCommand, h, NewInternalCommand],
      ⟨.internal (NewInternalCommand command rest), ?_, rfl, rfl⟩, ?_⟩
    · simp only [Shell.parseCommand, h]
    · intro c hc
      simp [Shell.parseCommand, h] at hc
  | none =>
    refine ⟨by simp [Shell.parseCommand, h, NewExternalCommand],
      ⟨.external (NewExternalCommand name rest), ?_, rfl, rfl⟩, ?_⟩
    · simp only [Shell.parseCommand, h]
    · intro c _
      rfl

/-! ## The methods of an internal unit -/

/-- C9: `InternalCommand.getStdoutPipe`, when `os.Pipe` succeeds, sets `stdout`
to the write end of the new pipe and `shouldCloseOut` to true, leaves `stdin`,
`command` and `args` as they are and returns the read end of the same pipe;
when `os.Pipe` fails it returns that error and leaves the unit as it is. -/
theorem InternalCommand_getStdoutPipe_spec (os : OS) (n : Nat) (i : InternalCommand) :
    i.getStdoutPipe os n =
      (match os.pipe n with
        | none =>
          ([Event.pipe n], n + 1, .ok (File.pipeRead n),
            { stdin := i.stdin, stdout := some (File.pipeWrite n), command := i.command,
              args := i.args, shouldCloseOut := true })
        | some err => ([], n + 1, .error err, i)) := by
  cases h : os.pipe n <;> simp [InternalCommand.getStdoutPipe, osPipe, h]

/-- C10 (the code departs from it): an internal unit with `shouldCloseOut` set
whose handler fails returns the handler's error without closing its output,
whereas the same unit with a handler that succeeds closes it. -/
theorem InternalCommand_exec_error_skips_close (os : OS) :
    InternalCommand.exec os
        { stdin := some File.stdin, stdout := some (File.pipeWrite 0),
          command := fun _ _ _ => ([], some "illegal pid: abc"), args := [['a', 'b', 'c']],
          shouldCloseOut := true } =
      ([Event.handler [['a', 'b', 'c']] (some File.stdin) (some (File.pipeWrite 0))],
        some "illegal pid: abc") ∧
    InternalCommand.exec os
        { stdin := some File.stdin, stdout := some (File.pipeWrite 0),
          command := fun _ _ _ => ([], none), args := [['a', 'b', 'c']],
          shouldCloseOut := true } =
      ([Event.handler [['a', 'b', 'c']] (some File.stdin) (some (File.pipeWrite 0)),
        Event.close (some (File.pipeWrite 0))], os.close (some (File.pipeWrite 0))) :=
  ⟨rfl, rfl⟩

/-! ## Tokens and empty segments -/

/-- C8 (as stated it fails): two spaces give an empty token and a tab does not
separate tokens. -/
theorem tokens_not_whitespace_runs :
    tokens "echo  a".toList = ["echo".toList, [], "a".toList] ∧
    tokens "echo\ta".toList = ["echo\ta".toList] := by
  decide

/-- C8, amended: the token list of a segment is the trimmed segment cut at every
single space character: joining the tokens with single spaces gives the trimmed
segment back, no token contains a space character, and there is one more token
than there are space characters in the trimmed segment. -/
theorem tokens_split_at_spaces (rawCommand : Str) :
    Join (tokens rawCommand) ' ' = TrimSpace rawCommand ∧
    (∀ t ∈ tokens rawCommand, ' ' ∉ t) ∧
    (tokens rawCommand).length = (TrimSpace rawCommand).count ' ' + 1 :=
  ⟨Join_Split _ _, Split_not_mem _ _, Split_length _ _⟩

/-- C6 (the code departs from it): the line `echo a | ` has a blank segment, yet
its token list is not empty, `parseCommand` makes an external unit with the
empty program name of it, and `processChain` builds and runs both units and
returns no error. -/
theorem processChain_blank_segment :
    tokens " ".toList = [[]] ∧
    Shell.bare.parseCommand (tokens " ".toList) =
      .ok (.external { name := [], args := [], stdin := none, stdout := none }) ∧
    Shell.bare.processChain OS.allOk [0, 1] 0 (Split "echo a | ".toList '|') =
      some { events := [Event.getStdoutPipe, Event.pipe 0, Event.exec 0,
               Event.run "echo".toList ["a".toList] (some File.stdin) (some (File.pipeWrite 0)),
               Event.exec 1, Event.run [] [] (some (File.pipeRead 0)) (some File.stdout)],
             pipes := 1, err := none } :=
  ⟨by decide, rfl, by decide⟩

/-! ## The empty line -/

/-- C7 (the code departs from it): the guard `len(args) < 1` of `parseCommand`
misses the empty line as it misses a blank segment, so the first loop builds
one unit, an external one with the empty program name, bound to the shell's
streams; `exec` is called on it; and when running the empty program fails, as
it does, the diagnostic line `exec: no command` is printed. -/
theorem runLine_empty_line_runs_a_unit :
    Shell.bare.build (Split [] '|') =
      .ok [.external { name := [], args := [], stdin := some File.stdin,
                       stdout := some File.stdout }] ∧
    Shell.bare.runLine OS.allOk [0] 0 [] =
      some { events := [Event.exec 0, Event.run [] [] (some File.stdin) (some File.stdout),
               Event.printf File.stdout "> ".toList],
             pipes := 0, err := none } ∧
    Shell.bare.runLine
        { pipe := fun _ => none, close := fun _ => none,
          run := fun name _ _ _ => if name = [] then some "exec: no command" else none }
        [0] 0 [] =
      some { events := [Event.exec 0, Event.run [] [] (some File.stdin) (some File.stdout),
               Event.println "exec: no command", Event.printf File.stdout "> ".toList],
             pipes := 0, err := none } :=
  ⟨rfl, by decide, by decide⟩

end Dev08

namespace Dev08

/-! ## The goroutines and the `WaitGroup` -/

theorem Conc.init_inv (commands : List Executable) : Conc.Inv commands (Conc.init commands) := by
  refine ⟨by simp [Conc.init], ?_, by simp [Conc.init], ?_, by simp [Conc.init], ?_⟩
  · simp [Conc.init, List.count_replicate]
  · intro i _ hi
    simp [Conc.init, hi]
  · intro i hi
    simp [Conc.init, hi]

/-- Changing one entry that is not `done` into one that is not `done` keeps the
number of `done` entries. -/
theorem count_done_set (l : List Task) (i : Nat) (a b : Task) (h : l[i]? = some a)
    (ha : a ≠ Task.done) :
    (l.set i b).count Task.done = l.count Task.done + if b = Task.done then 1 else 0 := by
  obtain ⟨hi, hget⟩ := List.getElem?_eq_some_iff.mp h
  rw [List.count_set _ _ _ _ hi, hget]
  have h1 : (a == Task.done) = false := by simpa using ha
  simp [h1]

theorem Conc.step_inv (os : OS) (commands : List Executable) (a : Action) (c c1 : Conc)
    (hinv : Conc.Inv commands c) (hstep : Conc.step os commands a c = some c1) :
    Conc.Inv commands c1 := by
  obtain ⟨hlen, hcnt, hle, hns, hret, hev⟩ := hinv
  cases a with
  | main =>
    simp only [Conc.step] at hstep
    split_ifs at hstep with h1 h2 h3
    · -- the next `go` statement
      cases hstep
      have hcur := hns c.launched le_rfl h2
      refine ⟨by simpa using hlen, ?_, h2, ?_, ?_, ?_⟩
      · simp only [count_done_set _ _ _ Task.started hcur (by decide)]
        simpa using hcnt
      · intro i hi hik
        dsimp only at hi ⊢
        have hne : c.launched ≠ i := by omega
        simp only [List.getElem?_set_ne hne]
        exact hns i (by omega) hik
      · intro hr
        exact absurd hr h1
      · intro i hi
        rw [hev i hi]
        by_cases hil : c.launched = i
        · subst hil
          have hlt : c.launched < c.tasks.length := by omega
          simp [hcur, List.getElem?_set_self hlt]
        · simp only [List.getElem?_set_ne hil]
    · -- `wg.Wait()` returns
      cases hstep
      exact ⟨hlen, hcnt, hle, hns, fun _ => ⟨h3, by dsimp only; omega⟩, hev⟩
  | task i =>
    simp only [Conc.step] at hstep
    split at hstep
    · -- `cmd.exec()`
      next cmd ht hc =>
      cases hstep
      have hik : i < commands.length := (List.getElem?_eq_some_iff.mp hc).1
      refine ⟨by simpa using hlen, ?_, hle, ?_, hret, ?_⟩
      · simp only [count_done_set _ _ _ Task.executed ht (by decide)]
        simpa using hcnt
      · intro j hj hjk
        have hne : i ≠ j := by
          rintro rfl
          rw [hns i hj hjk] at ht
          cases ht
        simp only [List.getElem?_set_ne hne]
        exact hns j hj hjk
      · intro j hj
        simp only [List.count_append, goroutine_count_exec, hev j hj]
        by_cases hij : i = j
        · subst hij
          have hlt : i < c.tasks.length := by omega
          simp [ht, List.getElem?_set_self hlt]
        · simp [hij, List.getElem?_set_ne hij]
    · -- the deferred `wg.Done()`
      next cmd ht hc =>
      cases hstep
      have hik : i < commands.length := (List.getElem?_eq_some_iff.mp hc).1
      have hset := count_done_set c.tasks i _ Task.done ht (by decide)
      have hbound : (c.tasks.set i Task.done).count Task.done ≤ (c.tasks.set i Task.done).length :=
        List.count_le_length _ _
      simp only [if_true, List.length_set] at hset hbound
      have hpos : 1 ≤ c.counter := by omega
      refine ⟨by simpa using hlen, ?_, hle, ?_, ?_, ?_⟩
      · simp only [hset]
        omega
      · intro j hj hjk
        have hne : i ≠ j := by
          rintro rfl
          rw [hns i hj hjk] at ht
          cases ht
        simp only [List.getElem?_set_ne hne]
        exact hns j hj hjk
      · intro hr
        have := (hret hr).1
        omega
      · intro j hj
        rw [hev j hj]
        by_cases hij : i = j
        · subst hij
          have hlt : i < c.tasks.length := by omega
          simp [ht, List.getElem?_set_self hlt]
        · simp only [List.getElem?_set_ne hij]
    · cases hstep

theorem Conc.run_inv (os : OS) (commands : List Executable) (acts : List Action) :
    ∀ c c1, Conc.Inv commands c → Conc.run os commands acts c = some c1 → Conc.Inv commands c1 := by
  induction acts with
  | nil =>
    intro c c1 hinv h
    simp only [Conc.run, Option.some.injEq] at h
    exact h ▸ hinv
  | cons a rest ih =>
    intro c c1 hinv h
    simp only [Conc.run] at h
    cases hs : Conc.step os commands a c with
    | none => simp [hs] at h
    | some c2 =>
      rw [hs] at h
      exact ih c2 c1 (Conc.step_inv os commands a c c2 hinv hs) h

/-- C11: in every interleaving of the steps of `processChain` and of its
goroutines, when `processChain` has returned from `wg.Wait()` it has started a
goroutine for every unit, every goroutine has run to its end, and `exec` was
called exactly once on every unit. -/
theorem processChain_waits_for_goroutines (os : OS) (commands : List Executable)
    (acts : List Action) (c : Conc)
    (hrun : Conc.run os commands acts (Conc.init commands) = some c)
    (hret : c.returned = true) :
    c.launched = commands.length ∧ c.counter = 0 ∧
    (∀ i, i < commands.length → c.tasks[i]? = some Task.done) ∧
    ∀ i, i < commands.length → c.events.count (Event.exec i) = 1 := by
  obtain ⟨hlen, hcnt, -, -, hr, hev⟩ :=
    Conc.run_inv os commands acts _ c (Conc.init_inv commands) hrun
  obtain ⟨h0, hl⟩ := hr hret
  have hall : ∀ b ∈ c.tasks, Task.done = b :=
    List.count_eq_length.mp (by omega)
  have hdone : ∀ i, i < commands.length → c.tasks[i]? = some Task.done := by
    intro i hi
    have hlt : i < c.tasks.length := by omega
    rw [List.getElem?_eq_getElem hlt, ← hall _ (List.getElem_mem hlt)]
  refine ⟨hl, h0, hdone, ?_⟩
  intro i hi
  rw [hev i hi, if_pos (Or.inr (hdone i hi))]

/-- Witness of C11: two units, the goroutine of the second one running first
and ending last. -/
theorem processChain_waits_for_goroutines_witness :
    Conc.run OS.allOk
        [Executable.external ⟨['a'], [], none, none⟩, Executable.external ⟨['b'], [], none, none⟩]
        [.main, .main, .task 1, .task 0, .task 0, .task 1, .main]
        (Conc.init [Executable.external ⟨['a'], [], none, none⟩,
          Executable.external ⟨['b'], [], none, none⟩]) =
      some { counter := 0, launched := 2, tasks := [Task.done, Task.done], returned := true,
             events := [Event.exec 1, Event.run ['b'] [] none none, Event.exec 0,
               Event.run ['a'] [] none none] } ∧
    ∀ i, i < 2 →
      [Event.exec 1, Event.run ['b'] [] none none, Event.exec 0,
        Event.run ['a'] [] none none].count (Event.exec i) = 1 :=
  ⟨by decide,
    (processChain_waits_for_goroutines OS.allOk
      [Executable.external ⟨['a'], [], none, none⟩, Executable.external ⟨['b'], [], none, none⟩]
      [.main, .main, .task 1, .task 0, .task 0, .task 1, .main]
      { counter := 0, launched := 2, tasks := [Task.done, Task.done], returned := true,
        events := [Event.exec 1, Event.run ['b'] [] none none, Event.exec 0,
          Event.run ['a'] [] none none] }
      (by decide) rfl).2.2.2⟩

end Dev08

namespace Dev08

/-! ## The built-in `kill` -/

/-- C12 (the code departs from it): for the arguments `1` and `abc` the error of
`kill` names `1`, which is `args[0]`, and not the argument `abc` that is no
integer. -/
theorem kill_names_first_argument (os : OS) (stdin stdout : Option File) :
    Atoi "1".toList = some 1 ∧ Atoi "abc".toList = none ∧
    (kill os ["1".toList, "abc".toList] stdin stdout).2 = some "illegal pid: 1" := by
  refine ⟨by decide, by decide, ?_⟩
  have h1 : Atoi ['1'] = some 1 := by decide
  have h2 : Atoi ['a', 'b', 'c'] = none := by decide
  simp only [kill, killLoop, String.toList, h1, h2]
  cases os.kill 1 <;> rfl

/-- The signals `killLoop` sends before the first argument that is no integer. -/
theorem killLoop_prefix (os : OS) (stdout : Option File) (arg0 bad : Str) (post : List Str)
    (hbad : Atoi bad = none) :
    ∀ pre : List Str, (∀ a ∈ pre, (Atoi a).isSome = true) →
      ((killLoop os stdout arg0 (pre ++ bad :: post)).1.filterMap Effect.killed? =
          pre.filterMap Atoi) ∧
        (killLoop os stdout arg0 (pre ++ bad :: post)).2 ≠ none := by
  intro pre
  induction pre with
  | nil =>
    intro _
    simp [killLoop, hbad]
  | cons a pre ih =>
    intro hpre
    obtain ⟨h1, h2⟩ := ih (fun b hb => hpre b (List.mem_cons_of_mem _ hb))
    obtain ⟨pid, hpid⟩ := Option.isSome_iff_exists.mp (hpre a (List.mem_cons_self _ _))
    simp only [List.cons_append, killLoop, hpid]
    cases os.kill pid with
    | none => simp [Effect.killed?, h1, h2, hpid]
    | some err => simp [Effect.killed?, h1, h2, hpid]

/-- C13 (as stated it fails): for the arguments `7` and `x` the command `kill`
fails, the second argument being no integer, after it has signalled the
process 7. -/
theorem kill_signals_before_failing :
    kill OS.allOk ["7".toList, "x".toList] none (some File.stdout) =
      ([Effect.kill 7], some "illegal pid: 7") := by
  decide

/-- C13, amended: when `kill` meets an argument that is no integer, the
arguments before it all being integers, it fails, and the processes it has
signalled are exactly those named by the arguments before that one, in their
order: none at all when the first argument is no integer. -/
theorem kill_signals_prefix (os : OS) (stdin stdout : Option File) (pre : List Str) (bad : Str)
    (post : List Str) (hpre : ∀ a ∈ pre, (Atoi a).isSome = true) (hbad : Atoi bad = none) :
    (kill os (pre ++ bad :: post) stdin stdout).2 ≠ none ∧
    (kill os (pre ++ bad :: post) stdin stdout).1.filterMap Effect.killed? = pre.filterMap Atoi ∧
    (pre = [] → (kill os (pre ++ bad :: post) stdin stdout).1 = []) := by
  have key : ∀ arg0, (killLoop os stdout arg0 (pre ++ bad :: post)).1.filterMap Effect.killed? =
      pre.filterMap Atoi ∧ (killLoop os stdout arg0 (pre ++ bad :: post)).2 ≠ none :=
    fun arg0 => killLoop_prefix os stdout arg0 bad post hbad pre hpre
  cases pre with
  | nil =>
    refine ⟨by simpa [kill] using (key bad).2, by simpa [kill] using (key bad).1, fun _ => ?_⟩
    simp [kill, killLoop, hbad]
  | cons a pre =>
    refine ⟨by simpa [kill] using (key a).2, by simpa [kill] using (key a).1, fun h => ?_⟩
    cases h

/-- Witness of C13, amended, on the arguments `7`, `8`, `x`, `9`. -/
theorem kill_signals_prefix_witness :
    (∀ a ∈ ["7".toList, "8".toList], (Atoi a).isSome = true) ∧ Atoi "x".toList = none ∧
    (kill OS.allOk (["7".toList, "8".toList] ++ "x".toList :: ["9".toList]) none none).2 ≠ none ∧
    (kill OS.allOk (["7".toList, "8".toList] ++ "x".toList :: ["9".toList]) none none).1.filterMap
        Effect.killed? = ["7".toList, "8".toList].filterMap Atoi :=
  have h := kill_signals_prefix OS.allOk none none ["7".toList, "8".toList] "x".toList
    ["9".toList] (by decide) (by decide)
  ⟨by decide, by decide, h.1, h.2.1⟩

/-! ## The prompt of `Run` -/

/-- C15 (the code departs from it): when no pipe can be made, `processChain`
fails on the line `a|b`; `Run` prints the error and then, without a prompt,
goes on to the next line `c`, after which it prints the prompt. -/
theorem Run_no_prompt_after_error :
    Shell.bare.Run OS.noPipe 0 [("a|b".toList, [0, 1]), ("c".toList, [0])] =
      some ([Event.printf File.stdout "> ".toList,
             Event.getStdoutPipe,
             Event.printf File.stdout "error: too many open files\n".toList,
             Event.exec 0, Event.run "c".toList [] (some File.stdin) (some File.stdout),
             Event.printf File.stdout "> ".toList], 1) := by
  decide

end Dev08

namespace Dev08

/-! ## The line `echo w1 ... wn` -/

theorem Split_of_not_mem (s : Str) (sep : Char) (h : sep ∉ s) : Split s sep = [s] := by
  induction s with
  | nil => rfl
  | cons c cs ih =>
    have hc : c ≠ sep := fun e => h (e ▸ List.mem_cons_self _ _)
    have hcs : sep ∉ cs := fun m => h (List.mem_cons_of_mem _ m)
    simp [Split, hc, ih hcs]

theorem Split_append_sep (t rest : Str) (sep : Char) (h : sep ∉ t) :
    Split (t ++ sep :: rest) sep = t :: Split rest sep := by
  induction t with
  | nil => simp [Split]
  | cons c cs ih =>
    have hc : c ≠ sep := fun e => h (e ▸ List.mem_cons_self _ _)
    have hcs : sep ∉ cs := fun m => h (List.mem_cons_of_mem _ m)
    simp [Split, hc, ih hcs]

theorem Split_Join (l : List Str) (sep : Char) (hne : l ≠ []) (h : ∀ t ∈ l, sep ∉ t) :
    Split (Join l sep) sep = l := by
  induction l with
  | nil => exact absurd rfl hne
  | cons t ts ih =>
    cases ts with
    | nil => simpa [Join] using Split_of_not_mem t sep (h t (List.mem_cons_self _ _))
    | cons u us =>
      have := ih (by simp) (fun x hx => h x (List.mem_cons_of_mem _ hx))
      simp only [Join]
      rw [Split_append_sep _ _ _ (h t (List.mem_cons_self _ _)), this]

theorem mem_Join (l : List Str) (sep c : Char) (h : c ∈ Join l sep) :
    c = sep ∨ ∃ t ∈ l, c ∈ t := by
  induction l with
  | nil => simp [Join] at h
  | cons t ts ih =>
    cases ts with
    | nil => exact .inr ⟨t, List.mem_cons_self _ _, by simpa [Join] using h⟩
    | cons u us =>
      simp only [Join, List.mem_append, List.mem_cons] at h
      rcases h with h | h | h
      · exact .inr ⟨t, List.mem_cons_self _ _, h⟩
      · exact .inl h
      · rcases ih h with h | ⟨x, hx, hc⟩
        · exact .inl h
        · exact .inr ⟨x, List.mem_cons_of_mem _ hx, hc⟩

/-- A string that neither starts nor ends with white space is left as it is by
`TrimSpace`. -/
theorem TrimSpace_eq_self (c z : Char) (init tail : Str) (s : Str) (hc : s = c :: tail)
    (hz : s = init ++ [z]) (h1 : isSpace c = false) (h2 : isSpace z = false) :
    TrimSpace s = s := by
  have e1 : s.dropWhile isSpace = s := by
    rw [hc]
    simp [List.dropWhile, h1]
  have e2 : s.reverse.dropWhile isSpace = s.reverse := by
    rw [hz]
    simp [List.dropWhile, h2]
  simp [TrimSpace, e1, e2]

/-- Words joined by single spaces end with the last character of the last
word. -/
theorem Join_last (l : List Str) (sep : Char) (hne : l ≠ []) (h : ∀ t ∈ l, t ≠ []) :
    ∃ init z t, Join l sep = init ++ [z] ∧ t ∈ l ∧ z ∈ t := by
  induction l with
  | nil => exact absurd rfl hne
  | cons t ts ih =>
    cases ts with
    | nil =>
      rcases List.eq_nil_or_concat t with h0 | ⟨init, z, h0⟩
      · exact absurd h0 (h t (List.mem_cons_self _ _))
      · exact ⟨init, z, t, by simpa [Join] using h0, List.mem_cons_self _ _, by simp [h0]⟩
    | cons u us =>
      obtain ⟨init, z, x, h1, h2, h3⟩ := ih (by simp) (fun x hx => h x (List.mem_cons_of_mem _ hx))
      exact ⟨t ++ sep :: init, z, x, by simp [Join, h1], List.mem_cons_of_mem _ h2, h3⟩

/-- Words joined by single spaces start with the first character of the first
word. -/
theorem Join_head (c : Char) (t : Str) (ts : List Str) (sep : Char) :
    ∃ tail, Join ((c :: t) :: ts) sep = c :: tail := by
  cases ts with
  | nil => exact ⟨t, rfl⟩
  | cons u us => exact ⟨_, rfl⟩

/-- The tokens of the line `echo w1 ... wn`. -/
theorem tokens_echo (words : List Str)
    (hw : ∀ w ∈ words, w ≠ [] ∧ ∀ c ∈ w, isSpace c = false ∧ c ≠ '|') :
    Split (Join ("echo".toList :: words) ' ') '|' = [Join ("echo".toList :: words) ' '] ∧
    tokens (Join ("echo".toList :: words) ' ') = "echo".toList :: words := by
  have hall : ∀ w ∈ "echo".toList :: words, w ≠ [] ∧ ∀ c ∈ w, isSpace c = false ∧ c ≠ '|' := by
    intro w hm
    rcases List.mem_cons.mp hm with rfl | hm
    · decide
    · exact hw w hm
  constructor
  · apply Split_of_not_mem
    intro hm
    rcases mem_Join _ _ _ hm with h | ⟨t, ht, hc⟩
    · cases h
    · exact ((hall t ht).2 _ hc).2 rfl
  · have hh : ∃ tail, Join ("echo".toList :: words) ' ' = 'e' :: tail :=
      Join_head 'e' "cho".toList words ' '
    obtain ⟨tail, hhead⟩ := hh
    obtain ⟨init, z, t, hlast, ht, hz⟩ :=
      Join_last ("echo".toList :: words) ' ' (by simp) (fun w hm => (hall w hm).1)
    have htrim := TrimSpace_eq_self 'e' z init tail _ hhead hlast (by decide)
      ((hall t ht).2 z hz).1
    rw [tokens, htrim]
    apply Split_Join _ _ (by simp)
    intro w hm hsp
    have := ((hall w hm).2 _ hsp).1
    exact absurd this (by decide)

/-- C14: for all words `w1 ... wn` (`n ≥ 0`), each non-empty and without white
space and `|`, the line `echo w1 ... wn` makes the shell of `main` build one
unit, the internal unit of the built-in `echo` with the arguments `w1 ... wn`
bound to the shell's input and output, and running it writes the words joined
by single spaces and one newline to the shell's output (and prints the error
of that write, if it fails). -/
theorem echo_line (os : OS) (n : Nat) (words : List Str)
    (hw : ∀ w ∈ words, w ≠ [] ∧ ∀ c ∈ w, isSpace c = false ∧ c ≠ '|') :
    (mainShell os).build (Split (Join ("echo".toList :: words) ' ') '|') =
      .ok [.internal { stdin := some (mainShell os).inp, stdout := some (mainShell os).out,
                       command := echo os, args := words, shouldCloseOut := false }] ∧
    (mainShell os).processChain os [0] n (Split (Join ("echo".toList :: words) ' ') '|') =
      some { events :=
               [Event.exec 0,
                Event.handler words (some (mainShell os).inp) (some (mainShell os).out),
                Event.effect (Effect.write (some (mainShell os).out) (Join words ' ' ++ ['\n']))] ++
               (os.write (some (mainShell os).out) (Join words ' ' ++ ['\n'])).toList.map
                 Event.println,
             pipes := n, err := none } := by
  obtain ⟨h1, h2⟩ := tokens_echo words hw
  have hcmd : (mainShell os).commands "echo".toList = some (echo os) := by
    simp [mainShell]
  have hb : (mainShell os).build (Split (Join ("echo".toList :: words) ' ') '|') =
      .ok [.internal { stdin := some (mainShell os).inp, stdout := some (mainShell os).out,
                       command := echo os, args := words, shouldCloseOut := false }] := by
    rw [h1]
    simp only [Shell.build, Shell.buildLoop, h2, Shell.parseCommand, hcmd, List.length_singleton]
    rfl
  refine ⟨hb, ?_⟩
  rw [processChain_of_wire_ok _ os [0] n _ _ _ _ _ hb rfl (by simp)]
  simp only [runAll, List.flatMap_cons, List.flatMap_nil, List.getElem?_cons_zero, goroutine,
    Executable.exec, InternalCommand.exec, echo, List.nil_append, List.append_nil]
  cases os.write (some (mainShell os).out) (Join words ' ' ++ ['\n']) <;> rfl

/-- Witness of C14: the line `echo hello world`. -/
theorem echo_line_witness :
    (∀ w ∈ ["hello".toList, "world".toList], w ≠ [] ∧ ∀ c ∈ w, isSpace c = false ∧ c ≠ '|') ∧
    Join ("echo".toList :: ["hello".toList, "world".toList]) ' ' = "echo hello world".toList ∧
    (mainShell OS.allOk).processChain OS.allOk [0] 0
        (Split (Join ("echo".toList :: ["hello".toList, "world".toList]) ' ') '|') =
      some { events :=
               [Event.exec 0,
                Event.handler ["hello".toList, "world".toList] (some File.stdout) (some File.stdin),
                Event.effect (Effect.write (some File.stdin) "hello world\n".toList)],
             pipes := 0, err := none } :=
  ⟨by decide, by decide,
    (echo_line OS.allOk 0 ["hello".toList, "world".toList] (by decide)).2⟩

end Dev08

namespace Dev03

open Dev08 (Str Err Split)
open Golang

/-! ## The order of strings -/

theorem Char_toNat_inj {a b : Char} (h : a.toNat = b.toNat) : a = b := by
  exact Char.eq_of_val_eq (UInt32.toNat.inj h)

theorem strLess_irrefl (a : Str) : strLess a a = false := by
  induction a with
  | nil => rfl
  | cons c cs ih => simp [strLess, ih]

/-- Two strings neither of which is less than the other are equal. -/
theorem strLess_antisymm : ∀ a b : Str, strLess a b = false → strLess b a = false → a = b
  | [], [], _, _ => rfl
  | [], _ :: _, h, _ => by simp [strLess] at h
  | _ :: _, [], _, h => by simp [strLess] at h
  | a :: as, b :: bs, h1, h2 => by
    simp only [strLess, Bool.or_eq_false_iff, decide_eq_false_iff_not, Bool.and_eq_false_imp,
      beq_iff_eq, not_lt] at h1 h2
    have hab : a.toNat = b.toNat := le_antisymm h2.1 h1.1
    have := strLess_antisymm as bs (h1.2 hab) (h2.2 hab.symm)
    rw [Char_toNat_inj hab, this]

/-- A string that is not less than another one is equal to it or greater. -/
theorem strLess_total (a b : Str) (h : strLess b a = false) : a = b ∨ strLess a b = true := by
  cases h2 : strLess a b with
  | true => exact .inr rfl
  | false => exact .inl (strLess_antisymm a b h2 h)

/-! ## Keys and `Less` without `-n` -/

theorem Key_of_string (pf : Str → Option Float) (h : FileHolder) (ha : h.arithmeticValue = false)
    (input : Str) : h.Key pf input = .str (h.column input) := by
  simp [FileHolder.Key, ha]

theorem lessLines_of_string (pf : Str → Option Float) (h : FileHolder)
    (ha : h.arithmeticValue = false) (li lj : Str) :
    h.lessLines pf li lj =
      some (if h.reverseOrder then strLess (h.column lj) (h.column li)
        else strLess (h.column li) (h.column lj)) := by
  simp only [FileHolder.lessLines, Key_of_string pf h ha]
  cases h.reverseOrder <;> simp

/-! ## `WriteOutput` -/

/-- A `Write` on a writer that does not fail. -/
theorem Write_ok (w : Writer) (text : Str) (hw : ∀ k, w.fail k = none) :
    w.Write text = ((w.Write text).1, byteLen text, none) ∧
      (w.Write text).1.chunks = w.chunks ++ [text] ∧ ∀ k, (w.Write text).1.fail k = none := by
  simp [Writer.Write, hw]

theorem same_str (a b : Str) : (KeyVal.str a).same (.str b) = (a == b) := rfl

/-- The loop of `WriteOutput` on string keys with a writer that does not fail,
when the keys of the map are the keys of the lines handled before: it writes
the lines `firstOfKey` gives when `unique` is set and every line otherwise. -/
theorem writeLoop_spec (pf : Str → Option Float) (h : FileHolder)
    (ha : h.arithmeticValue = false) :
    ∀ (lines : List Str) (uniqueKeys : List KeyVal) (earlier : List Str) (w : Writer) (n : Nat),
      (∀ k, w.fail k = none) →
      (∀ k : Str, uniqueKeys.any (fun k1 => k1.same (.str k)) = decide (k ∈ earlier.map h.column)) →
      (h.writeLoop pf uniqueKeys lines w n).1.chunks =
          w.chunks ++ (if h.unique then firstOfKey h.column earlier lines else lines).map
            (· ++ ['\n']) ∧
        (h.writeLoop pf uniqueKeys lines w n).2.1 =
          n + ((if h.unique then firstOfKey h.column earlier lines else lines).map
            fun l => byteLen (l ++ ['\n'])).sum ∧
        (h.writeLoop pf uniqueKeys lines w n).2.2 = none := by
  intro lines
  induction lines with
  | nil =>
    intro uniqueKeys earlier w n _ _
    cases h.unique <;> simp [FileHolder.writeLoop, firstOfKey]
  | cons line rest ih =>
    intro uniqueKeys earlier w n hw hk
    have hnext : ∀ k : Str, (h.Key pf line :: uniqueKeys).any (fun k1 => k1.same (.str k)) =
        decide (k ∈ (earlier ++ [line]).map h.column) := by
      intro k
      rw [List.any_cons, hk k, Key_of_string pf h ha, same_str]
      have h3 : ∀ x : Str, (x = k) = (k = x) := fun x => propext eq_comm
      by_cases h1 : k ∈ earlier.map h.column <;> by_cases h2 : h.column line = k <;>
        simp [h1, h2, h3 (h.column line), ← h3 (h.column line)]
    obtain ⟨hwrite, hchunks, hfail⟩ := Write_ok w (line ++ ['\n']) hw
    by_cases hmem : h.column line ∈ earlier.map h.column
    · -- a line with this key was handled before
      have hany : uniqueKeys.any (fun k1 => k1.same (h.Key pf line)) = true := by
        rw [Key_of_string pf h ha, hk]
        simpa using hmem
      cases hu : h.unique with
      | true =>
        have hsame : ∀ k : Str, uniqueKeys.any (fun k1 => k1.same (.str k)) =
            decide (k ∈ (earlier ++ [line]).map h.column) := by
          intro k
          rw [hk k]
          by_cases h2 : h.column line = k
          · subst h2
            simp [hmem]
          · have h3 : ¬ k = h.column line := fun e => h2 e.symm
            simp [h3]
        have := ih uniqueKeys (earlier ++ [line]) w n hw hsame
        simpa [FileHolder.writeLoop, hany, hu, firstOfKey, hmem] using this
      | false =>
        have := ih (h.Key pf line :: uniqueKeys) (earlier ++ [line]) _
          (n + byteLen (line ++ ['\n'])) hfail hnext
        simp only [FileHolder.writeLoop, hany, hu, Bool.and_false]
        rw [hwrite]
        simpa [hu, hchunks, Nat.add_assoc] using this
    · have hany : uniqueKeys.any (fun k1 => k1.same (h.Key pf line)) = false := by
        rw [Key_of_string pf h ha, hk]
        simpa using hmem
      have := ih (h.Key pf line :: uniqueKeys) (earlier ++ [line]) _
        (n + byteLen (line ++ ['\n'])) hfail hnext
      simp only [FileHolder.writeLoop, hany, Bool.false_and]
      rw [hwrite]
      cases hu : h.unique with
      | true => simpa [hu, hchunks, firstOfKey, hmem, Nat.add_assoc] using this
      | false => simpa [hu, hchunks, Nat.add_assoc] using this

theorem WriteOutput_spec (pf : Str → Option Float) (h : FileHolder)
    (ha : h.arithmeticValue = false) (w : Writer) (hw : ∀ k, w.fail k = none) :
    (h.WriteOutput pf w).1.chunks =
        w.chunks ++ (if h.unique then firstOfKey h.column [] h.lines else h.lines).map
          (· ++ ['\n']) ∧
      (h.WriteOutput pf w).2.1 =
        ((if h.unique then firstOfKey h.column [] h.lines else h.lines).map
          fun l => byteLen (l ++ ['\n'])).sum ∧
      (h.WriteOutput pf w).2.2 = none := by
  have := writeLoop_spec pf h ha h.lines [] [] w 0 hw (by simp)
  simpa [FileHolder.WriteOutput] using this

/-! ## The lines `-u` keeps -/

theorem firstOfKey_sublist (key : Str → Str) :
    ∀ (lines earlier : List Str), (firstOfKey key earlier lines).Sublist lines := by
  intro lines
  induction lines with
  | nil => intro _; simp [firstOfKey]
  | cons line rest ih =>
    intro earlier
    simp only [firstOfKey]
    split_ifs
    · exact (ih _).cons _
    · exact (ih _).cons₂ _

/-- The keys of the kept lines are new and pairwise different. -/
theorem firstOfKey_nodup (key : Str → Str) :
    ∀ (lines earlier : List Str),
      (∀ x ∈ firstOfKey key earlier lines, key x ∉ earlier.map key) ∧
        ((firstOfKey key earlier lines).map key).Nodup := by
  intro lines
  induction lines with
  | nil => intro _; simp [firstOfKey]
  | cons line rest ih =>
    intro earlier
    obtain ⟨h1, h2⟩ := ih (earlier ++ [line])
    have h1a : ∀ x ∈ firstOfKey key (earlier ++ [line]) rest,
        key x ∉ earlier.map key ∧ key x ≠ key line := by
      intro x hx
      have := h1 x hx
      simp only [List.map_append, List.map_cons, List.map_nil, List.mem_append,
        List.mem_singleton, not_or] at this
      exact this
    simp only [firstOfKey]
    split_ifs with hm
    · exact ⟨fun x hx => (h1a x hx).1, h2⟩
    · refine ⟨?_, ?_⟩
      · intro x hx
        rcases List.mem_cons.mp hx with rfl | hx
        · exact hm
        · exact (h1a x hx).1
      · rw [List.map_cons, List.nodup_cons]
        refine ⟨?_, h2⟩
        intro hin
        obtain ⟨x, hx, hkx⟩ := List.mem_map.mp hin
        exact (h1a x hx).2 hkx

/-- Every key that is new has a kept line. -/
theorem firstOfKey_covers (key : Str → Str) :
    ∀ (lines earlier : List Str), ∀ x ∈ lines, key x ∉ earlier.map key →
      key x ∈ (firstOfKey key earlier lines).map key := by
  intro lines
  induction lines with
  | nil => intro _ x hx; cases hx
  | cons line rest ih =>
    intro earlier x hx hnew
    simp only [firstOfKey]
    by_cases hxl : key x = key line
    · split_ifs with hm
      · exact absurd (hxl ▸ hm) hnew
      · rw [hxl]
        simp
    · have hxr : x ∈ rest := by
        rcases List.mem_cons.mp hx with rfl | h
        · exact absurd rfl hxl
        · exact h
      have hnew2 : key x ∉ (earlier ++ [line]).map key := by
        simpa [hxl] using hnew
      have := ih (earlier ++ [line]) x hxr hnew2
      split_ifs
      · exact this
      · exact List.mem_cons_of_mem _ this

/-! ## Sorting and writing -/


/-- C17: for every sequence of lines held by a `FileHolder` with string keys,
`WriteOutput` with `unique` set writes exactly the lines whose key differs from
the key of every line before them in the sequence, each followed by a newline:
these are lines of the sequence in their order, no two of them have equal keys,
and every key of the sequence is among theirs; without `unique` it writes every
line. -/
theorem WriteOutput_unique (pf : Str → Option Float) (h : FileHolder) (w : Writer)
    (ha : h.arithmeticValue = false) (hw : ∀ k, w.fail k = none) :
    (h.WriteOutput pf w).1.chunks =
      w.chunks ++ (if h.unique then firstOfKey h.column [] h.lines else h.lines).map
        (· ++ ['\n']) ∧
    (h.WriteOutput pf w).2.2 = none ∧
    (firstOfKey h.column [] h.lines).Sublist h.lines ∧
    ((firstOfKey h.column [] h.lines).map h.column).Nodup ∧
    ∀ l ∈ h.lines, h.column l ∈ (firstOfKey h.column [] h.lines).map h.column := by
  obtain ⟨h1, -, h3⟩ := WriteOutput_spec pf h ha w hw
  exact ⟨h1, h3, firstOfKey_sublist _ _ _, (firstOfKey_nodup _ _ _).2,
    fun l hl => firstOfKey_covers _ _ _ l hl (by simp)⟩

/-- Witness of C17: the second case of `TestFileHolder` (`-u`), after the
sort. -/
theorem WriteOutput_unique_witness :
    (({ testHolder false true with
          lines := ["10 1".toList, "2 4".toList, "2 5".toList, "3 3".toList, "3 3".toList,
            "4 2".toList, "5 0".toList] } : FileHolder).WriteOutput (fun _ => none)
        Writer.buffer).1.chunks =
      ["10 1\n".toList, "2 4\n".toList, "2 5\n".toList, "3 3\n".toList, "4 2\n".toList,
        "5 0\n".toList] :=
  (WriteOutput_unique (fun _ => none)
    ({ testHolder false true with
        lines := ["10 1".toList, "2 4".toList, "2 5".toList, "3 3".toList, "3 3".toList,
          "4 2".toList, "5 0".toList] } : FileHolder)
    Writer.buffer rfl (fun _ => rfl)).1

/-! ## `-r` reverses the output -/

theorem column_of_neg (h : FileHolder) (hc : h.columnIndex < 0) (input : Str) :
    h.column input = input := by
  simp [FileHolder.column, not_le.mpr hc]

/-- On a list in ascending order `-u` keeps the same lines whether the list is
read from the left or from the right. -/
theorem firstOfKey_reverse (l : List Str)
    (hl : l.Pairwise fun a b => strLess b a = false) :
    firstOfKey id [] l.reverse = (firstOfKey id [] l).reverse := by
  have hx := firstOfKey_nodup id l []
  have hy := firstOfKey_nodup id l.reverse []
  have sx := firstOfKey_sublist id l []
  have sy := firstOfKey_sublist id l.reverse []
  have cx := firstOfKey_covers id l []
  have cy := firstOfKey_covers id l.reverse []
  simp only [List.map_id_fun, id_eq, List.map_nil, List.not_mem_nil, not_false_eq_true,
    forall_true_left] at hx hy cx cy
  have hperm : (firstOfKey id [] l.reverse).reverse.Perm (firstOfKey id [] l) := by
    rw [List.perm_ext_iff_of_nodup (List.nodup_reverse.mpr hy.2) hx.2]
    intro a
    rw [List.mem_reverse]
    constructor
    · intro ha
      exact cx a (List.mem_reverse.mp (sy.subset ha))
    · intro ha
      exact cy a (List.mem_reverse.mpr (sx.subset ha))
  haveI : IsAntisymm Str (fun a b => strLess b a = false) :=
    ⟨fun a b h1 h2 => strLess_antisymm a b h2 h1⟩
  have h1 : (firstOfKey id [] l.reverse).reverse.Pairwise fun a b => strLess b a = false := by
    have : (firstOfKey id [] l.reverse).reverse.Sublist l := by
      simpa using sy.reverse
    exact hl.sublist this
  have h2 : (firstOfKey id [] l).Pairwise fun a b => strLess b a = false := hl.sublist sx
  have := List.eq_of_perm_of_sorted hperm h1 h2
  rw [← this, List.reverse_reverse]

/-- C18: for every list of lines, with the whole line as the key
(`columnIndex = -1`, no `-n`) and for both values of `unique`, what
`WriteOutput` writes after `sort.Sort` with `reverseOrder` set is what it writes
after `sort.Sort` with `reverseOrder` not set, the written lines being in the
reverse order. -/
theorem reverse_output (pf : Str → Option Float) (h : FileHolder) (asc desc : List Str)
    (w : Writer) (hc : h.columnIndex = -1) (ha : h.arithmeticValue = false)
    (hasc : SortResult pf { h with reverseOrder := false } asc)
    (hdesc : SortResult pf { h with reverseOrder := true } desc)
    (hw : ∀ k, w.fail k = none) :
    ∃ out,
      (({ h with lines := asc, reverseOrder := false } : FileHolder).WriteOutput pf w).1.chunks =
        w.chunks ++ out ∧
      (({ h with lines := desc, reverseOrder := true } : FileHolder).WriteOutput pf w).1.chunks =
        w.chunks ++ out.reverse := by
  have hneg : h.columnIndex < 0 := by rw [hc]; decide
  have hcol : ∀ (r : Bool) (ls : List Str),
      ({ h with lines := ls, reverseOrder := r } : FileHolder).column = id := by
    intro r ls
    funext input
    exact column_of_neg _ hneg input
  have hcol2 : ∀ (r : Bool), ({ h with reverseOrder := r } : FileHolder).column = id := by
    intro r
    funext input
    exact column_of_neg _ hneg input
  -- the two sorted lists are the reverse of one another
  have hA : asc.Pairwise fun a b => strLess b a = false := by
    refine hasc.2.imp ?_
    intro a b hab
    rw [lessLines_of_string pf ({ h with reverseOrder := false } : FileHolder) ha] at hab
    simpa [hcol2] using hab
  have hD : desc.reverse.Pairwise fun a b => strLess b a = false := by
    rw [List.pairwise_reverse]
    refine hdesc.2.imp ?_
    intro a b hab
    rw [lessLines_of_string pf ({ h with reverseOrder := true } : FileHolder) ha] at hab
    simpa [hcol2] using hab
  have hperm : desc.reverse.Perm asc :=
    (List.reverse_perm desc).trans (hdesc.1.trans hasc.1.symm)
  haveI : IsAntisymm Str (fun a b => strLess b a = false) :=
    ⟨fun a b h1 h2 => strLess_antisymm a b h2 h1⟩
  have hrev : desc.reverse = asc := List.eq_of_perm_of_sorted hperm hD hA
  have hdesc_eq : desc = asc.reverse := by rw [← hrev, List.reverse_reverse]
  obtain ⟨h1, -⟩ := WriteOutput_spec pf
    ({ h with lines := asc, reverseOrder := false } : FileHolder) ha w hw
  obtain ⟨h2, -⟩ := WriteOutput_spec pf
    ({ h with lines := desc, reverseOrder := true } : FileHolder) ha w hw
  rw [hcol] at h1 h2
  refine ⟨_, h1, ?_⟩
  rw [h2]
  congr 1
  cases hu : h.unique with
  | false => simp [hu, hdesc_eq]
  | true =>
    simp only [hu, if_true, hdesc_eq, firstOfKey_reverse asc hA, List.map_reverse]

/-- Witness of C18: the second and the fourth case of `TestFileHolder` (`-u`
and `-r -u`). -/
theorem reverse_output_witness :
    SortResult (fun _ => none) { testHolder false true with reverseOrder := false }
      ["10 1".toList, "2 4".toList, "2 5".toList, "3 3".toList, "3 3".toList, "4 2".toList,
        "5 0".toList] ∧
    SortResult (fun _ => none) { testHolder false true with reverseOrder := true }
      ["5 0".toList, "4 2".toList, "3 3".toList, "3 3".toList, "2 5".toList, "2 4".toList,
        "10 1".toList] ∧
    ∃ out,
      (({ testHolder false true with
            lines := ["10 1".toList, "2 4".toList, "2 5".toList, "3 3".toList, "3 3".toList,
              "4 2".toList, "5 0".toList]
            reverseOrder := false } : FileHolder).WriteOutput (fun _ => none)
          Writer.buffer).1.chunks = Writer.buffer.chunks ++ out ∧
      (({ testHolder false true with
            lines := ["5 0".toList, "4 2".toList, "3 3".toList, "3 3".toList, "2 5".toList,
              "2 4".toList, "10 1".toList]
            reverseOrder := true } : FileHolder).WriteOutput (fun _ => none)
          Writer.buffer).1.chunks = Writer.buffer.chunks ++ out.reverse :=
  ⟨⟨by decide, by decide⟩, ⟨by decide, by decide⟩,
    reverse_output (fun _ => none) (testHolder false true) _ _ Writer.buffer rfl rfl
      ⟨by decide, by decide⟩ ⟨by decide, by decide⟩ (fun _ => rfl)⟩

end Dev03

namespace Dev05

open Dev08 (Str Err)
open Golang

/-! ## `Find` -/

/-- The loop of `Find`: the lines from the index `i` on get their entry in the
map, the other entries stay, and the count grows by the number of matching
lines. -/
theorem findLoop_spec (predicate : LinePredicate) :
    ∀ (lines : List Str) (i : Nat) (s : Search),
      (∀ j : Nat, (Search.findLoop predicate i lines s).matches_ ((i + j : Nat) : Int) =
        match lines[j]? with
        | some l => some (xor (predicate l) s.invert)
        | none => s.matches_ ((i + j : Nat) : Int)) ∧
      (∀ k : Int, k < i → (Search.findLoop predicate i lines s).matches_ k = s.matches_ k) ∧
      (Search.findLoop predicate i lines s).count =
        s.count + lines.countP (fun l => xor (predicate l) s.invert) := by
  intro lines
  induction lines with
  | nil => intro i s; simp [Search.findLoop]
  | cons line rest ih =>
    intro i s
    have hr : (if s.invert then !predicate line else predicate line) =
        xor (predicate line) s.invert := by
      cases s.invert <;> cases predicate line <;> rfl
    obtain ⟨h1, h2, h3⟩ := ih (i + 1)
      { s with matches_ := store s.matches_ i (xor (predicate line) s.invert),
               count := if xor (predicate line) s.invert then s.count + 1 else s.count }
    dsimp only at h1 h2 h3
    simp only [Search.findLoop, hr]
    refine ⟨?_, ?_, ?_⟩
    · intro j
      cases j with
      | zero =>
        have := h2 (i : Int) (by push_cast; omega)
        simpa [store] using this
      | succ j =>
        have := h1 j
        rw [show i + 1 + j = i + (j + 1) by omega] at this
        rw [this]
        simp only [List.getElem?_cons_succ]
        cases rest[j]? with
        | some l => rfl
        | none =>
          have hne : ((i + (j + 1) : Nat) : Int) ≠ (i : Int) := by push_cast; omega
          show store s.matches_ i _ ((i + (j + 1) : Nat) : Int) = _
          rw [store, if_neg hne]
    · intro k hk
      have := h2 k (by push_cast; omega)
      rw [this]
      have hne : k ≠ (i : Int) := by omega
      rw [store, if_neg hne]
    · rw [h3, List.countP_cons]
      cases xor (predicate line) s.invert
      · simp
      · simp; omega

theorem countP_range_getElem? {α : Type} (f : α → Bool) (l : List α) :
    (List.range l.length).countP (fun i => ((l[i]?).map f).getD false) = l.countP f := by
  induction l with
  | nil => simp
  | cons a l ih =>
    rw [List.length_cons, List.range_succ_eq_map, List.countP_cons, List.countP_map,
      List.countP_cons]
    have : ((fun i => (((a :: l)[i]?).map f).getD false) ∘ Nat.succ) =
        fun i => ((l[i]?).map f).getD false := by
      funext i; simp
    rw [this, ih]
    simp

/-- C19: for every list of `n` lines, every predicate and both values of
`invert`, after `Find` on a search with an empty map and the count 0 the map has
exactly the keys `0 .. n-1`, the entry of `i` is the value of the predicate on
line `i`, inverted when `invert` is set, and the count is the number of indices
whose entry is true. -/
theorem Find_spec (s : Search) (predicate : LinePredicate) (hm : s.matches_ = fun _ => none)
    (hc : s.count = 0) :
    (∀ i : Nat, (s.Find predicate).matches_ i =
      (s.sourceLines[i]?).map fun l => xor (predicate l) s.invert) ∧
    (∀ k : Int, k < 0 → (s.Find predicate).matches_ k = none) ∧
    (s.Find predicate).count =
      (((List.range s.sourceLines.length).countP fun i : Nat =>
        lookup (s.Find predicate).matches_ (i : Int) : Nat) : Int) := by
  obtain ⟨h1, h2, h3⟩ := findLoop_spec predicate s.sourceLines 0 s
  have hmatch : ∀ i : Nat, (s.Find predicate).matches_ i =
      (s.sourceLines[i]?).map fun l => xor (predicate l) s.invert := by
    intro i
    have := h1 i
    simp only [Nat.zero_add] at this
    rw [Search.Find, this]
    cases s.sourceLines[i]? with
    | some l => rfl
    | none => simp [hm]
  refine ⟨hmatch, ?_, ?_⟩
  · intro k hk
    rw [Search.Find, h2 k (by simpa using hk), hm]
  · have hcount : ((List.range s.sourceLines.length).countP fun i : Nat =>
        lookup (s.Find predicate).matches_ (i : Int)) =
        s.sourceLines.countP fun l => xor (predicate l) s.invert := by
      have hf : (fun i : Nat => lookup (s.Find predicate).matches_ (i : Int)) =
          fun i : Nat => ((s.sourceLines[i]?).map fun l => xor (predicate l) s.invert).getD
            false := by
        funext i
        rw [lookup, hmatch i]
      rw [hf]
      exact countP_range_getElem? _ _
    rw [hcount, Search.Find, h3, hc]
    simp

/-- Witness of C19: the second case of `TestSearch_Find` (`invert` set). -/
theorem Find_spec_witness :
    (testSearch true).matches_ = (fun _ => none) ∧ (testSearch true).count = 0 ∧
    (∀ i : Nat, ((testSearch true).Find fun l => l == "1".toList).matches_ i =
      ((testSearch true).sourceLines[i]?).map fun l =>
        xor ((fun l => l == "1".toList) l) (testSearch true).invert) ∧
    ((testSearch true).Find fun l => l == "1".toList).count = 4 :=
  have h := Find_spec (testSearch true) (fun l => l == "1".toList) rfl rfl
  ⟨rfl, rfl, h.1, by decide⟩

/-! ## `Print` without context -/

theorem wrap_of_range (x : Int) (h1 : -2 ^ 63 ≤ x) (h2 : x < 2 ^ 63) : wrap x = x := by
  unfold wrap
  omega

/-- The loop of `Print` with `linesBefore = linesAfter = 0` and without line
numbers, on a writer that does not fail: it writes the lines whose entry in the
map is true. -/
theorem printLoop_zero (p : Printer) (search : Search) (hB : p.linesBefore = 0)
    (hA : p.linesAfter = 0) (hn : p.lineNumbers = false)
    (hlen : search.sourceLines.length < 2 ^ 63) :
    ∀ (rest : List Str) (i : Nat) (lastMatch : Int) (w : Writer) (n : Nat),
      (∀ k, w.fail k = none) → -1 ≤ lastMatch → lastMatch < i →
      i + rest.length ≤ search.sourceLines.length →
      (p.printLoop search i rest false lastMatch w n).1.chunks =
          w.chunks ++ ((rest.enumFrom i).filter fun x => lookup search.matches_ (x.1 : Int)).map
            (fun x => x.2 ++ ['\n']) ∧
        (p.printLoop search i rest false lastMatch w n).2.1 =
          n + (((rest.enumFrom i).filter fun x => lookup search.matches_ (x.1 : Int)).map
            fun x => byteLen (x.2 ++ ['\n'])).sum ∧
        (p.printLoop search i rest false lastMatch w n).2.2 = none := by
  intro rest
  induction rest with
  | nil => intro i lastMatch w n _ _ _ _; simp [Printer.printLoop]
  | cons line rest ih =>
    intro i lastMatch w n hw hl1 hl2 hi
    have hi63 : (i : Int) < 2 ^ 63 := by
      have : i < 2 ^ 63 := by simp only [List.length_cons] at hi; omega
      exact_mod_cast this
    have hwi : wrap (i : Int) = i := wrap_of_range _ (by omega) hi63
    have hrest : i + 1 + rest.length ≤ search.sourceLines.length := by
      simp only [List.length_cons] at hi; omega
    obtain ⟨hwrite, hchunks, hfail⟩ := Dev03.Write_ok w (line ++ ['\n']) hw
    cases hcm : lookup search.matches_ (i : Int) with
    | true =>
      have := ih (i + 1) (i : Int) (w.Write (line ++ ['\n'])).1 (n + byteLen (line ++ ['\n']))
        hfail (by omega) (by push_cast; omega) hrest
      rw [Printer.printLoop]
      simp only [hB, hA, add_zero, hwi]
      simp only [hn, hcm, Bool.or_true, Bool.true_or, if_true, Bool.false_eq_true, if_false,
        hwi, le_refl]
      rw [hwrite]
      simp only [List.enumFrom_cons, List.filter_cons, hcm, if_true, List.map_cons,
        List.sum_cons]
      rw [this.1, this.2.1, this.2.2, hchunks]
      simp [Nat.add_assoc]
    | false =>
      have := ih (i + 1) lastMatch w n hw hl1 (by push_cast; omega) hrest
      rw [Printer.printLoop]
      simp only [hB, hA, add_zero, hwi]
      simp only [hn, hcm, Bool.or_false, Bool.and_false, Bool.false_eq_true, if_false, ite_self]
      simp only [List.enumFrom_cons, List.filter_cons, hcm, Bool.false_eq_true, if_false]
      exact this

/-- C20: for every search and a printer with `linesBefore = linesAfter = 0`,
without `onlyCount` and line numbers, `Print` (on a writer that does not fail)
writes exactly the lines `i` whose entry `matches[i]` is true, in the order of
the source, each followed by a newline, and returns the number of bytes written
and no error. -/
theorem Print_matching_lines (p : Printer) (search : Search) (w : Writer)
    (hB : p.linesBefore = 0) (hA : p.linesAfter = 0) (hc : p.onlyCount = false)
    (hn : p.lineNumbers = false) (hw : ∀ k, w.fail k = none)
    (hlen : search.sourceLines.length < 2 ^ 63) :
    (p.Print search w).1.chunks =
      w.chunks ++ (search.sourceLines.enum.filter fun x => lookup search.matches_ (x.1 : Int)).map
        (fun x => x.2 ++ ['\n']) ∧
    (p.Print search w).2.1 =
      ((search.sourceLines.enum.filter fun x => lookup search.matches_ (x.1 : Int)).map
        fun x => byteLen (x.2 ++ ['\n'])).sum ∧
    (p.Print search w).2.2 = none := by
  have := printLoop_zero p search hB hA hn hlen search.sourceLines 0 (-1) w 0 hw (by omega)
    (by omega) (by omega)
  simpa [Printer.Print, hc, List.enum] using this

/-- Witness of C20: the first case of `TestPrinter_Print`. -/
theorem Print_matching_lines_witness :
    (({ linesBefore := 0, linesAfter := 0, lineNumbers := false, onlyCount := false } : Printer).Print
        ((testSearch false).Find fun l => l == "1".toList) Writer.buffer).1.chunks =
      ["1\n".toList, "1\n".toList] ∧
    (({ linesBefore := 0, linesAfter := 0, lineNumbers := false, onlyCount := false } : Printer).Print
        ((testSearch false).Find fun l => l == "1".toList) Writer.buffer).2.1 = 4 :=
  have h := Print_matching_lines
    ({ linesBefore := 0, linesAfter := 0, lineNumbers := false, onlyCount := false } : Printer)
    ((testSearch false).Find fun l => l == "1".toList) Writer.buffer rfl rfl rfl rfl
    (fun _ => rfl) (by show (6 : Nat) < 2 ^ 63; norm_num)
  ⟨h.1, h.2.1⟩

end Dev05

namespace Dev05

open Dev08 (Str Err)
open Golang

/-! ## `Print` with context -/

/-- C21: with `linesBefore = 2` and `linesAfter = 0` on the lines `a`, `b`, `m`,
of which only `m` (index 2) matches, `Print` writes `a` and `m` and leaves out
`b`, although the matching line 2 lies within the two lines after line 1: the
flag set by the match two lines ahead is cleared again after line 0, and line 1
sees neither a match at its own index nor one exactly two lines ahead. -/
theorem Print_before_context_gap :
    lookup gapSearch.matches_ 2 = true ∧ ((1 : Int) - 0 ≤ 2 ∧ (2 : Int) ≤ 1 + 2) ∧
    (({ linesBefore := 2, linesAfter := 0, lineNumbers := false, onlyCount := false } :
        Printer).Print gapSearch Writer.buffer).1.chunks = ["a\n".toList, "m\n".toList] ∧
    (({ linesBefore := 2, linesAfter := 0, lineNumbers := false, onlyCount := false } :
        Printer).Print gapSearch Writer.buffer).2.2 = none := by
  decide

end Dev05

namespace Dev06

open Dev08 (Str Split Atoi digitsValue)
open Golang

/-! ## Decimal numerals and `strconv.Atoi` -/

theorem digitChar_digit (k : Nat) (h : k < 10) :
    ('0' ≤ Nat.digitChar k ∧ Nat.digitChar k ≤ '9') ∧
      (Nat.digitChar k).toNat - '0'.toNat = k := by
  interval_cases k <;> decide

theorem digitsValue_append (l1 l2 : Str) :
    ∀ acc, digitsValue acc (l1 ++ l2) = (digitsValue acc l1).bind fun a => digitsValue a l2 := by
  induction l1 with
  | nil => intro acc; simp [digitsValue]
  | cons c cs ih =>
    intro acc
    simp only [List.cons_append, digitsValue]
    split_ifs
    · exact ih _
    · rfl

theorem toDigitsCore_append (fuel : Nat) :
    ∀ (n : Nat) (ds : Str), Nat.toDigitsCore 10 fuel n ds = Nat.toDigitsCore 10 fuel n [] ++ ds := by
  induction fuel with
  | zero => intro n ds; simp [Nat.toDigitsCore]
  | succ fuel ih =>
    intro n ds
    simp only [Nat.toDigitsCore]
    split_ifs
    · simp
    · rw [ih (n / 10) (Nat.digitChar (n % 10) :: ds), ih (n / 10) [Nat.digitChar (n % 10)]]
      simp

/-- The digits Lean prints for a number: not empty, decimal digits only, and
their value is the number. -/
theorem toDigitsCore_spec (fuel : Nat) :
    ∀ n : Nat, n < fuel →
      Nat.toDigitsCore 10 fuel n [] ≠ [] ∧
      (∀ c ∈ Nat.toDigitsCore 10 fuel n [], '0' ≤ c ∧ c ≤ '9') ∧
      digitsValue 0 (Nat.toDigitsCore 10 fuel n []) = some n := by
  induction fuel with
  | zero => intro n h; omega
  | succ fuel ih =>
    intro n hn
    obtain ⟨hd, hv⟩ := digitChar_digit (n % 10) (Nat.mod_lt _ (by norm_num))
    simp only [Nat.toDigitsCore]
    split_ifs with h0
    · refine ⟨by simp, ?_, ?_⟩
      · intro c hc
        rw [List.mem_singleton] at hc
        rw [hc]; exact hd
      · have hlt : n < 10 := by omega
        simp only [digitsValue, hd, and_self, if_true, hv]
        congr 1
        omega
    · have hlt : n / 10 < fuel := by omega
      obtain ⟨h1, h2, h3⟩ := ih (n / 10) hlt
      rw [toDigitsCore_append]
      refine ⟨by simp [h1], ?_, ?_⟩
      · intro c hc
        rw [List.mem_append, List.mem_singleton] at hc
        rcases hc with hc | hc
        · exact h2 c hc
        · rw [hc]; exact hd
      · rw [digitsValue_append, h3]
        simp only [Option.some_bind, digitsValue, hd, and_self, if_true, hv]
        congr 1
        omega

theorem repr_toList (a : Nat) : (Nat.repr a).toList = Nat.toDigitsCore 10 (a + 1) a [] := rfl

/-- `Atoi` on a non-empty string of decimal digits. -/
theorem Atoi_of_digits (s : Str) (v : Nat) (hne : s ≠ [])
    (hd : ∀ c ∈ s, '0' ≤ c ∧ c ≤ '9') (hv : digitsValue 0 s = some v) :
    Atoi s = if v < 2 ^ 63 then some (v : Int) else none := by
  cases s with
  | nil => exact absurd rfl hne
  | cons c cs =>
    have hc := hd c (List.mem_cons_self _ _)
    have h1 : c ≠ '-' := by
      rintro rfl
      exact absurd hc.1 (by decide)
    have h2 : c ≠ '+' := by
      rintro rfl
      exact absurd hc.1 (by decide)
    unfold Atoi
    split
    · rename_i heq
      exact absurd heq hne
    · rename_i heq
      exact absurd (List.cons.inj heq).1 h1
    · rename_i heq
      exact absurd (List.cons.inj heq).1 h2
    · rw [hv]
      rfl

theorem Atoi_repr (a : Nat) :
    Atoi (Nat.repr a).toList = if a < 2 ^ 63 then some (a : Int) else none := by
  obtain ⟨h1, h2, h3⟩ := toDigitsCore_spec (a + 1) a (by omega)
  rw [repr_toList]
  exact Atoi_of_digits _ a h1 h2 h3

theorem repr_ne_nil (a : Nat) : (Nat.repr a).toList ≠ [] :=
  (toDigitsCore_spec (a + 1) a (by omega)).1

theorem repr_no_dash (a : Nat) : '-' ∉ (Nat.repr a).toList := by
  intro h
  have := (toDigitsCore_spec (a + 1) a (by omega)).2.1 _ h
  exact absurd this.1 (by decide)

end Dev06
namespace Dev06

open Dev08 (Str Split Atoi digitsValue)
open Golang

/-! ## `ParseRange` on decimal numerals -/

theorem parseRangeBound_repr (a : Nat) (h : a < 2 ^ 63) (constraint : ConstraintType) :
    parseRangeBound (Nat.repr a).toList constraint =
      .ok (.ok { Constraint := .NoConstraint, Explicit := a }) := by
  rw [parseRangeBound, if_neg (repr_ne_nil a), Atoi_repr, if_pos h]
  rfl

/-- Counterexample of C22: the decimal numeral of `2 ^ 63`, the first natural
number outside the range of `int`, is refused by `ParseRange` with the error of
`strconv.Atoi`. -/
theorem ParseRange_beyond_int :
    (Nat.repr (2 ^ 63)).toList = "9223372036854775808".toList ∧
    ParseRange (Nat.repr (2 ^ 63)).toList =
      .ok (.error (.boundValue "9223372036854775808".toList)) := by
  decide

/-- C22, amended: for all natural numbers `a` and `b` below `2 ^ 63`, written in
decimal, `ParseRange` returns for `a` the range of the one explicit bound `a`,
for `a-b` the explicit bounds `a` and `b`, for `a-` the explicit bound `a` and
`ConstraintMax`, for `-b` `ConstraintMin` and the explicit bound `b`, and for
`-` `ConstraintMin` and `ConstraintMax`; an explicit bound has the constraint
`NoConstraint`, an implicit one the value `-1`. -/
theorem ParseRange_decimal (a b : Nat) (ha : a < 2 ^ 63) (hb : b < 2 ^ 63) :
    ParseRange (Nat.repr a).toList =
      .ok (.ok { Bounds := [{ Constraint := .NoConstraint, Explicit := a }] }) ∧
    ParseRange ((Nat.repr a).toList ++ '-' :: (Nat.repr b).toList) =
      .ok (.ok { Bounds := [{ Constraint := .NoConstraint, Explicit := a },
                            { Constraint := .NoConstraint, Explicit := b }] }) ∧
    ParseRange ((Nat.repr a).toList ++ ['-']) =
      .ok (.ok { Bounds := [{ Constraint := .NoConstraint, Explicit := a },
                            { Constraint := .ConstraintMax, Explicit := -1 }] }) ∧
    ParseRange ('-' :: (Nat.repr b).toList) =
      .ok (.ok { Bounds := [{ Constraint := .ConstraintMin, Explicit := -1 },
                            { Constraint := .NoConstraint, Explicit := b }] }) ∧
    ParseRange ['-'] =
      .ok (.ok { Bounds := [{ Constraint := .ConstraintMin, Explicit := -1 },
                            { Constraint := .ConstraintMax, Explicit := -1 }] }) := by
  have sa : Split (Nat.repr a).toList '-' = [(Nat.repr a).toList] :=
    Dev08.Split_of_not_mem _ _ (repr_no_dash a)
  have sb : Split (Nat.repr b).toList '-' = [(Nat.repr b).toList] :=
    Dev08.Split_of_not_mem _ _ (repr_no_dash b)
  have sab : Split ((Nat.repr a).toList ++ '-' :: (Nat.repr b).toList) '-' =
      [(Nat.repr a).toList, (Nat.repr b).toList] := by
    rw [Dev08.Split_append_sep _ _ _ (repr_no_dash a), sb]
  have sa_ : Split ((Nat.repr a).toList ++ ['-']) '-' = [(Nat.repr a).toList, []] := by
    rw [Dev08.Split_append_sep _ _ _ (repr_no_dash a)]
    rfl
  have s_b : Split ('-' :: (Nat.repr b).toList) '-' = [[], (Nat.repr b).toList] := by
    have := Dev08.Split_append_sep [] (Nat.repr b).toList '-' (by simp)
    rw [List.nil_append] at this
    rw [this, sb]
  refine ⟨?_, ?_, ?_, ?_, rfl⟩
  · rw [ParseRange, sa]
    simp only [repr_ne_nil a, if_false, parseRangeBound_repr a ha]
    rfl
  · rw [ParseRange, sab]
    simp only [parseRangeBound_repr a ha, parseRangeBound_repr b hb]
    rfl
  · rw [ParseRange, sa_]
    simp only [parseRangeBound_repr a ha]
    rfl
  · rw [ParseRange, s_b]
    simp only [parseRangeBound_repr b hb]
    rfl

/-- Witness of C22: the inputs `1`, `1-3`, `1-`, `-3` and `-` of
`TestParseRange`. -/
theorem ParseRange_decimal_witness :
    ParseRange "1".toList =
      .ok (.ok { Bounds := [NewSpecificRangeBound 1] }) ∧
    ParseRange "1-3".toList =
      .ok (.ok { Bounds := [NewSpecificRangeBound 1, NewSpecificRangeBound 3] }) ∧
    ParseRange "1-".toList =
      .ok (.ok { Bounds := [NewSpecificRangeBound 1,
                            { Constraint := .ConstraintMax, Explicit := -1 }] }) ∧
    ParseRange "-3".toList =
      .ok (.ok { Bounds := [{ Constraint := .ConstraintMin, Explicit := -1 },
                            NewSpecificRangeBound 3] }) ∧
    ParseRange "-".toList =
      .ok (.ok { Bounds := [{ Constraint := .ConstraintMin, Explicit := -1 },
                            { Constraint := .ConstraintMax, Explicit := -1 }] }) :=
  ParseRange_decimal 1 3 (by norm_num) (by norm_num)

end Dev06

namespace Dev06

open Dev08 (Str Split Atoi digitsValue)
open Golang

/-! ## The errors of `ParseRange` -/

theorem parseRangeBound_eq (input : Str) (constraint : ConstraintType)
    (h : constraint ≠ .NoConstraint ∨ input ≠ []) :
    parseRangeBound input constraint =
      if input = [] then .ok (.ok { Constraint := constraint, Explicit := -1 })
      else
        match Atoi input with
        | none => .ok (.error (.boundValue input))
        | some value => .ok (.ok { Constraint := .NoConstraint, Explicit := value }) := by
  unfold parseRangeBound
  split_ifs with h0
  · have hc : constraint ≠ .NoConstraint := h.resolve_right (not_not.mpr h0)
    simp [NewRangeBound, hc]
  · cases Atoi input <;> rfl

/-- C23: `ParseRange` returns an error if and only if the input is empty, or
holds more than one `-`, or has a non-empty part, left or right of the `-`,
that `strconv.Atoi` does not accept; in every other case it returns a range
with one or two bounds (and it never panics). -/
theorem ParseRange_error_iff (input : Str) :
    ((∃ err, ParseRange input = .ok (.error err)) ↔
      (input = [] ∨ 2 ≤ input.count '-' ∨
        ∃ part ∈ Split input '-', part ≠ [] ∧ Atoi part = none)) ∧
    ((∃ err, ParseRange input = .ok (.error err)) ∨
      ∃ r, ParseRange input = .ok (.ok r) ∧ (r.Bounds.length = 1 ∨ r.Bounds.length = 2)) := by
  have hlen := Dev08.Split_length input '-'
  have hjoin := Dev08.Join_Split input '-'
  unfold ParseRange
  match hparts : Split input '-' with
  | [] => exact absurd hparts (Dev08.Split_ne_nil _ _)
  | [raw] =>
    rw [hparts] at hlen hjoin
    have hraw : raw = input := by simpa [Dev08.Join] using hjoin
    subst hraw
    have hcount : ¬ 2 ≤ List.count '-' raw := by
      simp only [List.length_singleton] at hlen
      omega
    by_cases h0 : raw = []
    · simp [h0]
    · simp only [h0, if_false, parseRangeBound_eq raw _ (Or.inr h0)]
      cases hv : Atoi raw with
      | none => simp [h0, hcount, hv]
      | some v => simp [h0, hcount, hv, NewRange]
  | [left, right] =>
    rw [hparts] at hlen
    have hcount : ¬ 2 ≤ List.count '-' input := by
      simp only [List.length_cons, List.length_nil] at hlen
      omega
    have hne : input ≠ [] := by
      rintro rfl
      simp at hlen
    simp only [parseRangeBound_eq left .ConstraintMin (Or.inl (by decide)),
      parseRangeBound_eq right .ConstraintMax (Or.inl (by decide))]
    by_cases hl : left = [] <;> by_cases hr : right = [] <;>
      cases hvl : Atoi left <;> cases hvr : Atoi right <;>
      simp [hl, hr, hvl, hvr, hne, hcount, NewRange]
  | a :: b :: c :: rest =>
    rw [hparts] at hlen
    have hcount : 2 ≤ List.count '-' input := by
      simp only [List.length_cons] at hlen
      omega
    simp [hcount]

end Dev06

namespace Dev06

open Dev08 (Str Split Atoi digitsValue)
open Golang

/-! ## The ranges `ParseColumnSelector` returns -/

theorem Atoi_nonneg (s : Str) (v : Int) (h : Atoi s = some v) (hd : '-' ∉ s) : 0 ≤ v := by
  unfold Atoi at h
  split at h
  · exact absurd h (by simp)
  · exact absurd (List.mem_cons_self _ _) hd
  · split_ifs at h
    cases hv : digitsValue 0 _ with
    | none => rw [hv] at h; exact absurd h (by simp)
    | some n =>
      rw [hv] at h
      simp only [Option.some_bind] at h
      split_ifs at h
      cases h
      exact Int.ofNat_nonneg n
  · cases hv : digitsValue 0 _ with
    | none => rw [hv] at h; exact absurd h (by simp)
    | some n =>
      rw [hv] at h
      simp only [Option.some_bind] at h
      split_ifs at h
      cases h
      exact Int.ofNat_nonneg n

/-- The form of a range made by `ParseRange`: one explicit bound, or a lower
bound that is explicit or `ConstraintMin` and an upper bound that is explicit
or `ConstraintMax`; explicit values are not negative. -/
theorem ParseRange_form (input : Str) (r : Range) (h : ParseRange input = .ok (.ok r)) :
    (∃ v, 0 ≤ v ∧ r.Bounds = [{ Constraint := .NoConstraint, Explicit := v }]) ∨
    (∃ lo hi, r.Bounds = [lo, hi] ∧
      (lo = { Constraint := .ConstraintMin, Explicit := -1 } ∨
        ∃ v, 0 ≤ v ∧ lo = { Constraint := .NoConstraint, Explicit := v }) ∧
      (hi = { Constraint := .ConstraintMax, Explicit := -1 } ∨
        ∃ v, 0 ≤ v ∧ hi = { Constraint := .NoConstraint, Explicit := v })) := by
  have hmem := Dev08.Split_not_mem input '-'
  unfold ParseRange at h
  match hparts : Split input '-' with
  | [] => exact absurd hparts (Dev08.Split_ne_nil _ _)
  | [raw] =>
    rw [hparts] at h hmem
    have hraw := hmem raw (by simp)
    by_cases h0 : raw = []
    · simp [h0] at h
    · simp only [h0, if_false, parseRangeBound_eq raw _ (Or.inr h0)] at h
      cases hv : Atoi raw with
      | none => simp [hv] at h
      | some v =>
        simp only [hv, NewRange] at h
        left
        refine ⟨v, Atoi_nonneg raw v hv hraw, ?_⟩
        simp at h
        rw [← h]
  | [left, right] =>
    rw [hparts] at h hmem
    have hleft := hmem left (by simp)
    have hright := hmem right (by simp)
    simp only [parseRangeBound_eq left .ConstraintMin (Or.inl (by decide)),
      parseRangeBound_eq right .ConstraintMax (Or.inl (by decide))] at h
    right
    by_cases hl : left = [] <;> by_cases hr : right = [] <;>
      cases hvl : Atoi left <;> cases hvr : Atoi right <;>
      simp [hl, hr, hvl, hvr, NewRange] at h <;>
      subst h <;>
      first
        | exact ⟨_, _, rfl, Or.inl rfl, Or.inl rfl⟩
        | exact ⟨_, _, rfl, Or.inl rfl, Or.inr ⟨_, Atoi_nonneg _ _ hvr hright, rfl⟩⟩
        | exact ⟨_, _, rfl, Or.inr ⟨_, Atoi_nonneg _ _ hvl hleft, rfl⟩, Or.inl rfl⟩
        | exact ⟨_, _, rfl, Or.inr ⟨_, Atoi_nonneg _ _ hvl hleft, rfl⟩,
            Or.inr ⟨_, Atoi_nonneg _ _ hvr hright, rfl⟩⟩
  | a :: b :: c :: rest =>
    rw [hparts] at h
    simp at h

theorem parseRanges_form :
    ∀ (parts : List Str) (ranges : List Range), parseRanges parts = .ok (.ok ranges) →
      ∀ r ∈ ranges, ∃ input, ParseRange input = .ok (.ok r) := by
  intro parts
  induction parts with
  | nil =>
    intro ranges h r hr
    simp [parseRanges] at h
    subst h
    simp at hr
  | cons rawRange rest ih =>
    intro ranges h r hr
    unfold parseRanges at h
    split at h
    · simp at h
    · simp at h
    · rename_i r0 hr0
      split at h
      · simp at h
      · simp at h
      · rename_i ranges0 hrest
        simp at h
        subst h
        rcases List.mem_cons.mp hr with e | hmem
        · exact ⟨rawRange, e ▸ hr0⟩
        · exact ih ranges0 hrest r hmem

theorem ParseColumnSelector_form (input : Str) (sel : ColumnSelector)
    (h : ParseColumnSelector input = .ok (.ok sel)) :
    ∀ r ∈ sel.Ranges, ∃ raw, ParseRange raw = .ok (.ok r) := by
  unfold ParseColumnSelector at h
  split at h
  · simp at h
  · simp at h
  · rename_i ranges hranges
    simp at h
    subst h
    exact parseRanges_form _ ranges hranges

end Dev06
namespace Dev06

open Dev08 (Str Split Atoi digitsValue)
open Golang

/-! ## `GetEntries` -/

theorem wrap_lt (x : Int) : wrap x < 2 ^ 63 := by
  unfold wrap
  omega

/-- The loop of `GetEntries` below the largest `int`: with enough fuel it
returns the numbers from `i` to `hi`. -/
theorem entriesLoop_spec (hi : Int) (hhi : hi < 2 ^ 63 - 1) :
    ∀ (fuel : Nat) (i : Int) (result : List Int), -2 ^ 63 ≤ i → (hi + 1 - i).toNat < fuel →
      entriesLoop hi fuel i result =
        .ok (result ++ (List.range (hi + 1 - i).toNat).map fun k : Nat => i + (k : Int)) := by
  intro fuel
  induction fuel with
  | zero => intro i result _ h; omega
  | succ fuel ih =>
    intro i result hi0 hfuel
    unfold entriesLoop
    split_ifs with hle
    · have hw : wrap (i + 1) = i + 1 := Dev05.wrap_of_range _ (by omega) (by omega)
      rw [hw, ih (i + 1) (result ++ [i]) (by omega) (by omega)]
      have hn : (hi + 1 - i).toNat = (hi + 1 - (i + 1)).toNat + 1 := by omega
      rw [hn, List.range_succ_eq_map, List.map_cons, List.map_map, List.append_assoc]
      congr 2
      simp only [List.singleton_append, Nat.cast_zero, add_zero, List.cons.injEq, true_and]
      apply List.map_congr_left
      intro k _
      simp only [Function.comp_apply, Nat.succ_eq_add_one, Nat.cast_add, Nat.cast_one]
      omega
    · have hn : (hi + 1 - i).toNat = 0 := by omega
      rw [hn]
      simp

theorem mem_entries (lo hi v : Int) :
    (v ∈ (List.range (hi + 1 - lo).toNat).map fun k : Nat => lo + (k : Int)) ↔
      lo ≤ v ∧ v ≤ hi := by
  simp only [List.mem_map, List.mem_range]
  constructor
  · rintro ⟨k, hk, rfl⟩
    omega
  · rintro ⟨h1, h2⟩
    exact ⟨(v - lo).toNat, by omega, by omega⟩

/-- The loop of `GetEntries` up to the largest `int` never ends: `i <= hi`
holds for every `int`. -/
theorem entriesLoop_maxInt :
    ∀ (fuel : Nat) (i : Int) (result : List Int), i < 2 ^ 63 →
      entriesLoop (2 ^ 63 - 1) fuel i result = .error .outOfFuel := by
  intro fuel
  induction fuel with
  | zero => intro i result _; rfl
  | succ fuel ih =>
    intro i result hi
    unfold entriesLoop
    rw [if_pos (by omega)]
    exact ih _ _ (wrap_lt _)

/-- `GetEntries(1, max)` on a range made by `ParseRange` whose upper bound is
below the largest `int`: with enough fuel it returns the values the range
covers. -/
theorem GetEntries_spec (input : Str) (r : Range) (max : Int) (fuel : Nat)
    (h : ParseRange input = .ok (.ok r)) (hmax : max < 2 ^ 63 - 1)
    (hhi : ∀ lo hi, r.Bounds = [lo, hi] → hi.Explicit < 2 ^ 63 - 1) (hfuel : 2 ^ 63 ≤ fuel) :
    ∃ entries, r.GetEntries fuel 1 max = .ok entries ∧
      ∀ v, v ∈ entries ↔ r.covers max v = true := by
  rcases ParseRange_form input r h with ⟨v, hv, hb⟩ | ⟨lo, hi, hb, hlo, hhi2⟩
  · refine ⟨[v], ?_, ?_⟩
    · simp [Range.GetEntries, hb, not_lt.mpr hv]
    · intro w
      simp [Range.covers, hb]
  · have hhi3 := hhi lo hi hb
    have hlov : lo.GetValue 1 max = .ok (lo.valueOr 1) ∧ 0 ≤ lo.valueOr 1 := by
      rcases hlo with rfl | ⟨v, hv, rfl⟩
      · exact ⟨rfl, by decide⟩
      · exact ⟨by simp [RangeBound.GetValue, RangeBound.valueOr, not_lt.mpr hv],
          by simpa [RangeBound.valueOr] using hv⟩
    have hhiv : hi.GetValue 1 max = .ok (hi.valueOr max) ∧ hi.valueOr max < 2 ^ 63 - 1 := by
      rcases hhi2 with rfl | ⟨v, hv, rfl⟩
      · exact ⟨rfl, by simpa [RangeBound.valueOr] using hmax⟩
      · exact ⟨by simp [RangeBound.GetValue, RangeBound.valueOr, not_lt.mpr hv],
          by simpa [RangeBound.valueOr] using hhi3⟩
    refine ⟨(List.range (hi.valueOr max + 1 - lo.valueOr 1).toNat).map
      fun k : Nat => lo.valueOr 1 + (k : Int), ?_, ?_⟩
    · simp only [Range.GetEntries, hb, hlov.1, hhiv.1]
      rw [entriesLoop_spec _ hhiv.2 fuel _ [] (by omega) (by omega), List.nil_append]
    · intro w
      rw [mem_entries]
      simp [Range.covers, hb]

end Dev06
namespace Dev06

open Dev08 (Str Split Atoi digitsValue)
open Golang

/-! ## `GetColumns` -/

theorem insertKey_spec (values : List Int) (v : Int) (hn : values.Nodup) :
    (insertKey values v).Nodup ∧ ∀ w, w ∈ insertKey values v ↔ w ∈ values ∨ w = v := by
  unfold insertKey
  split_ifs with h
  · refine ⟨hn, fun w => ⟨Or.inl, ?_⟩⟩
    rintro (hw | rfl)
    · exact hw
    · exact h
  · refine ⟨?_, fun w => by simp⟩
    rw [List.nodup_append]
    refine ⟨hn, List.nodup_singleton v, ?_⟩
    intro a ha hb
    rw [List.mem_singleton] at hb
    exact h (hb ▸ ha)

/-- The inner loop of `GetColumns`: the set gains the entries within
`[1, max]`. -/
theorem collectEntries_spec (max : Int) :
    ∀ (entries values : List Int), values.Nodup →
      (collectEntries max entries values).Nodup ∧
      ∀ w, w ∈ collectEntries max entries values ↔
        w ∈ values ∨ (w ∈ entries ∧ 1 ≤ w ∧ w ≤ max) := by
  intro entries
  induction entries with
  | nil => intro values hn; simp [collectEntries, hn]
  | cons v vs ih =>
    intro values hn
    unfold collectEntries
    split_ifs with hv
    · obtain ⟨h1, h2⟩ := ih values hn
      refine ⟨h1, fun w => ?_⟩
      rw [h2 w, List.mem_cons]
      constructor
      · rintro (h | ⟨h, hb⟩)
        · exact Or.inl h
        · exact Or.inr ⟨Or.inr h, hb⟩
      · rintro (h | ⟨rfl | h, hb⟩)
        · exact Or.inl h
        · omega
        · exact Or.inr ⟨h, hb⟩
    · obtain ⟨k1, k2⟩ := insertKey_spec values v hn
      obtain ⟨h1, h2⟩ := ih (insertKey values v) k1
      refine ⟨h1, fun w => ?_⟩
      rw [h2 w, k2 w, List.mem_cons]
      constructor
      · rintro ((h | rfl) | ⟨h, hb⟩)
        · exact Or.inl h
        · exact Or.inr ⟨Or.inl rfl, by omega⟩
        · exact Or.inr ⟨Or.inr h, hb⟩
      · rintro (h | ⟨rfl | h, hb⟩)
        · exact Or.inl (Or.inl h)
        · exact Or.inl (Or.inr rfl)
        · exact Or.inr ⟨h, hb⟩

/-- The outer loop of `GetColumns` over ranges whose `GetEntries` returns. -/
theorem collectRanges_spec (fuel : Nat) (max : Int) :
    ∀ (rs : List Range) (values : List Int), values.Nodup →
      (∀ r ∈ rs, ∃ entries, r.GetEntries fuel 1 max = .ok entries ∧
        ∀ v, v ∈ entries ↔ r.covers max v = true) →
      ∃ vals, collectRanges fuel max rs values = .ok vals ∧ vals.Nodup ∧
        ∀ w, w ∈ vals ↔
          w ∈ values ∨ (1 ≤ w ∧ w ≤ max ∧ ∃ r ∈ rs, r.covers max w = true) := by
  intro rs
  induction rs with
  | nil => intro values hn _; exact ⟨values, rfl, hn, by simp⟩
  | cons r rs ih =>
    intro values hn hrs
    obtain ⟨entries, he, hmem⟩ := hrs r (List.mem_cons_self _ _)
    obtain ⟨h1, h2⟩ := collectEntries_spec max entries values hn
    obtain ⟨vals, hv, hvn, hvm⟩ := ih (collectEntries max entries values) h1
      (fun r0 hr0 => hrs r0 (List.mem_cons_of_mem _ hr0))
    refine ⟨vals, ?_, hvn, fun w => ?_⟩
    · simp only [collectRanges, he]
      exact hv
    · rw [hvm w, h2 w, hmem w]
      constructor
      · rintro ((h | ⟨h, hb1, hb2⟩) | ⟨hb1, hb2, r0, hr0, hc⟩)
        · exact Or.inl h
        · exact Or.inr ⟨hb1, hb2, r, List.mem_cons_self _ _, h⟩
        · exact Or.inr ⟨hb1, hb2, r0, List.mem_cons_of_mem _ hr0, hc⟩
      · rintro (h | ⟨hb1, hb2, r0, hr0, hc⟩)
        · exact Or.inl (Or.inl h)
        · rcases List.mem_cons.mp hr0 with rfl | hr0
          · exact Or.inl (Or.inr ⟨hc, hb1, hb2⟩)
          · exact Or.inr ⟨hb1, hb2, r0, hr0, hc⟩

theorem sortInts_spec (l : List Int) (hn : l.Nodup) :
    (sortInts l).Pairwise (· < ·) ∧ ∀ v, v ∈ sortInts l ↔ v ∈ l := by
  have hp : (sortInts l).Perm l := List.perm_insertionSort _ l
  have hs : (sortInts l).Sorted (· ≤ ·) := List.sorted_insertionSort _ l
  exact ⟨hs.lt_of_le (hp.nodup_iff.mpr hn), fun v => hp.mem_iff⟩

/-- On the selector `1-9223372036854775807` `GetColumns` runs out of any fuel. -/
theorem GetColumns_maxInt (fuel : Nat) (max : Int) :
    maxIntSelector.GetColumns fuel max = .error .outOfFuel := by
  have hloop := entriesLoop_maxInt fuel 1 [] (by norm_num)
  norm_num at hloop
  simp [ColumnSelector.GetColumns, maxIntSelector, NewColumnSelector, collectRanges,
    Range.GetEntries, NewSpecificRangeBound, RangeBound.GetValue, hloop]

/-- Counterexample of C24: `ParseColumnSelector` accepts
`1-9223372036854775807`, and on the selector it returns `GetColumns(1)` does
not return a list, however much fuel the loop of `GetEntries` gets: the test
`i <= end` holds for every `int` when `end` is the largest one. -/
theorem GetColumns_never_returns :
    ParseColumnSelector "1-9223372036854775807".toList = .ok (.ok maxIntSelector) ∧
    maxIntSelector.Ranges.any (fun r => r.covers 1 1) = true ∧
    ¬ ∃ fuel cols, maxIntSelector.GetColumns fuel 1 = .ok cols := by
  refine ⟨by decide, by decide, ?_⟩
  rintro ⟨fuel, cols, h⟩
  rw [GetColumns_maxInt] at h
  exact absurd h (by simp)

/-- `GetColumns(max)` on a selector made by `ParseColumnSelector`, with upper
bounds and `max` below the largest `int`. -/
theorem GetColumns_of_parsed (input : Str) (sel : ColumnSelector) (max : Int) (fuel : Nat)
    (hparse : ParseColumnSelector input = .ok (.ok sel)) (hmax : max < 2 ^ 63 - 1)
    (hhi : ∀ r ∈ sel.Ranges, ∀ lo hi, r.Bounds = [lo, hi] → hi.Explicit < 2 ^ 63 - 1)
    (hfuel : 2 ^ 63 ≤ fuel) :
    ∃ cols, sel.GetColumns fuel max = .ok cols ∧ cols.Pairwise (· < ·) ∧
      ∀ v, v ∈ cols ↔ 1 ≤ v ∧ v ≤ max ∧ ∃ r ∈ sel.Ranges, r.covers max v = true := by
  have hform := ParseColumnSelector_form input sel hparse
  obtain ⟨vals, hv, hvn, hvm⟩ := collectRanges_spec fuel max sel.Ranges [] List.nodup_nil
    (fun r hr => by
      obtain ⟨raw, hraw⟩ := hform r hr
      exact GetEntries_spec raw r max fuel hraw hmax (hhi r hr) hfuel)
  obtain ⟨hs1, hs2⟩ := sortInts_spec vals hvn
  refine ⟨sortInts vals, ?_, hs1, fun v => ?_⟩
  · simp only [ColumnSelector.GetColumns, hv]
  · rw [hs2 v, hvm v]
    simp

/-- C24, for upper bounds below the largest `int`: for every selector that
`ParseColumnSelector` returns and whose written upper bounds are below
`2 ^ 63 - 1`, and every `max` below `2 ^ 63 - 1`, `GetColumns(max)` returns
(with enough fuel for the loop of `GetEntries`) a strictly increasing list that
holds `v` if and only if `1 <= v <= max` and some range of the selector covers
`v`. -/
theorem GetColumns_spec (input : Str) (sel : ColumnSelector) (max : Int) (fuel : Nat)
    (hparse : ParseColumnSelector input = .ok (.ok sel)) (hmax : max < 2 ^ 63 - 1)
    (hhi : ∀ r ∈ sel.Ranges, ∀ lo hi, r.Bounds = [lo, hi] → hi.Explicit < 2 ^ 63 - 1)
    (hfuel : 2 ^ 63 ≤ fuel) :
    ∃ cols, sel.GetColumns fuel max = .ok cols ∧ cols.Pairwise (· < ·) ∧
      ∀ v, v ∈ cols ↔ 1 ≤ v ∧ v ≤ max ∧ ∃ r ∈ sel.Ranges, r.covers max v = true :=
  GetColumns_of_parsed input sel max fuel hparse hmax hhi hfuel

/-- Witness of C24: the selector `-2,6-` of `TestColumnSelector_GetColumns`
with `max = 7`. -/
theorem GetColumns_spec_witness :
    ParseColumnSelector "-2,6-".toList = .ok (.ok (NewColumnSelector
      [{ Bounds := [{ Constraint := .ConstraintMin, Explicit := -1 }, NewSpecificRangeBound 2] },
       { Bounds := [NewSpecificRangeBound 6, { Constraint := .ConstraintMax, Explicit := -1 }] }])) ∧
    ∃ cols, (NewColumnSelector
      [{ Bounds := [{ Constraint := .ConstraintMin, Explicit := -1 }, NewSpecificRangeBound 2] },
       { Bounds := [NewSpecificRangeBound 6, { Constraint := .ConstraintMax, Explicit := -1 }] }]
      ).GetColumns (2 ^ 63) 7 = .ok cols ∧ cols.Pairwise (· < ·) ∧
      ∀ v, v ∈ cols ↔ 1 ≤ v ∧ v ≤ 7 ∧ ∃ r ∈ (NewColumnSelector
        [{ Bounds := [{ Constraint := .ConstraintMin, Explicit := -1 }, NewSpecificRangeBound 2] },
         { Bounds := [NewSpecificRangeBound 6, { Constraint := .ConstraintMax, Explicit := -1 }] }]
        ).Ranges, r.covers 7 v = true :=
  ⟨by decide, GetColumns_spec "-2,6-".toList _ 7 (2 ^ 63) (by decide) (by norm_num)
    (by
      intro r hr lo hi hb
      simp only [NewColumnSelector, List.mem_cons, List.mem_singleton, List.not_mem_nil,
        or_false] at hr
      rcases hr with rfl | rfl <;> simp only [Range.mk.injEq, List.cons.injEq, and_true] at hb <;>
        obtain ⟨-, rfl⟩ := hb <;> simp [NewSpecificRangeBound])
    le_rfl⟩

end Dev06
namespace Dev06

open Dev08 (Str Split Atoi digitsValue)
open Golang

/-! ## `ProcessLine` -/

theorem enum_eq_map_range {α : Type} (l : List α) (d : α) :
    l.enum = (List.range l.length).map fun i => (i, l.getD i d) := by
  apply List.ext_getElem
  · simp
  · intro i h1 h2
    have hi : i < l.length := by simpa using h1
    simp [List.getD, List.getElem?_eq_getElem hi]

/-- The positions picked by a strictly increasing list of column numbers
within `1 .. n` are the positions below `n` whose number is in the list. -/
theorem positions_eq (n : Nat) (cols : List Int) (hs : cols.Pairwise (· < ·))
    (hb : ∀ c ∈ cols, 1 ≤ c ∧ c ≤ (n : Int)) :
    (List.range n).filter (fun i => decide (((i : Nat) : Int) + 1 ∈ cols)) =
      cols.map fun c => (c - 1).toNat := by
  apply List.eq_of_perm_of_sorted (r := (· < ·))
  · rw [List.perm_ext_iff_of_nodup]
    · intro i
      simp only [List.mem_filter, List.mem_range, decide_eq_true_eq, List.mem_map]
      constructor
      · rintro ⟨_, h⟩
        exact ⟨_, h, by omega⟩
      · rintro ⟨c, hc, rfl⟩
        have := hb c hc
        refine ⟨by omega, ?_⟩
        have e : (((c - 1).toNat : Nat) : Int) + 1 = c := by omega
        rw [e]
        exact hc
    · exact (List.nodup_range n).filter _
    · rw [List.nodup_map_iff_inj_on (hs.imp fun h => ne_of_lt h)]
      intro x hx y hy hxy
      have := hb x hx
      have := hb y hy
      omega
  · exact (List.pairwise_lt_range n).filter _
  · rw [List.Sorted, List.pairwise_map]
    refine hs.imp_of_mem ?_
    intro a b ha hb2 hab
    have := hb a ha
    have := hb b hb2
    omega

/-- The loop of `ProcessLine` on column numbers within the parts: no index is
out of range. -/
theorem pickColumns_spec (allParts : List Str) :
    ∀ cols : List Int, (∀ c ∈ cols, 1 ≤ c ∧ c ≤ (allParts.length : Int)) →
      pickColumns allParts cols = .ok (cols.map fun c => allParts.getD (c - 1).toNat []) := by
  intro cols
  induction cols with
  | nil => intro _; rfl
  | cons c cs ih =>
    intro hb
    have hc := hb c (List.mem_cons_self _ _)
    have hlt : (c - 1).toNat < allParts.length := by omega
    unfold pickColumns
    have hget : allParts[(c - 1).toNat]? = some allParts[(c - 1).toNat] :=
      List.getElem?_eq_getElem hlt
    rw [if_neg (by omega), ih fun c0 h0 => hb c0 (List.mem_cons_of_mem _ h0), hget]
    rw [List.map_cons, List.getD_eq_getElem _ _ hlt]

/-- The fields picked by column numbers are the fields whose position is among
the numbers, in the order of the line. -/
theorem picked_eq_filter (allParts : List Str) (cols : List Int) (hs : cols.Pairwise (· < ·))
    (hb : ∀ c ∈ cols, 1 ≤ c ∧ c ≤ (allParts.length : Int)) :
    (cols.map fun c => allParts.getD (c - 1).toNat []) =
      (allParts.enum.filter fun x => decide (((x.1 : Nat) : Int) + 1 ∈ cols)).map Prod.snd := by
  rw [enum_eq_map_range allParts [], List.filter_map, List.map_map]
  have := positions_eq allParts.length cols hs hb
  have hf : ((fun x : Nat × Str => decide (((x.1 : Nat) : Int) + 1 ∈ cols)) ∘
      fun i => (i, allParts.getD i [])) = fun i : Nat => decide (((i : Nat) : Int) + 1 ∈ cols) := by
    funext i
    rfl
  rw [hf, this, List.map_map]
  rfl

/-- Counterexample of C25: with the selector of `1-9223372036854775807`, which
`ParseColumnSelector` accepts, and the delimiter TAB, `ProcessLine` does not
return for the line of the two fields `a` and `b`, however much fuel the loop
of `GetEntries` gets. -/
theorem ProcessLine_never_returns :
    ParseColumnSelector "1-9223372036854775807".toList = .ok (.ok maxIntSelector) ∧
    Contains "a\tb".toList "\t".toList = true ∧
    ¬ ∃ fuel out,
      (Processor.mk maxIntSelector "\t".toList false).ProcessLine fuel "a\tb".toList =
        .ok out := by
  refine ⟨by decide, by decide, ?_⟩
  rintro ⟨fuel, out, h⟩
  have hc : Contains "a\tb".toList "\t".toList = true := by decide
  simp only [Processor.ProcessLine, hc, GetColumns_maxInt] at h
  exact absurd h (by simp)

/-- C25, for upper bounds below the largest `int`: for every processor whose
selector `ParseColumnSelector` returns, with written upper bounds below
`2 ^ 63 - 1`, and every line: when the line does not contain the delimiter,
`ProcessLine` returns `("", false)` if `onlySeparated` is set and
`(line, true)` otherwise; when it does, `ProcessLine` returns (with enough fuel
for the loop of `GetEntries`) `(s, true)`, where `s` is the fields of the line
whose 1-based position is in `GetColumns(number of fields)`, in the order of
the line, joined by the delimiter, and every column number is within the
fields. -/
theorem ProcessLine_spec (input : Str) (p : Processor) (line : Str) (fuel : Nat)
    (hparse : ParseColumnSelector input = .ok (.ok p.fields))
    (hhi : ∀ r ∈ p.fields.Ranges, ∀ lo hi, r.Bounds = [lo, hi] → hi.Explicit < 2 ^ 63 - 1)
    (hlen : ((SplitStr line p.delimiter).length : Int) < 2 ^ 63 - 1) (hfuel : 2 ^ 63 ≤ fuel) :
    (Contains line p.delimiter = false →
      p.ProcessLine fuel line = .ok (if p.onlySeparated then ([], false) else (line, true))) ∧
    (Contains line p.delimiter = true →
      ∃ cols, p.fields.GetColumns fuel (SplitStr line p.delimiter).length = .ok cols ∧
        (∀ c ∈ cols, 1 ≤ c ∧ c ≤ ((SplitStr line p.delimiter).length : Int)) ∧
        p.ProcessLine fuel line =
          .ok (JoinStr (((SplitStr line p.delimiter).enum.filter
            fun x => decide (((x.1 : Nat) : Int) + 1 ∈ cols)).map Prod.snd) p.delimiter,
            true)) := by
  constructor
  · intro hc
    simp only [Processor.ProcessLine, hc, Bool.not_false, if_true]
    split_ifs <;> rfl
  · intro hc
    obtain ⟨cols, hcols, hsorted, hmem⟩ :=
      GetColumns_of_parsed input p.fields _ fuel hparse hlen hhi hfuel
    have hb : ∀ c ∈ cols, 1 ≤ c ∧ c ≤ ((SplitStr line p.delimiter).length : Int) :=
      fun c h => ⟨((hmem c).mp h).1, ((hmem c).mp h).2.1⟩
    refine ⟨cols, hcols, hb, ?_⟩
    simp only [Processor.ProcessLine, hc, Bool.not_true, Bool.false_eq_true, if_false, hcols,
      pickColumns_spec _ cols hb]
    rw [picked_eq_filter _ cols hsorted hb]

end Dev06
namespace Dev06

open Dev08 (Str Split Atoi digitsValue)
open Golang

/-- Witness of C25: the fields 1 and 3 of the line `a<TAB>b<TAB>c`. -/
theorem ProcessLine_spec_witness :
    ParseColumnSelector "1,3".toList = .ok (.ok (NewColumnSelector
      [{ Bounds := [NewSpecificRangeBound 1] }, { Bounds := [NewSpecificRangeBound 3] }])) ∧
    (Processor.mk (NewColumnSelector
      [{ Bounds := [NewSpecificRangeBound 1] }, { Bounds := [NewSpecificRangeBound 3] }])
      "\t".toList false).ProcessLine (2 ^ 63) "a\tb\tc".toList = .ok ("a\tc".toList, true) ∧
    ∃ cols, (NewColumnSelector
        [{ Bounds := [NewSpecificRangeBound 1] }, { Bounds := [NewSpecificRangeBound 3] }]
        ).GetColumns (2 ^ 63) (SplitStr "a\tb\tc".toList "\t".toList).length = .ok cols ∧
      (∀ c ∈ cols, 1 ≤ c ∧ c ≤ ((SplitStr "a\tb\tc".toList "\t".toList).length : Int)) ∧
      (Processor.mk (NewColumnSelector
        [{ Bounds := [NewSpecificRangeBound 1] }, { Bounds := [NewSpecificRangeBound 3] }])
        "\t".toList false).ProcessLine (2 ^ 63) "a\tb\tc".toList =
          .ok (JoinStr (((SplitStr "a\tb\tc".toList "\t".toList).enum.filter
            fun x => decide (((x.1 : Nat) : Int) + 1 ∈ cols)).map Prod.snd) "\t".toList,
            true) :=
  ⟨by decide, by decide,
    (ProcessLine_spec "1,3".toList
      (Processor.mk (NewColumnSelector
        [{ Bounds := [NewSpecificRangeBound 1] }, { Bounds := [NewSpecificRangeBound 3] }])
        "\t".toList false) "a\tb\tc".toList (2 ^ 63) (by decide)
      (by
        intro r hr lo hi hb
        simp only [NewColumnSelector, List.mem_cons, List.mem_singleton, List.not_mem_nil,
          or_false] at hr
        rcases hr with rfl | rfl <;> simp at hb)
      (by
        rw [show (SplitStr "a\tb\tc".toList "\t".toList).length = 3 from rfl]
        norm_num)
      le_rfl).2 (by decide)⟩

end Dev06

namespace Dev11

open Dev08 (Str Err TrimSpace)
open Golang

/-! ## The ids of `CreateEvent` -/

/-- After a sequence of calls `lastId` has grown by the number of `CreateEvent`
calls, as long as it stays in the range of `int64`. -/
theorem calls_lastId :
    ∀ (l : List Call) (c : Calendar), 0 ≤ c.lastId →
      c.lastId + (l.countP Call.isCreate : Nat) < 2 ^ 63 →
      (c.calls l).lastId = c.lastId + (l.countP Call.isCreate : Nat) := by
  intro l
  induction l with
  | nil => intro c _ _; simp [Calendar.calls]
  | cons a l ih =>
    intro c h0 hlt
    rw [Calendar.calls, List.foldl_cons]
    change (Calendar.calls (c.call a) l).lastId = _
    cases a with
    | create event =>
      have hcount : (Call.create event :: l).countP Call.isCreate =
          l.countP Call.isCreate + 1 := by
        simp [List.countP_cons, Call.isCreate]
      rw [hcount] at hlt ⊢
      push_cast at hlt ⊢
      have hw : wrap (c.lastId + 1) = c.lastId + 1 :=
        Dev05.wrap_of_range _ (by omega) (by omega)
      have hl : (c.call (.create event)).lastId = c.lastId + 1 := by
        simp [Calendar.call, Calendar.CreateEvent, hw]
      rw [ih _ (by omega) (by omega), hl]
      omega
    | update id event =>
      have hcount : (Call.update id event :: l).countP Call.isCreate =
          l.countP Call.isCreate := by
        simp [List.countP_cons, Call.isCreate]
      rw [hcount] at hlt ⊢
      have hl : (c.call (.update id event)).lastId = c.lastId := by
        simp only [Calendar.call, Calendar.UpdateEvent]
        split <;> rfl
      rw [ih _ (by omega) (by omega), hl]
    | delete id =>
      have hcount : (Call.delete id :: l).countP Call.isCreate = l.countP Call.isCreate := by
        simp [List.countP_cons, Call.isCreate]
      rw [hcount] at hlt ⊢
      have hl : (c.call (.delete id)).lastId = c.lastId := rfl
      rw [ih _ (by omega) (by omega), hl]

/-- C26: on a calendar made by `NewCalendar`, after any sequence of
`CreateEvent`, `UpdateEvent` and `DeleteEvent` calls of which `n - 1` are
`CreateEvent` calls, the next `CreateEvent` call, the `n`-th one, returns the id
`n`, and right after it the calendar maps `n` to the given event (for `n` in the
range of `int64`). -/
theorem CreateEvent_nth_id (l : List Call) (event : Event)
    (h : (l.countP Call.isCreate : Int) + 1 < 2 ^ 63) :
    ((NewCalendar.calls l).CreateEvent event).2 = (l.countP Call.isCreate : Int) + 1 ∧
    ((NewCalendar.calls l).CreateEvent event).1.events.lookup
      ((l.countP Call.isCreate : Int) + 1) = some event := by
  have hl := calls_lastId l NewCalendar (le_refl _) (by simp only [NewCalendar]; omega)
  simp only [NewCalendar, zero_add] at hl
  change (Calendar.calls NewCalendar l).lastId = _ at hl
  have hw : wrap ((l.countP Call.isCreate : Int) + 1) = (l.countP Call.isCreate : Int) + 1 :=
    Dev05.wrap_of_range _ (by omega) (by omega)
  simp only [Calendar.CreateEvent, hl, hw, AList.lookup_insert, and_self]

/-- Witness of C26: after a creation, a deletion of the event created, an
update that fails and another creation, the third creation returns the id 3. -/
theorem CreateEvent_nth_id_witness :
    ((NewCalendar.calls [.create ⟨"a".toList, Time.zero⟩, .delete 1,
        .update 7 ⟨"b".toList, Time.zero⟩, .create ⟨"c".toList, Time.zero⟩]).CreateEvent
      ⟨"d".toList, Time.zero⟩).2 = 3 ∧
    ((NewCalendar.calls [.create ⟨"a".toList, Time.zero⟩, .delete 1,
        .update 7 ⟨"b".toList, Time.zero⟩, .create ⟨"c".toList, Time.zero⟩]).CreateEvent
      ⟨"d".toList, Time.zero⟩).1.events.lookup 3 = some ⟨"d".toList, Time.zero⟩ :=
  CreateEvent_nth_id [.create ⟨"a".toList, Time.zero⟩, .delete 1,
    .update 7 ⟨"b".toList, Time.zero⟩, .create ⟨"c".toList, Time.zero⟩] ⟨"d".toList, Time.zero⟩
    (by decide)

/-! ## `UpdateEvent` -/

/-- C27: `UpdateEvent(id, e)` on an id that is not stored returns false and
leaves the calendar, its events and `lastId`, as it is; on an id that is stored
it returns true, the calendar afterwards maps `id` to `e`, and the other events
and `lastId` are as before. -/
theorem UpdateEvent_spec (c : Calendar) (id : Int) (e : Event) :
    (c.events.lookup id = none → c.UpdateEvent id e = (c, false)) ∧
    (c.events.lookup id ≠ none →
      (c.UpdateEvent id e).2 = true ∧
      (c.UpdateEvent id e).1.events.lookup id = some e ∧
      (∀ k, k ≠ id → (c.UpdateEvent id e).1.events.lookup k = c.events.lookup k) ∧
      (c.UpdateEvent id e).1.lastId = c.lastId) := by
  constructor
  · intro h
    simp [Calendar.UpdateEvent, h]
  · intro h
    obtain ⟨old, hold⟩ := Option.ne_none_iff_exists'.mp h
    simp only [Calendar.UpdateEvent, hold, AList.lookup_insert, true_and, and_true]
    intro k hk
    exact AList.lookup_insert_ne hk

/-! ## `GetEvents` -/

/-- The loop of `GetEvents`: an id gets its event from the entries when the
entries hold it with a date within the bounds, and keeps what it had in the
result otherwise. -/
theorem getEventsLoop_lookup (since till : Time) :
    ∀ (l : List (Sigma fun _ : Int => Event)) (result : Events), l.NodupKeys → ∀ id : Int,
      (getEventsLoop since till l result).lookup id =
        match l.dlookup id with
        | some event =>
          if event.Date.Before since || event.Date.After till then result.lookup id
          else some event
        | none => result.lookup id := by
  intro l
  induction l with
  | nil => intro result _ id; simp [getEventsLoop]
  | cons x xs ih =>
    intro result hn id
    obtain ⟨k, event⟩ := x
    have hxs : xs.NodupKeys := (List.nodupKeys_cons.mp hn).2
    have hk : k ∉ xs.keys := (List.nodupKeys_cons.mp hn).1
    unfold getEventsLoop
    by_cases hid : id = k
    · subst hid
      have hnone : xs.dlookup id = none := List.dlookup_eq_none.mpr hk
      rw [List.dlookup_cons_eq]
      split_ifs with hp
      · rw [ih result hxs id, hnone]
        simp only [hp, if_true]
      · rw [ih _ hxs id, hnone]
        simp only [hp, if_false]
        exact AList.lookup_insert _
    · rw [List.dlookup_cons_ne _ _ hid]
      split_ifs with hp
      · exact ih result hxs id
      · rw [ih _ hxs id, AList.lookup_insert_ne hid]

/-- C28: for every calendar and all times `since` and `till`,
`GetEvents(since, till)` returns exactly the stored pairs of an id and an event
whose date satisfies `since <= Date <= till`, and leaves the calendar as it
is. -/
theorem GetEvents_spec (c : Calendar) (since till : Time) :
    (∀ (id : Int) (event : Event),
      (c.GetEvents since till).2.lookup id = some event ↔
        c.events.lookup id = some event ∧
          since.nanos ≤ event.Date.nanos ∧ event.Date.nanos ≤ till.nanos) ∧
    (c.GetEvents since till).1 = c := by
  refine ⟨fun id event => ?_, rfl⟩
  have h := getEventsLoop_lookup since till c.events.entries ∅ c.events.nodupKeys id
  simp only [Calendar.GetEvents]
  rw [h]
  change (match c.events.lookup id with
    | some event => if event.Date.Before since || event.Date.After till then
        (∅ : Events).lookup id else some event
    | none => (∅ : Events).lookup id) = some event ↔ _
  cases hl : c.events.lookup id with
  | none => simp
  | some e0 =>
    simp only [AList.lookup_empty, Time.Before, Time.After, Bool.or_eq_true, decide_eq_true_eq]
    split_ifs with hp
    · constructor
      · intro h0; exact absurd h0 (by simp)
      · rintro ⟨h1, h2, h3⟩
        cases h1
        omega
    · constructor
      · intro h0
        cases h0
        exact ⟨rfl, by omega, by omega⟩
      · rintro ⟨h1, _, _⟩
        exact h1

end Dev11
namespace Dev11

open Dev08 (Str Err TrimSpace)
open Golang

/-! ## The update of an event that is not there -/

theorem IdRequest_Parse_ok (std : Std) (r : IdRequest) (values : Values)
    (h : (std.ParseInt (values.Get "id")).2 = none) :
    r.Parse std values = ({ ID := (std.ParseInt (values.Get "id")).1 }, none) := by
  unfold IdRequest.Parse
  cases hp : std.ParseInt (values.Get "id") with
  | mk id err =>
    rw [hp] at h
    cases h
    rfl

theorem EventRequest_Parse_ok (std : Std) (e : EventRequest) (values : Values)
    (hd : (std.Parse (values.Get "date")).2 = none) (hn : TrimSpace (values.Get "name") ≠ []) :
    e.Parse std values =
      ({ Name := TrimSpace (values.Get "name"), Date := (std.Parse (values.Get "date")).1 },
        none) := by
  unfold EventRequest.Parse
  cases hp : std.Parse (values.Get "date") with
  | mk date err =>
    rw [hp] at hd
    cases hd
    simp only [hn, if_false]

/-- C29: a well-formed update request (the method is POST, the form is read,
the id and the date parse and the name is not blank) that names an id the
calendar does not hold gets from the update handler an `ErrorResponse` with the
status 404, `http.StatusNotFound`, and `makeHandler` writes that status, not
503; the calendar stays as it is. -/
theorem UpdateEvent_missing_id (std : Std) (c : Calendar) (r : Request)
    (hm : r.Method = MethodPost) (hform : r.body.2 = none)
    (hid : (std.ParseInt (r.body.1.Get "id")).2 = none)
    (hdate : (std.Parse (r.body.1.Get "date")).2 = none)
    (hname : TrimSpace (r.body.1.Get "name") ≠ [])
    (hmiss : c.events.lookup (std.ParseInt (r.body.1.Get "id")).1 = none) :
    (CalendarServer.UpdateEvent std c r.ParseForm.1).2.2 =
      some (.response { code := 404, Message := "event not found" }) ∧
    (makeHandler MethodPost (CalendarServer.UpdateEvent std) c r).2 =
      { status := 404, contentType := some "application/json",
        body := some (.error { code := 404, Message := "event not found" }) } ∧
    (makeHandler MethodPost (CalendarServer.UpdateEvent std) c r).2.status ≠
      StatusServiceUnavailable ∧
    (makeHandler MethodPost (CalendarServer.UpdateEvent std) c r).1 = c := by
  have hparse : EventRequestWithId.new.Parse std r.body.1 =
      ({ IdRequest := { ID := (std.ParseInt (r.body.1.Get "id")).1 },
         EventRequest := { Name := TrimSpace (r.body.1.Get "name"),
                           Date := (std.Parse (r.body.1.Get "date")).1 } }, none) := by
    simp only [EventRequestWithId.Parse, IdRequest_Parse_ok std _ _ hid,
      EventRequest_Parse_ok std _ _ hdate hname]
  have hupdate : CalendarServer.UpdateEvent std c r.ParseForm.1 =
      (c, .nil, some (.response { code := 404, Message := "event not found" })) := by
    simp only [CalendarServer.UpdateEvent, Request.ParseForm, hparse, Calendar.UpdateEvent,
      hmiss]
    rfl
  have hmake : makeHandler MethodPost (CalendarServer.UpdateEvent std) c r =
      (c, { status := 404, contentType := some "application/json",
            body := some (.error { code := 404, Message := "event not found" }) }) := by
    have hpf : r.ParseForm = (r.ParseForm.1, none) := by
      simp only [Request.ParseForm, hform]
    unfold makeHandler
    rw [if_neg (not_not.mpr hm), if_pos hm, hpf]
    simp only [hupdate, GoError.asErrorResponse]
    rfl
  refine ⟨by rw [hupdate], by rw [hmake], ?_, by rw [hmake]⟩
  rw [hmake]
  show (404 : Nat) ≠ StatusServiceUnavailable
  decide

/-- Witness of C29: the request `id=1&name=party&date=2019-09-09` on the empty
calendar. -/
theorem UpdateEvent_missing_id_witness :
    (makeHandler MethodPost (CalendarServer.UpdateEvent exampleStd) NewCalendar
      { Method := "POST", PostForm := fun _ => [],
        body := (exampleForm "1" "party" "2019-09-09", none) }).2 =
      { status := 404, contentType := some "application/json",
        body := some (.error { code := 404, Message := "event not found" }) } :=
  (UpdateEvent_missing_id exampleStd NewCalendar
    { Method := "POST", PostForm := fun _ => [],
      body := (exampleForm "1" "party" "2019-09-09", none) }
    rfl rfl (by decide) (by decide) (by decide) (by decide)).2.1

/-! ## Reading the requests -/

/-- For every library: `IdRequest.Parse` fails if and only if
`strconv.ParseInt` refuses the `id` parameter, `EventRequest.Parse` fails if and
only if `time.Parse` refuses the `date` parameter or the `name` parameter is
empty once trimmed, and `EventRequestWithId.Parse` fails if and only if one of
the two does; every failure is an `ErrorResponse` with the status 400; on
success the id, the date and the trimmed name are in the request. -/
theorem Parse_std (std : Std) (values : Values) (r : IdRequest) (e : EventRequest)
    (w : EventRequestWithId) :
    (((r.Parse std values).2 ≠ none ↔ (std.ParseInt (values.Get "id")).2 ≠ none) ∧
      (∀ err, (r.Parse std values).2 = some err →
        ∃ message, err = .response { code := 400, Message := message }) ∧
      ((r.Parse std values).2 = none →
        (r.Parse std values).1.ID = (std.ParseInt (values.Get "id")).1)) ∧
    (((e.Parse std values).2 ≠ none ↔
        (std.Parse (values.Get "date")).2 ≠ none ∨ TrimSpace (values.Get "name") = []) ∧
      (∀ err, (e.Parse std values).2 = some err →
        ∃ message, err = .response { code := 400, Message := message }) ∧
      ((e.Parse std values).2 = none →
        (e.Parse std values).1 =
          { Name := TrimSpace (values.Get "name"),
            Date := (std.Parse (values.Get "date")).1 })) ∧
    (((w.Parse std values).2 ≠ none ↔
        (std.ParseInt (values.Get "id")).2 ≠ none ∨
          (std.Parse (values.Get "date")).2 ≠ none ∨ TrimSpace (values.Get "name") = []) ∧
      (∀ err, (w.Parse std values).2 = some err →
        ∃ message, err = .response { code := 400, Message := message }) ∧
      ((w.Parse std values).2 = none →
        (w.Parse std values).1 =
          { IdRequest := { ID := (std.ParseInt (values.Get "id")).1 },
            EventRequest := { Name := TrimSpace (values.Get "name"),
                              Date := (std.Parse (values.Get "date")).1 } })) := by
  have hr : ((r.Parse std values).2 ≠ none ↔ (std.ParseInt (values.Get "id")).2 ≠ none) ∧
      (∀ err, (r.Parse std values).2 = some err →
        ∃ message, err = .response { code := 400, Message := message }) ∧
      ((r.Parse std values).2 = none →
        (r.Parse std values).1.ID = (std.ParseInt (values.Get "id")).1) := by
    unfold IdRequest.Parse
    rcases std.ParseInt (values.Get "id") with ⟨id, _ | err⟩
    · simp
    · simp [NewErrorResponse, StatusBadRequest]
  have he : ∀ e : EventRequest, ((e.Parse std values).2 ≠ none ↔
        (std.Parse (values.Get "date")).2 ≠ none ∨ TrimSpace (values.Get "name") = []) ∧
      (∀ err, (e.Parse std values).2 = some err →
        ∃ message, err = .response { code := 400, Message := message }) ∧
      ((e.Parse std values).2 = none →
        (e.Parse std values).1 =
          { Name := TrimSpace (values.Get "name"),
            Date := (std.Parse (values.Get "date")).1 }) := by
    intro e
    unfold EventRequest.Parse
    rcases std.Parse (values.Get "date") with ⟨date, _ | err⟩
    · by_cases hn : TrimSpace (values.Get "name") = []
      · simp [hn, NewErrorResponse, StatusBadRequest]
      · simp [hn]
    · simp [NewErrorResponse, StatusBadRequest]
  have hr2 : ∀ r : IdRequest, ((r.Parse std values).2 ≠ none ↔
        (std.ParseInt (values.Get "id")).2 ≠ none) ∧
      (∀ err, (r.Parse std values).2 = some err →
        ∃ message, err = .response { code := 400, Message := message }) ∧
      ((r.Parse std values).2 = none →
        (r.Parse std values).1 = { ID := (std.ParseInt (values.Get "id")).1 }) := by
    intro r
    unfold IdRequest.Parse
    rcases std.ParseInt (values.Get "id") with ⟨id, _ | err⟩
    · simp
    · simp [NewErrorResponse, StatusBadRequest]
  refine ⟨hr, he e, ?_⟩
  obtain ⟨a1, a2, a3⟩ := hr2 w.IdRequest
  obtain ⟨b1, b2, b3⟩ := he w.EventRequest
  unfold EventRequestWithId.Parse
  rcases hi : w.IdRequest.Parse std values with ⟨idRequest, _ | err⟩
  · rw [hi] at a1 a3
    have hnone : (std.ParseInt (values.Get "id")).2 = none := by
      by_contra hc
      exact absurd (a1.mpr hc) (by simp)
    have hidr : idRequest = { ID := (std.ParseInt (values.Get "id")).1 } := a3 rfl
    rcases hev : w.EventRequest.Parse std values with ⟨eventRequest, _ | err⟩
    · rw [hev] at b1 b3
      have hb : ¬ ((std.Parse (values.Get "date")).2 ≠ none ∨
          TrimSpace (values.Get "name") = []) := fun hc => absurd (b1.mpr hc) (by simp)
      have hevr := b3 rfl
      simp only [ne_eq, not_true_eq_false, hnone, false_or, false_iff]
      refine ⟨hb, by simp, fun _ => ?_⟩
      rw [hidr]
      simp only at hevr
      rw [hevr]
    · rw [hev] at b1 b2
      have hb := b1.mp (by simp)
      simp only [ne_eq, hnone, not_true_eq_false, false_or]
      refine ⟨⟨fun _ => hb, fun _ => by simp⟩, ?_, by simp⟩
      intro err0 h0
      exact b2 err0 h0
  · rw [hi] at a1 a2
    have hsome := a1.mp (by simp)
    refine ⟨⟨fun _ => Or.inl hsome, fun _ => by simp⟩, ?_, by simp⟩
    intro err0 h0
    exact a2 err0 h0

end Dev11

namespace Dev08

/-! ## The flag `shouldCloseOut` after the wiring -/

/-- C34: after the two building loops of `processChain` succeed on `k` units,
the flag `shouldCloseOut` of the unit at position `j` is set if and only if the
unit is an internal one and `j < k - 1`; the last unit writes to the shell's
output with the flag not set, and the units that are run are these wired
units. -/
theorem shouldCloseOut_iff (s : Shell) (os : OS) (sched : List Nat) (n : Nat)
    (rawCommands : List Str) (built units : List Executable) (ev : List Event) (n1 : Nat)
    (hb : s.build rawCommands = .ok built) (hw : wireLoop os n built = (ev, n1, .ok units))
    (hk : units ≠ []) :
    (∀ (j : Nat) (u : Executable), units[j]? = some u →
      (u.shouldCloseOut = true ↔ u.isInternal = true ∧ j < units.length - 1)) ∧
    (∃ u, units[units.length - 1]? = some u ∧ u.stdout = some s.out ∧
      u.shouldCloseOut = false) ∧
    s.processChain os sched n rawCommands =
      some { events := ev ++ runAll os units sched, pipes := n1, err := none } := by
  obtain ⟨hlen, -, -, -, hall⟩ := wireLoop_build s os n rawCommands built units ev n1 hb hw
  have hpos : 0 < units.length := List.length_pos.mpr hk
  have hbne : built ≠ [] := wireLoop_ne_nil os n n1 built units ev hw hk
  refine ⟨?_, ?_, processChain_of_wire_ok s os sched n _ _ _ _ _ hb hw hbne⟩
  · intro j u hu
    obtain ⟨_, -, -, -, -, h5⟩ := hall j u hu
    rw [h5, ← hlen]
    split_ifs with hj
    · simp [hj]
    · simp [hj]
  · have hlast : units[units.length - 1]? = some units[units.length - 1] :=
      List.getElem?_eq_getElem (by omega)
    obtain ⟨_, -, -, -, h4, h5⟩ := hall _ _ hlast
    have hnot : ¬ units.length - 1 < rawCommands.length - 1 := by omega
    refine ⟨_, hlast, ?_, ?_⟩
    · rw [h4, if_neg hnot]
    · rw [h5, if_neg hnot]

end Dev08
namespace Dev08

/-- Witness of C34: the line `echo a|cat` in the shell of `main`; the internal
`echo` before the last unit has the flag, the external `cat` at the end has
not. -/
theorem shouldCloseOut_iff_witness :
    (mainShell OS.allOk).build ["echo a".toList, "cat".toList] = .ok echoCatBuilt ∧
    wireLoop OS.allOk 0 echoCatBuilt =
      ([Event.getStdoutPipe, Event.pipe 0], 1, .ok echoCatUnits) ∧
    echoCatUnits.map Executable.shouldCloseOut = [true, false] ∧
    ∀ (j : Nat) (u : Executable), echoCatUnits[j]? = some u →
      (u.shouldCloseOut = true ↔ u.isInternal = true ∧ j < echoCatUnits.length - 1) :=
  ⟨rfl, rfl, rfl,
    (shouldCloseOut_iff (mainShell OS.allOk) OS.allOk [0, 1] 0 ["echo a".toList, "cat".toList]
      echoCatBuilt echoCatUnits [Event.getStdoutPipe, Event.pipe 0] 1 rfl rfl
      (by simp [echoCatUnits])).1⟩

/-! ## The streams of the shell of `main` -/

/-- C35: in the `Shell` that `main` makes the field `in` is `os.Stdout` and the
field `out` is `os.Stdin`: `Run` prints its first prompt on the standard input,
and the unit of a line of one segment reads from the standard output and writes
to the standard input. -/
theorem main_streams_swapped (os : OS) :
    (mainShell os).inp = File.stdout ∧ (mainShell os).out = File.stdin ∧
    (∀ (n : Nat) (lines : List (Str × List Nat)) (ev : List Event) (n1 : Nat),
      (mainShell os).Run os n lines = some (ev, n1) →
        ev.head? = some (Event.printf File.stdin "> ".toList)) ∧
    (∀ (raw : Str) (built : List Executable), (mainShell os).build [raw] = .ok built →
      ∃ u, built = [u] ∧ u.stdin = some File.stdout ∧ u.stdout = some File.stdin) := by
  refine ⟨rfl, rfl, ?_, ?_⟩
  · intro n lines ev n1 h
    unfold Shell.Run at h
    split at h
    · exact absurd h (by simp)
    · simp only [Option.some.injEq, Prod.mk.injEq] at h
      rw [← h.1]
      rfl
  · intro raw built h
    obtain ⟨built1, hb, hlen, hall⟩ := build_ok (mainShell os) [raw]
    rw [h] at hb
    cases hb
    match built, hlen with
    | [u], _ =>
      obtain ⟨_, -, -, h3, h4, -⟩ := hall 0 u rfl
      exact ⟨u, rfl, by simpa using h3, by simpa using h4⟩

end Dev08

namespace Dev07

/-! ## The channel `or` returns -/

theorem step_mergedClosed (s : State) (a : Action) :
    (s.step a).mergedClosed = s.mergedClosed := by
  cases a <;> simp only [State.step]
  · split_ifs <;> rfl
  · split_ifs <;> rfl
  · split <;> rfl
  · split_ifs <;> rfl

theorem run_mergedClosed (actions : List Action) :
    ∀ s : State, (s.run actions).mergedClosed = s.mergedClosed := by
  induction actions with
  | nil => intro s; rfl
  | cons a rest ih =>
    intro s
    rw [State.run, List.foldl_cons]
    exact (ih (s.step a)).trans (step_mergedClosed s a)

theorem any_set_false (waits : List Wait) (i : Nat) (w : Wait)
    (h : waits.any Wait.isSending = false) (hw : w.isSending = false) :
    (waits.set i w).any Wait.isSending = false := by
  rw [List.any_eq_false] at h ⊢
  intro x hx
  rcases List.mem_or_eq_of_mem_set hx with hm | rfl
  · exact h x hm
  · simp [hw]

/-- Without a value sent on an input channel no goroutine ever sends on
`merged`. -/
theorem step_no_sender (s : State) (a : Action) (ha : a.isSend = false)
    (h : s.waits.any Wait.isSending = false) :
    (s.step a).waits.any Wait.isSending = false := by
  cases a with
  | close i =>
    simp only [State.step]
    split_ifs <;> exact h
  | send i v => exact absurd ha (by simp [Action.isSend])
  | receive i =>
    simp only [State.step]
    split
    · exact any_set_false _ _ _ h rfl
    · exact h
  | leave i =>
    simp only [State.step]
    split_ifs
    · exact any_set_false _ _ _ h rfl
    · exact h

/-- Without a goroutine sending on `merged` a step delivers nothing. -/
theorem step_delivered (s : State) (a : Action) (h : s.waits.any Wait.isSending = false) :
    (s.step a).delivered = s.delivered := by
  cases a with
  | close i =>
    simp only [State.step]
    split_ifs <;> rfl
  | send i v =>
    simp only [State.step]
    split_ifs <;> rfl
  | receive i =>
    simp only [State.step]
    split
    · rename_i v hv
      rw [List.any_eq_false] at h
      have := h _ (List.getElem?_mem hv)
      simp [Wait.isSending] at this
    · rfl
  | leave i =>
    simp only [State.step]
    split_ifs <;> rfl

theorem run_no_sender (actions : List Action) :
    ∀ s : State, (∀ a ∈ actions, a.isSend = false) → s.waits.any Wait.isSending = false →
      (s.run actions).waits.any Wait.isSending = false ∧
      (s.run actions).delivered = s.delivered := by
  induction actions with
  | nil => intro s _ h; exact ⟨h, rfl⟩
  | cons a rest ih =>
    intro s ha h
    rw [State.run, List.foldl_cons]
    obtain ⟨h1, h2⟩ := ih (s.step a) (fun b hb => ha b (List.mem_cons_of_mem _ hb))
      (step_no_sender s a (ha a (List.mem_cons_self _ _)) h)
    exact ⟨h1, h2.trans (step_delivered s a h)⟩

/-- C33: for every list of input channels and every sequence of steps of the
goroutines and of the owners of the input channels, the channel `or` returns is
not closed, also after input channels were closed; and when the input channels
are only closed, as in the documented example, a receive on the returned
channel can never complete. -/
theorem or_never_closes (channels : List Bool) (actions : List Action) :
    ((or channels).run actions).mergedClosed = false ∧
    ((∀ a ∈ actions, a.isSend = false) →
      ((or channels).run actions).receiveReady = false ∧
      ((or channels).run actions).delivered = []) := by
  have hm := run_mergedClosed actions (or channels)
  refine ⟨hm, fun ha => ?_⟩
  obtain ⟨h1, h2⟩ := run_no_sender actions (or channels) ha (by simp [or, Wait.isSending])
  refine ⟨?_, h2⟩
  rw [State.receiveReady, hm, h1]
  rfl

/-- The documented use on one channel that is closed later: after the close and
the return of the goroutine nothing can happen any more, `merged` is open and
no receive on it is ready. -/
theorem or_one_channel :
    ((or [false]).run [.close 0, .leave 0]) =
      { closed := [true], waits := [Wait.returned], mergedClosed := false, delivered := [] } ∧
    ((or [false]).run [.close 0, .leave 0]).receiveReady = false := by
  decide

end Dev07

namespace Dev11

open Dev08 (Str Err TrimSpace)
open Golang

/-! ## The body of a successful answer -/

/-- What `makeHandler` writes when the method fits, the form is read and the
handler returns no error: the status 204 and no body for the result `nil`,
the status 200 and the result as JSON otherwise. -/
theorem makeHandler_ok (method : String) (handler : Handler) (c c1 : Calendar) (r : Request)
    (result : Payload) (hm : r.Method = method) (hform : r.Method = MethodPost → r.body.2 = none)
    (hh : handler c (if r.Method = MethodPost then r.ParseForm.1 else r) = (c1, result, none)) :
    makeHandler method handler c r =
      (c1, if result = .nil then { status := 204, contentType := none, body := none }
        else { status := 200, contentType := some "application/json",
               body := some (.result result) }) := by
  unfold makeHandler
  rw [if_neg (not_not.mpr hm)]
  by_cases hp : r.Method = MethodPost
  · have hpf : r.ParseForm = (r.ParseForm.1, none) := by
      simp only [Request.ParseForm, hform hp]
    rw [if_pos hp] at hh ⊢
    rw [hpf]
    simp only [hh]
    by_cases hn : result = .nil
    · simp [hn, writeResponse, StatusNoContent]
    · simp [hn, writeResponse, StatusNoContent, StatusOK]
  · rw [if_neg hp] at hh ⊢
    simp only [hh]
    by_cases hn : result = .nil
    · simp [hn, writeResponse, StatusNoContent]
    · simp [hn, writeResponse, StatusNoContent, StatusOK]

/-- C31: a request that is handled without an error gets the body
`{"result": ...}` with the status 200 when the handler returns a result other
than `nil`; a successful `delete_event`, whose handler returns `nil`, gets the
status 204 and no body at all. -/
theorem success_body (std : Std) :
    (∀ (method : String) (handler : Handler) (c c1 : Calendar) (r : Request) (result : Payload),
      r.Method = method → (r.Method = MethodPost → r.body.2 = none) →
      handler c (if r.Method = MethodPost then r.ParseForm.1 else r) = (c1, result, none) →
      result ≠ .nil →
      makeHandler method handler c r =
        (c1, { status := 200, contentType := some "application/json",
               body := some (.result result) })) ∧
    (∀ (c : Calendar) (r : Request),
      r.Method = MethodPost → r.body.2 = none → (std.ParseInt (r.body.1.Get "id")).2 = none →
      makeHandler MethodPost (CalendarServer.DeleteEvent std) c r =
        (c.DeleteEvent (std.ParseInt (r.body.1.Get "id")).1,
          { status := 204, contentType := none, body := none })) := by
  constructor
  · intro method handler c c1 r result hm hform hh hn
    rw [makeHandler_ok method handler c c1 r result hm hform hh, if_neg hn]
  · intro c r hm hform hid
    have hh : CalendarServer.DeleteEvent std c (if r.Method = MethodPost then r.ParseForm.1 else r) =
        (c.DeleteEvent (std.ParseInt (r.body.1.Get "id")).1, .nil, none) := by
      rw [if_pos hm]
      simp only [CalendarServer.DeleteEvent, Request.ParseForm, IdRequest_Parse_ok std _ _ hid]
    rw [makeHandler_ok MethodPost _ c _ r .nil hm (fun _ => hform) hh, if_pos rfl]

/-- The request `POST /delete_event` with `id=1` on a calendar that holds the
event 1: the event is deleted, and the answer has the status 204 and no
body. -/
theorem DeleteEvent_no_body :
    (makeHandler MethodPost (CalendarServer.DeleteEvent exampleStd) exampleCalendar
      { Method := "POST", PostForm := fun _ => [], body := (exampleForm "1" "" "", none) }).2 =
      { status := 204, contentType := none, body := none } ∧
    exampleCalendar.events.lookup 1 ≠ none ∧
    (makeHandler MethodPost (CalendarServer.DeleteEvent exampleStd) exampleCalendar
      { Method := "POST", PostForm := fun _ => [],
        body := (exampleForm "1" "" "", none) }).1.events.lookup 1 = none := by
  decide

/-! ## The week of `EventsForWeek` -/

theorem civilDays_add (year month day k : Int) :
    civilDays year month (day + k) = civilDays year month day + k := by
  simp only [civilDays]
  ring

/-- C32: for every reading of the clock the interval of `EventsForWeek` starts
at 00:00:00 of the first day of the week, the Sunday that lies today's weekday
number before today, and it ends at 23:59:59 of the day seven days after that
first day, one day later than the end of the week: the interval spans eight
days less one second. -/
theorem weekBounds_spec (now : Now) :
    (0 ≤ now.Weekday ∧ now.Weekday ≤ 6) ∧
    (weekBounds now).1 = Date now.Year now.Month (now.Day - now.Weekday) 0 0 0 now.offset ∧
    (civilDays now.Year now.Month (now.Day - now.Weekday) + 4) % 7 = 0 ∧
    (weekBounds now).2 =
      Date now.Year now.Month (now.Day - now.Weekday + 7) 23 59 59 now.offset ∧
    (weekBounds now).2.nanos =
      (Date now.Year now.Month (now.Day - now.Weekday + 6) 23 59 59 now.offset).nanos +
        86400 * 1000000000 ∧
    (weekBounds now).2.nanos - (weekBounds now).1.nanos = (8 * 86400 - 1) * 1000000000 := by
  have hw : now.Weekday = (civilDays now.Year now.Month now.Day + 4) % 7 := rfl
  have h1 := civilDays_add now.Year now.Month now.Day (-now.Weekday)
  have h6 := civilDays_add now.Year now.Month (now.Day - now.Weekday) 6
  have h7 := civilDays_add now.Year now.Month (now.Day - now.Weekday) 7
  rw [← sub_eq_add_neg] at h1
  refine ⟨⟨by omega, by omega⟩, rfl, by omega, rfl, ?_, ?_⟩
  · simp only [weekBounds, Date, h6, h7]
    ring
  · simp only [weekBounds, Date, h7]
    ring

/-- On Wednesday, the 11th of September 2019, the interval of `EventsForWeek`
runs from Sunday the 8th, 00:00:00, to Sunday the 15th, 23:59:59, and an event
at noon of the 15th, the first day of the next week, is among the events of the
week. -/
theorem EventsForWeek_next_sunday :
    exampleNow.Weekday = 3 ∧
    (weekBounds exampleNow).1 = Date 2019 9 8 0 0 0 0 ∧
    (weekBounds exampleNow).2 = Date 2019 9 15 23 59 59 0 ∧
    (exampleCalendar.GetEvents (weekBounds exampleNow).1 (weekBounds exampleNow).2).2.lookup 1 =
      some { Name := "party".toList, Date := Date 2019 9 15 12 0 0 0 } ∧
    (CalendarServer.EventsForWeek exampleStd exampleNow exampleCalendar
      { Method := "GET", PostForm := fun _ => [], body := (fun _ => [], none) }).2.1 =
      .events [{ ID := 1, Name := "party".toList,
                 Date := exampleStd.Format (Date 2019 9 15 12 0 0 0) }] := by
  decide

end Dev11

namespace Dev05

open Dev08 (Str Err)
open Golang

/-! ## `Print` with context: what is written -/

/-- One round of the loop of `Print`. -/
theorem printLoop_cons (p : Printer) (search : Search) (i : Nat) (line : Str) (rest : List Str)
    (shouldPrint : Bool) (lastMatch : Int) (w : Writer) (n : Nat) :
    p.printLoop search i (line :: rest) shouldPrint lastMatch w n =
      match (if p.shouldPrintAt search i shouldPrint then p.printLine search i line w n
        else (w, n, none) : Writer × Nat × Option Err) with
      | (writer1, n1, some err) => (writer1, n1, some err)
      | (writer1, n1, none) =>
        p.printLoop search (i + 1) rest
          (p.carried i (p.shouldPrintAt search i shouldPrint) (search.lastMatchAt i lastMatch))
          (search.lastMatchAt i lastMatch) writer1 n1 := by
  rw [Printer.printLoop]
  rfl

/-- The writes for a printed line on a writer that does not fail. -/
theorem printLine_ok (p : Printer) (search : Search) (i : Nat) (line : Str) (w : Writer) (n : Nat)
    (hw : ∀ k, w.fail k = none) :
    ∃ w1 n1, p.printLine search i line w n = (w1, n1, none) ∧ (∀ k, w1.fail k = none) ∧
      w1.chunks = w.chunks ++ p.lineChunks search i line := by
  unfold Printer.printLine Printer.lineChunks
  cases hl : p.lineNumbers with
  | false =>
    obtain ⟨h1, h2, h3⟩ := Dev03.Write_ok w (line ++ ['\n']) hw
    refine ⟨(w.Write (line ++ ['\n'])).1, n + byteLen (line ++ ['\n']), ?_, h3, ?_⟩
    · simp only [Bool.false_eq_true, if_false]
      rw [h1]
    · simp only [Bool.false_eq_true, if_false, List.nil_append]
      exact h2
  | true =>
    generalize (toString (i + 1)).toList ++
      (if lookup search.matches_ i then [':'] else ['-']) = t
    obtain ⟨h1, h2, h3⟩ := Dev03.Write_ok w t hw
    obtain ⟨k1, k2, k3⟩ := Dev03.Write_ok (w.Write t).1 (line ++ ['\n']) h3
    refine ⟨((w.Write t).1.Write (line ++ ['\n'])).1,
      n + byteLen t + byteLen (line ++ ['\n']), ?_, k3, ?_⟩
    · simp only [if_true]
      rw [h1]
      simp only
      rw [k1]
    · rw [k2, h2]
      simp

end Dev05
namespace Dev05

open Dev08 (Str Err)
open Golang

/-! ## `Print` with context: the flag `shouldPrint` -/

theorem wrap_cases (x : Int) (h0 : -1 ≤ x) (h1 : x < 2 ^ 64 - 1) :
    (x < 2 ^ 63 ∧ wrap x = x) ∨ wrap x < 0 := by
  unfold wrap
  omega

/-- One round of the loop of `Print`: a line is printed only with a matching
line within its context, a matching line is printed, and the flags handed on to
the next line are as `ContextInv` says. -/
theorem context_step (p : Printer) (search : Search) (i : Nat) (sp : Bool) (lm : Int)
    (hB : 0 ≤ p.linesBefore ∧ p.linesBefore < 2 ^ 63)
    (hA : 0 ≤ p.linesAfter ∧ p.linesAfter < 2 ^ 63)
    (hlen : (search.sourceLines.length : Int) < 2 ^ 63) (hi : i < search.sourceLines.length)
    (hm : ∀ k : Int, lookup search.matches_ k = true →
      0 ≤ k ∧ k < search.sourceLines.length)
    (hinv : p.ContextInv search i sp lm) :
    (p.shouldPrintAt search i sp = true →
      ∃ j : Nat, j < search.sourceLines.length ∧ lookup search.matches_ j = true ∧
        (i : Int) - p.linesAfter ≤ j ∧ (j : Int) ≤ i + p.linesBefore) ∧
    (lookup search.matches_ i = true → p.shouldPrintAt search i sp = true) ∧
    p.ContextInv search (i + 1) (p.carried i (p.shouldPrintAt search i sp)
      (search.lastMatchAt i lm)) (search.lastMatchAt i lm) := by
  obtain ⟨⟨hl1, hl2⟩, hnone, hsome, hsp⟩ := hinv
  have hi' : (i : Int) < search.sourceLines.length := by exact_mod_cast hi
  have F2 : p.shouldPrintAt search i sp = true →
      ∃ j : Nat, j < search.sourceLines.length ∧ lookup search.matches_ j = true ∧
        (i : Int) - p.linesAfter ≤ j ∧ (j : Int) ≤ i + p.linesBefore := by
    intro h
    unfold Printer.shouldPrintAt at h
    rw [Bool.or_eq_true, Bool.or_eq_true, Bool.and_eq_true] at h
    rcases h with (h | h) | ⟨-, h2⟩
    · exact hsp h
    · exact ⟨i, hi, h, by omega, by omega⟩
    · have hk := hm _ h2
      rcases wrap_cases ((i : Int) + p.linesBefore) (by omega) (by omega) with ⟨-, e⟩ | hneg
      · rw [e] at h2 hk
        refine ⟨((i : Int) + p.linesBefore).toNat, by omega, ?_, by omega, by omega⟩
        rw [Int.toNat_of_nonneg hk.1]
        exact h2
      · omega
  refine ⟨F2, ?_, ?_⟩
  · intro h
    unfold Printer.shouldPrintAt
    rw [h, Bool.or_true, Bool.true_or]
  · by_cases hcm : lookup search.matches_ i = true
    · have hlast : search.lastMatchAt i lm = i := by
        unfold Search.lastMatchAt
        rw [if_pos hcm]
      rw [hlast]
      refine ⟨⟨by omega, by push_cast; omega⟩, fun h => by omega, fun _ => hcm, ?_⟩
      intro hc
      unfold Printer.carried at hc
      split_ifs at hc with hq
      rcases wrap_cases ((i : Int) + p.linesAfter) (by omega) (by omega) with ⟨-, e⟩ | hneg
      · exact ⟨i, hi, hcm, by push_cast; omega, by push_cast; omega⟩
      · omega
    · have hlast : search.lastMatchAt i lm = lm := by
        unfold Search.lastMatchAt
        rw [if_neg hcm]
      have hcmf : lookup search.matches_ i = false := by
        simpa using hcm
      rw [hlast]
      refine ⟨⟨hl1, by push_cast; omega⟩, ?_, hsome, ?_⟩
      · intro h j hj
        rcases Nat.lt_succ_iff_lt_or_eq.mp hj with hlt | rfl
        · exact hnone h j hlt
        · exact hcmf
      · intro hc
        unfold Printer.carried at hc
        split_ifs at hc with hq
        obtain ⟨j0, hj1, hj2, hj3, hj4⟩ := F2 hc
        rcases wrap_cases (lm + p.linesAfter) (by omega) (by omega) with ⟨-, e⟩ | hneg
        · rw [e] at hq
          by_cases h0 : 0 ≤ lm
          · refine ⟨lm.toNat, by omega, ?_, by push_cast; omega, by push_cast; omega⟩
            rw [Int.toNat_of_nonneg h0]
            exact hsome h0
          · have hminus : lm = -1 := by omega
            have hge : i + 1 ≤ j0 := by
              by_contra hlt
              rcases Nat.lt_succ_iff_lt_or_eq.mp (Nat.lt_of_not_le hlt) with hlt2 | rfl
              · rw [hnone hminus j0 hlt2] at hj2
                exact absurd hj2 (by simp)
              · rw [hcmf] at hj2
                exact absurd hj2 (by simp)
            exact ⟨j0, hj1, hj2, by push_cast; omega, by push_cast; omega⟩
        · omega

end Dev05
namespace Dev05

open Dev08 (Str Err)
open Golang

/-! ## `Print` with context: the lines written -/

/-- The loop of `Print` from line `i` on, on a writer that does not fail: it
writes the lines of an increasing list of indices that holds every matching
line from `i` on and only lines with a matching line within their context. -/
theorem printLoop_context (p : Printer) (search : Search)
    (hB : 0 ≤ p.linesBefore ∧ p.linesBefore < 2 ^ 63)
    (hA : 0 ≤ p.linesAfter ∧ p.linesAfter < 2 ^ 63)
    (hlen : (search.sourceLines.length : Int) < 2 ^ 63)
    (hm : ∀ k : Int, lookup search.matches_ k = true →
      0 ≤ k ∧ k < search.sourceLines.length) :
    ∀ (rest : List Str) (i : Nat) (sp : Bool) (lm : Int) (w : Writer) (n : Nat),
      (∀ k, w.fail k = none) → search.sourceLines.drop i = rest → p.ContextInv search i sp lm →
      ∃ printed : List Nat,
        (p.printLoop search i rest sp lm w n).1.chunks =
          w.chunks ++ printed.flatMap
            (fun j => p.lineChunks search j (search.sourceLines.getD j [])) ∧
        (p.printLoop search i rest sp lm w n).2.2 = none ∧
        printed.Pairwise (· < ·) ∧
        (∀ j ∈ printed, i ≤ j ∧ j < search.sourceLines.length) ∧
        (∀ j : Nat, i ≤ j → j < search.sourceLines.length →
          lookup search.matches_ j = true → j ∈ printed) ∧
        (∀ j ∈ printed, ∃ m : Nat, m < search.sourceLines.length ∧
          lookup search.matches_ m = true ∧
          (j : Int) - p.linesAfter ≤ m ∧ (m : Int) ≤ j + p.linesBefore) := by
  intro rest
  induction rest with
  | nil =>
    intro i sp lm w n _ hdrop _
    have hle : search.sourceLines.length ≤ i := List.drop_eq_nil_iff.mp hdrop
    refine ⟨[], ?_, ?_, List.Pairwise.nil, ?_, ?_, ?_⟩
    · rw [Printer.printLoop]
      simp
    · rw [Printer.printLoop]
    · intro j hj
      exact absurd hj (List.not_mem_nil j)
    · intro j h1 h2
      omega
    · intro j hj
      exact absurd hj (List.not_mem_nil j)
  | cons line rest ih =>
    intro i sp lm w n hw hdrop hinv
    have hi : i < search.sourceLines.length := by
      by_contra hc
      rw [List.drop_eq_nil_iff.mpr (Nat.le_of_not_lt hc)] at hdrop
      exact absurd hdrop (by simp)
    rw [List.drop_eq_getElem_cons hi] at hdrop
    have hline : search.sourceLines.getD i [] = line := by
      rw [List.getD_eq_getElem _ _ hi]
      exact (List.cons.inj hdrop).1
    have hrest : search.sourceLines.drop (i + 1) = rest := (List.cons.inj hdrop).2
    obtain ⟨hctx, hmatch, hnext⟩ := context_step p search i sp lm hB hA hlen hi hm hinv
    rw [printLoop_cons]
    cases hs : p.shouldPrintAt search i sp with
    | false =>
      rw [hs] at hnext
      obtain ⟨printed, h1, h2, h3, h4, h5, h6⟩ := ih (i + 1)
        (p.carried i false (search.lastMatchAt i lm)) (search.lastMatchAt i lm) w n hw hrest hnext
      refine ⟨printed, ?_, ?_, h3, ?_, ?_, h6⟩
      · simp only [Bool.false_eq_true, if_false]
        exact h1
      · simp only [Bool.false_eq_true, if_false]
        exact h2
      · intro j hj
        have := h4 j hj
        exact ⟨by omega, this.2⟩
      · intro j hij hjl hjm
        rcases Nat.eq_or_lt_of_le hij with rfl | hlt
        · rw [hmatch hjm] at hs
          exact absurd hs (by simp)
        · exact h5 j hlt hjl hjm
    | true =>
      rw [hs] at hnext
      obtain ⟨w1, n1, hprint, hw1, hchunks⟩ := printLine_ok p search i line w n hw
      obtain ⟨printed, h1, h2, h3, h4, h5, h6⟩ := ih (i + 1)
        (p.carried i true (search.lastMatchAt i lm)) (search.lastMatchAt i lm) w1 n1 hw1 hrest
        hnext
      refine ⟨i :: printed, ?_, ?_, ?_, ?_, ?_, ?_⟩
      · simp only [if_true, hprint]
        rw [h1, hchunks, List.flatMap_cons, hline, List.append_assoc]
      · simp only [if_true, hprint]
        exact h2
      · rw [List.pairwise_cons]
        exact ⟨fun j hj => (h4 j hj).1, h3⟩
      · intro j hj
        rcases List.mem_cons.mp hj with rfl | hj
        · exact ⟨le_refl _, hi⟩
        · have := h4 j hj
          exact ⟨by omega, this.2⟩
      · intro j hij hjl hjm
        rcases Nat.eq_or_lt_of_le hij with rfl | hlt
        · exact List.mem_cons_self _ _
        · exact List.mem_cons_of_mem _ (h5 j hlt hjl hjm)
      · intro j hj
        rcases List.mem_cons.mp hj with rfl | hj
        · exact hctx hs
        · exact h6 j hj

end Dev05
namespace Dev05

open Dev08 (Str Err)
open Golang

/-- For every search whose map has no true entry outside the line indices and
every printer with `0 <= linesBefore`, `0 <= linesAfter` (both in the range of
`int`) and `onlyCount` not set, `Print` (on a writer that does not fail) writes
the lines of a strictly increasing list of indices; the list holds every
matching line, and every line `j` in it has a matching line `m` with
`j - linesAfter <= m <= j + linesBefore`. -/
theorem Print_context_of_keys (p : Printer) (search : Search) (w : Writer)
    (hc : p.onlyCount = false)
    (hB : 0 ≤ p.linesBefore ∧ p.linesBefore < 2 ^ 63)
    (hA : 0 ≤ p.linesAfter ∧ p.linesAfter < 2 ^ 63)
    (hlen : (search.sourceLines.length : Int) < 2 ^ 63)
    (hm : ∀ k : Int, lookup search.matches_ k = true →
      0 ≤ k ∧ k < search.sourceLines.length)
    (hw : ∀ k, w.fail k = none) :
    ∃ printed : List Nat,
      (p.Print search w).1.chunks =
        w.chunks ++ printed.flatMap
          (fun j => p.lineChunks search j (search.sourceLines.getD j [])) ∧
      (p.Print search w).2.2 = none ∧
      printed.Pairwise (· < ·) ∧
      (∀ j ∈ printed, j < search.sourceLines.length) ∧
      (∀ j : Nat, j < search.sourceLines.length →
        lookup search.matches_ j = true → j ∈ printed) ∧
      (∀ j ∈ printed, ∃ m : Nat, m < search.sourceLines.length ∧
        lookup search.matches_ m = true ∧
        (j : Int) - p.linesAfter ≤ m ∧ (m : Int) ≤ j + p.linesBefore) := by
  have hinv : p.ContextInv search 0 false (-1) :=
    ⟨⟨le_refl _, by norm_num⟩, fun _ j hj => absurd hj (Nat.not_lt_zero j),
      fun h => absurd h (by norm_num), fun h => absurd h (by simp)⟩
  obtain ⟨printed, h1, h2, h3, h4, h5, h6⟩ :=
    printLoop_context p search hB hA hlen hm search.sourceLines 0 false (-1) w 0 hw rfl hinv
  refine ⟨printed, ?_, ?_, h3, fun j hj => (h4 j hj).2, fun j hj => h5 j (Nat.zero_le j) hj, h6⟩
  · rw [Printer.Print, hc]
    exact h1
  · rw [Printer.Print, hc]
    exact h2

end Dev05

/-! # The launch loop of `processChain` -/

namespace Dev08

theorem runAll_append (os : OS) (units : List Executable) (a b : List Nat) :
    runAll os units (a ++ b) = runAll os units a ++ runAll os units b := by
  simp [runAll]

theorem Conc.init_ranIn (os : OS) (commands : List Executable) :
    Conc.RanIn os commands (Conc.init commands) [] := by
  refine ⟨by simp [Conc.init, runAll], List.nodup_nil, ?_⟩
  intro i
  simp only [Conc.init, List.not_mem_nil, false_iff, not_or]
  constructor <;>
  · intro h
    have := List.getElem?_replicate ▸ h
    split_ifs at this
    cases this

theorem Conc.step_ranIn (os : OS) (commands : List Executable) (a : Action) (c c1 : Conc)
    (sched : List Nat) (hinv : Conc.Inv commands c) (hr : Conc.RanIn os commands c sched)
    (hstep : Conc.step os commands a c = some c1) :
    ∃ sched1, Conc.RanIn os commands c1 sched1 := by
  obtain ⟨hlen, -, -, hns, -, -⟩ := hinv
  obtain ⟨hev, hnd, hmem⟩ := hr
  cases a with
  | main =>
    simp only [Conc.step] at hstep
    split_ifs at hstep with h1 h2 h3
    · cases hstep
      have hcur := hns c.launched le_rfl h2
      refine ⟨sched, hev, hnd, ?_⟩
      intro i
      rw [hmem i]
      by_cases hil : c.launched = i
      · subst hil
        have hlt : c.launched < c.tasks.length := by omega
        simp [hcur, List.getElem?_set_self hlt]
      · simp only [List.getElem?_set_ne hil]
    · cases hstep
      exact ⟨sched, hev, hnd, hmem⟩
  | task i =>
    simp only [Conc.step] at hstep
    split at hstep
    · next cmd ht hc =>
      cases hstep
      have hik : i < commands.length := (List.getElem?_eq_some_iff.mp hc).1
      have hlt : i < c.tasks.length := by omega
      have hni : i ∉ sched := by
        intro hi
        rcases (hmem i).mp hi with h | h <;> rw [ht] at h <;> cases h
      refine ⟨sched ++ [i], ?_, ?_, ?_⟩
      · simp only [runAll_append, hev, runAll_cons, hc]
        simp [runAll]
      · exact List.Nodup.append hnd (List.nodup_singleton i) (by simpa using hni)
      · intro j
        by_cases hij : i = j
        · subst hij
          simp [List.getElem?_set_self hlt]
        · have hji : ¬ j = i := fun h => hij h.symm
          simp only [List.mem_append, List.mem_singleton, hji, or_false,
            List.getElem?_set_ne hij]
          exact hmem j
    · next cmd ht hc =>
      cases hstep
      have hik : i < commands.length := (List.getElem?_eq_some_iff.mp hc).1
      have hlt : i < c.tasks.length := by omega
      refine ⟨sched, hev, hnd, ?_⟩
      intro j
      rw [hmem j]
      by_cases hij : i = j
      · subst hij
        simp [ht, List.getElem?_set_self hlt]
      · simp only [List.getElem?_set_ne hij]
    · cases hstep

theorem Conc.run_ranIn (os : OS) (commands : List Executable) (acts : List Action) :
    ∀ c c1 sched, Conc.Inv commands c → Conc.RanIn os commands c sched →
      Conc.run os commands acts c = some c1 → ∃ sched1, Conc.RanIn os commands c1 sched1 := by
  induction acts with
  | nil =>
    intro c c1 sched _ hr h
    simp only [Conc.run, Option.some.injEq] at h
    exact ⟨sched, h ▸ hr⟩
  | cons a rest ih =>
    intro c c1 sched hinv hr h
    simp only [Conc.run] at h
    cases hs : Conc.step os commands a c with
    | none => simp [hs] at h
    | some c2 =>
      rw [hs] at h
      obtain ⟨sched2, hr2⟩ := Conc.step_ranIn os commands a c c2 sched hinv hr hs
      exact ih c2 c1 sched2 (Conc.step_inv os commands a c c2 hinv hs) hr2 h

/-- When `processChain` has returned from `wg.Wait()`, the order in which the
goroutines called `exec` is an arrangement of all the positions of the units. -/
theorem Conc.returned_perm (os : OS) (commands : List Executable) (acts : List Action)
    (c : Conc) (hrun : Conc.run os commands acts (Conc.init commands) = some c)
    (hret : c.returned = true) :
    ∃ sched, sched.Perm (List.range commands.length) ∧ c.events = runAll os commands sched := by
  obtain ⟨hlen, hcnt, -, -, hr, -⟩ :=
    Conc.run_inv os commands acts _ c (Conc.init_inv commands) hrun
  obtain ⟨sched, hev, hnd, hmem⟩ :=
    Conc.run_ranIn os commands acts _ c [] (Conc.init_inv commands)
      (Conc.init_ranIn os commands) hrun
  obtain ⟨h0, -⟩ := hr hret
  have hall : ∀ b ∈ c.tasks, Task.done = b :=
    List.count_eq_length.mp (by omega)
  refine ⟨sched, ?_, hev⟩
  rw [List.perm_ext_iff_of_nodup hnd (List.nodup_range _)]
  intro i
  rw [hmem i, List.mem_range]
  constructor
  · intro h
    have : i < c.tasks.length := by
      rcases h with h | h <;> exact (List.getElem?_eq_some_iff.mp h).1
    omega
  · intro hi
    have hlt : i < c.tasks.length := by omega
    right
    rw [List.getElem?_eq_getElem hlt, ← hall _ (List.getElem_mem hlt)]

theorem Conc.run_append (os : OS) (commands : List Executable) (a b : List Action) :
    ∀ c, Conc.run os commands (a ++ b) c =
      (Conc.run os commands a c).bind (Conc.run os commands b) := by
  induction a with
  | nil => intro c; rfl
  | cons x a ih =>
    intro c
    simp only [List.cons_append, Conc.run]
    cases Conc.step os commands x c with
    | none => rfl
    | some c1 => exact ih c1

theorem Conc.after_zero (os : OS) (commands : List Executable) :
    Conc.after os commands 0 = Conc.init commands := by
  simp [Conc.after, Conc.init, runAll]

theorem set_replicate_append (j m : Nat) (a b x : Task) :
    (List.replicate j a ++ List.replicate (m + 1) b).set j x =
      List.replicate j a ++ x :: List.replicate m b := by
  rw [List.set_append_right _ _ (by simp)]
  simp [List.replicate_succ]

/-- One goroutine started, run and ended. -/
theorem Conc.after_succ (os : OS) (commands : List Executable) (j : Nat)
    (hj : j < commands.length) :
    Conc.run os commands [Action.main, Action.task j, Action.task j] (Conc.after os commands j) =
      some (Conc.after os commands (j + 1)) := by
  obtain ⟨m, hm⟩ : ∃ m, commands.length - j = m + 1 := ⟨commands.length - j - 1, by omega⟩
  have hm1 : commands.length - (j + 1) = m := by omega
  have hc : commands[j]? = some commands[j] := List.getElem?_eq_getElem hj
  have hlen : j < (List.replicate j Task.done ++ Task.started :: List.replicate m Task.notStarted).length := by
    simp
  have hlen2 : j < (List.replicate j Task.done ++ Task.executed :: List.replicate m Task.notStarted).length := by
    simp
  have hset : ∀ x y : Task, (List.replicate j Task.done ++ x :: List.replicate m Task.notStarted).set j y =
      List.replicate j Task.done ++ y :: List.replicate m Task.notStarted := by
    intro x y
    rw [List.set_append_right _ _ (by simp)]
    simp
  have hget : ∀ x : Task, (List.replicate j Task.done ++ x :: List.replicate m Task.notStarted)[j]? = some x := by
    intro x
    rw [List.getElem?_append_right (by simp)]
    simp
  simp only [Conc.run, Conc.step, Conc.after, hm, hm1, hj, if_true, Bool.false_eq_true, if_false,
    set_replicate_append, hget, hset, hc]
  simp only [Option.some.injEq, Conc.mk.injEq, true_and]
  refine ⟨?_, ?_, ?_⟩
  · omega
  · simp [List.replicate_succ']
  · rw [List.range_succ, runAll_append, runAll_cons, hc]
    simp [runAll]

theorem Conc.run_after (os : OS) (commands : List Executable) (j : Nat)
    (hj : j ≤ commands.length) :
    Conc.run os commands
        ((List.range j).flatMap fun i => [Action.main, Action.task i, Action.task i])
        (Conc.init commands) = some (Conc.after os commands j) := by
  induction j with
  | zero => simp [Conc.run, Conc.after_zero]
  | succ j ih =>
    rw [List.range_succ, List.flatMap_append, Conc.run_append, ih (by omega)]
    simp only [List.flatMap_cons, List.flatMap_nil, List.append_nil, Option.some_bind]
    exact Conc.after_succ os commands j (by omega)

/-- The launch loop and `wg.Wait()` can run to their end: in the interleaving
`Conc.inTurn` `processChain` returns. -/
theorem Conc.inTurn_returns (os : OS) (commands : List Executable) :
    ∃ c, Conc.run os commands (Conc.inTurn commands.length) (Conc.init commands) = some c ∧
      c.returned = true := by
  rw [Conc.inTurn, Conc.run_append, Conc.run_after os commands _ le_rfl]
  simp [Conc.run, Conc.step, Conc.after]

/-- C4: for every successfully built pipeline of `k ≥ 1` units and every
outcome of the units' `exec` calls, the launch loop and `wg.Wait()` of
`processChain` can run to their end, and in every interleaving of
`processChain` with its goroutines in which it has returned, what it has done is
`Shell.processChain` on an order `sched` of all the `k` positions: it returns
`nil`, `exec` was called exactly once on each of the `k` units and on nothing
else, and the diagnostic lines printed are, up to their order, exactly the
errors the units' `exec` calls returned, one line for each failing unit and none
for the others. -/
theorem processChain_runs_every_unit (s : Shell) (os : OS) (n : Nat)
    (rawCommands : List Str) (built units : List Executable) (ev : List Event) (n1 : Nat)
    (hb : s.build rawCommands = .ok built) (hw : wireLoop os n built = (ev, n1, .ok units))
    (hk : units ≠ []) :
    (∃ c, Conc.run os units (Conc.inTurn units.length) (Conc.init units) = some c ∧
      c.returned = true) ∧
    ∀ acts c, Conc.run os units acts (Conc.init units) = some c → c.returned = true →
      ∃ sched r, sched.Perm (List.range units.length) ∧
        s.processChain os sched n rawCommands = some r ∧ r.events = ev ++ c.events ∧
        r.err = none ∧
        (∀ i, i < units.length → r.events.count (Event.exec i) = 1) ∧
        (∀ i, units.length ≤ i → r.events.count (Event.exec i) = 0) ∧
        (r.events.filterMap Event.diagnostic?).Perm
          (units.filterMap fun u => (u.exec os).2) := by
  refine ⟨Conc.inTurn_returns os units, ?_⟩
  intro acts c hrun hret
  obtain ⟨sched, hs, hc⟩ := Conc.returned_perm os units acts c hrun hret
  have hpc := processChain_of_wire_ok s os sched n rawCommands built units ev n1 hb hw
    (wireLoop_ne_nil os n n1 built units ev hw hk)
  obtain ⟨-, hev, -⟩ := wireLoop_build s os n rawCommands built units ev n1 hb hw
  refine ⟨sched, _, hs, hpc, by rw [hc], rfl, ?_, ?_, ?_⟩
  · intro i hi
    simp only [List.count_append, hev, wireEvents_count_exec, runAll_count_exec, hi, if_true,
      Nat.zero_add]
    rw [hs.count_eq]
    exact List.count_eq_one_of_mem (List.nodup_range _) (List.mem_range.mpr hi)
  · intro i hi
    simp only [List.count_append, hev, wireEvents_count_exec, runAll_count_exec,
      if_neg (not_lt.mpr hi)]
  · simp only [List.filterMap_append, hev, wireEvents_diagnostic, List.nil_append,
      runAll_diagnostic]
    rw [← filterMap_range_getElem? (fun u => (u.exec os).2) units]
    exact hs.filterMap _

/-- Witness of C4 on the segments `a` and `b`, where running `b` fails and the
goroutine of `b` calls `exec` first and ends last. -/
theorem processChain_runs_every_unit_witness :
    Shell.bare.build [['a'], ['b']] =
      .ok [Executable.external ⟨['a'], [], some File.stdin, none⟩,
        Executable.external ⟨['b'], [], none, some File.stdout⟩] ∧
    wireLoop OS.failsOnB 0 [Executable.external ⟨['a'], [], some File.stdin, none⟩,
        Executable.external ⟨['b'], [], none, some File.stdout⟩] =
      ([Event.getStdoutPipe, Event.pipe 0], 1,
        .ok [Executable.external ⟨['a'], [], some File.stdin, some (File.pipeWrite 0)⟩,
          Executable.external ⟨['b'], [], some (File.pipeRead 0), some File.stdout⟩]) ∧
    ∃ c, Conc.run OS.failsOnB
        [Executable.external ⟨['a'], [], some File.stdin, some (File.pipeWrite 0)⟩,
          Executable.external ⟨['b'], [], some (File.pipeRead 0), some File.stdout⟩]
        [.main, .main, .task 1, .task 0, .task 0, .task 1, .main]
        (Conc.init [Executable.external ⟨['a'], [], some File.stdin, some (File.pipeWrite 0)⟩,
          Executable.external ⟨['b'], [], some (File.pipeRead 0), some File.stdout⟩]) = some c ∧
      c.returned = true ∧
      ∃ sched r, Shell.bare.processChain OS.failsOnB sched 0 [['a'], ['b']] = some r ∧
        r.events = [Event.getStdoutPipe, Event.pipe 0] ++ c.events ∧ r.err = none ∧
        r.events.count (Event.exec 0) = 1 ∧ r.events.count (Event.exec 1) = 1 ∧
        (r.events.filterMap Event.diagnostic?).Perm ["exit status 1"] :=
  have h := (processChain_runs_every_unit Shell.bare OS.failsOnB 0 [['a'], ['b']]
    [Executable.external ⟨['a'], [], some File.stdin, none⟩,
      Executable.external ⟨['b'], [], none, some File.stdout⟩]
    [Executable.external ⟨['a'], [], some File.stdin, some (File.pipeWrite 0)⟩,
      Executable.external ⟨['b'], [], some (File.pipeRead 0), some File.stdout⟩]
    [Event.getStdoutPipe, Event.pipe 0] 1 rfl rfl (by simp)).2
      [.main, .main, .task 1, .task 0, .task 0, .task 1, .main] _ rfl rfl
  ⟨rfl, rfl, _, rfl, rfl, h.imp fun _ hs => hs.imp fun _ hr =>
    ⟨hr.2.1, hr.2.2.1, hr.2.2.2.1, hr.2.2.2.2.1 0 (by simp), hr.2.2.2.2.1 1 (by simp),
      hr.2.2.2.2.2.2⟩⟩

end Dev08

/-! # The keys of the map of `Find` -/

namespace Dev05

open Dev08 (Str Err)
open Golang

/-- The loop of `Find` keeps the lines and adds to the map the keys from `i` to
the last line index. -/
theorem findLoop_keys (predicate : LinePredicate) (rest : List Str) :
    ∀ (i : Nat) (s : Search),
      (Search.findLoop predicate i rest s).sourceLines = s.sourceLines ∧
      ∀ k : Int, ((Search.findLoop predicate i rest s).matches_ k).isSome =
        ((s.matches_ k).isSome || decide ((i : Int) ≤ k ∧ k < i + rest.length)) := by
  induction rest with
  | nil =>
    intro i s
    refine ⟨rfl, fun k => ?_⟩
    have : ¬ ((i : Int) ≤ k ∧ k < i + ([] : List Str).length) := by
      simp only [List.length_nil]; omega
    simp [Search.findLoop, this]
  | cons line rest ih =>
    intro i s
    obtain ⟨h1, h2⟩ := ih (i + 1) { s with
      matches_ := store s.matches_ i (if s.invert then !predicate line else predicate line),
      count := if (if s.invert then !predicate line else predicate line) = true
        then s.count + 1 else s.count }
    refine ⟨h1, fun k => ?_⟩
    rw [Search.findLoop]
    rw [h2 k]
    simp only [store, List.length_cons, Nat.cast_add, Nat.cast_one]
    by_cases hk : k = (i : Int)
    · subst hk
      have : ((i : Int) ≤ i ∧ (i : Int) < i + (rest.length + 1)) := by omega
      simp [this]
    · simp only [hk, if_false]
      congr 1
      apply decide_eq_decide.mpr
      omega

/-- After `Find` on a new search the map is defined on the line indices and on
nothing else. -/
theorem Find_keys (invert : Bool) (lines : List Str) (predicate : LinePredicate) (k : Int) :
    ((NewSearch invert lines).Find predicate).sourceLines = lines ∧
    ((((NewSearch invert lines).Find predicate).matches_ k).isSome ↔
      0 ≤ k ∧ k < lines.length) := by
  obtain ⟨h1, h2⟩ := findLoop_keys predicate lines 0 (NewSearch invert lines)
  refine ⟨h1, ?_⟩
  have h3 := h2 k
  simp only [NewSearch, Option.isSome_none, Bool.false_or, Nat.cast_zero, zero_add] at h3
  show ((Search.findLoop predicate 0 lines (NewSearch invert lines)).matches_ k).isSome = true ↔ _
  rw [NewSearch, h3, decide_eq_true_iff]

/-- C36: for every search whose map is defined on the line indices, the keys
`Find` writes, and every printer with `0 <= linesBefore`, `0 <= linesAfter`
(both in the range of `int`) and `onlyCount` not set, `Print` (on a writer that
does not fail) writes the lines of a strictly increasing list of indices, so in
source order and each once; the list holds every matching line, and every line
`j` in it has a matching line `m` with `j - linesAfter <= m <= j + linesBefore`. -/
theorem Print_within_context (p : Printer) (search : Search) (w : Writer)
    (hc : p.onlyCount = false)
    (hB : 0 ≤ p.linesBefore ∧ p.linesBefore < 2 ^ 63)
    (hA : 0 ≤ p.linesAfter ∧ p.linesAfter < 2 ^ 63)
    (hlen : (search.sourceLines.length : Int) < 2 ^ 63)
    (hdom : ∀ k : Int, (search.matches_ k).isSome ↔ 0 ≤ k ∧ k < search.sourceLines.length)
    (hw : ∀ k, w.fail k = none) :
    ∃ printed : List Nat,
      (p.Print search w).1.chunks =
        w.chunks ++ printed.flatMap
          (fun j => p.lineChunks search j (search.sourceLines.getD j [])) ∧
      (p.Print search w).2.2 = none ∧
      printed.Pairwise (· < ·) ∧
      (∀ j ∈ printed, j < search.sourceLines.length) ∧
      (∀ j : Nat, j < search.sourceLines.length →
        lookup search.matches_ j = true → j ∈ printed) ∧
      (∀ j ∈ printed, ∃ m : Nat, m < search.sourceLines.length ∧
        lookup search.matches_ m = true ∧
        (j : Int) - p.linesAfter ≤ m ∧ (m : Int) ≤ j + p.linesBefore) := by
  refine Print_context_of_keys p search w hc hB hA hlen ?_ hw
  intro k hk
  apply (hdom k).mp
  cases h : search.matches_ k with
  | none => simp [lookup, h] at hk
  | some b => rfl

/-- Witness of C36: the second case of `TestPrinter_Print`, the lines searched
for `1` by `Find`, one line of context on both sides. -/
theorem Print_within_context_witness :
    ((Printer.mk 1 1 false false).Print
        ((NewSearch false ["2".toList, "2".toList, "1".toList, "1".toList, "2".toList,
          "2".toList]).Find fun l => l == "1".toList) Writer.buffer).1.chunks =
      ["2\n".toList, "1\n".toList, "1\n".toList, "2\n".toList] ∧
    ∃ printed : List Nat,
      printed.Pairwise (· < ·) ∧
      (∀ j : Nat, j < 6 →
        lookup ((NewSearch false ["2".toList, "2".toList, "1".toList, "1".toList, "2".toList,
          "2".toList]).Find fun l => l == "1".toList).matches_ j = true → j ∈ printed) ∧
      (∀ j ∈ printed, ∃ m : Nat, m < 6 ∧
        lookup ((NewSearch false ["2".toList, "2".toList, "1".toList, "1".toList, "2".toList,
          "2".toList]).Find fun l => l == "1".toList).matches_ m = true ∧
        (j : Int) - 1 ≤ m ∧ (m : Int) ≤ j + 1) :=
  have h := Print_within_context (Printer.mk 1 1 false false)
    ((NewSearch false ["2".toList, "2".toList, "1".toList, "1".toList, "2".toList,
      "2".toList]).Find fun l => l == "1".toList) Writer.buffer rfl
    ⟨by norm_num, by norm_num⟩ ⟨by norm_num, by norm_num⟩
    (by show ((6 : Nat) : Int) < 2 ^ 63; norm_num)
    (fun k => (Find_keys false _ _ k).2)
    (fun _ => rfl)
  ⟨by decide, h.imp fun _ hp => ⟨hp.2.2.1, hp.2.2.2.2.1, hp.2.2.2.2.2⟩⟩

end Dev05

/-! # `sort.Sort` through `sort.Interface` -/

namespace Golang

theorem Interface.Reach.trans {σ : Type} {I : Interface σ} {s t u : σ}
    (h1 : I.Reach s t) (h2 : I.Reach t u) : I.Reach s u := by
  induction h2 with
  | refl => exact h1
  | swap v i j _ hi hj ih => exact Interface.Reach.swap s v i j ih hi hj

/-- Exchanging two neighbours in a list. -/
theorem set_set_adjacent {α : Type} (pre : List α) (y x : α) (post : List α) :
    ((pre ++ y :: x :: post).set (pre.length + 1) y).set pre.length x =
      pre ++ x :: y :: post := by
  induction pre with
  | nil => rfl
  | cons p pre ih => simp [ih]

/-- The inner loop of `insertionSort` on a sequence: with the elements before
`x` and the elements `mid`, all greater than `x`, in order, it puts `x` in its
place among them. -/
theorem insertLoop_spec {σ α : Type} (I : Interface σ) (elems : σ → List α)
    (lt : α → α → Bool) (s0 : σ)
    (hseq : ∀ t, I.Reach s0 t → I.IsSequenceAt elems lt t)
    (hasym : ∀ a b, lt a b = true → lt b a = false)
    (htrans : ∀ a b c, lt b a = false → lt c b = false → lt c a = false) :
    ∀ (n : Nat) (pre : List α) (x : α) (mid rest : List α) (s : σ), pre.length = n →
      I.Reach s0 s → elems s = pre ++ x :: (mid ++ rest) →
      (pre ++ mid).Pairwise (fun a b => lt b a = false) → (∀ m ∈ mid, lt x m = true) →
      ∃ t sortedPart, insertLoop I 0 n s = some t ∧ I.Reach s0 t ∧
        elems t = sortedPart ++ rest ∧ sortedPart.length = n + 1 + mid.length ∧
        sortedPart.Pairwise (fun a b => lt b a = false) := by
  intro n
  induction n with
  | zero =>
    intro pre x mid rest s hn hr he hp hx
    have hpre : pre = [] := List.length_eq_zero.mp hn
    subst hpre
    refine ⟨s, x :: mid, rfl, hr, by simpa using he, by simp; omega, ?_⟩
    rw [List.pairwise_cons]
    exact ⟨fun m hm => hasym x m (hx m hm), by simpa using hp⟩
  | succ n ih =>
    intro pre x mid rest s hn hr he hp hx
    obtain ⟨pre1, y, rfl⟩ : ∃ pre1 y, pre = pre1 ++ [y] := by
      rcases List.eq_nil_or_concat pre with h | ⟨l, b, h⟩
      · subst h; simp at hn
      · exact ⟨l, b, by simpa using h⟩
    have hn1 : pre1.length = n := by simpa using hn
    obtain ⟨hlen, hless, hswap⟩ := hseq s hr
    have he2 : elems s = pre1 ++ y :: x :: (mid ++ rest) := by simpa using he
    have hgy : (elems s)[n]? = some y := by
      rw [he2, List.getElem?_append_right (by omega)]
      simp [hn1]
    have hgx : (elems s)[n + 1]? = some x := by
      rw [he2, List.getElem?_append_right (by omega)]
      simp [hn1]
    rw [insertLoop, if_pos (Nat.succ_pos n), hless (n + 1) n x y hgx hgy]
    cases hxy : lt x y with
    | true =>
      have hs1 : elems (I.Swap s (n + 1) n) = pre1 ++ x :: ((y :: mid) ++ rest) := by
        rw [hswap (n + 1) n x y hgx hgy, he2, ← hn1]
        exact set_set_adjacent pre1 y x (mid ++ rest)
      have hlt1 : n + 1 < I.Len s := by
        rw [hlen, he2]; simp; omega
      have hr1 : I.Reach s0 (I.Swap s (n + 1) n) :=
        Interface.Reach.swap s0 s (n + 1) n hr hlt1 (by omega)
      obtain ⟨t, sp, h1, h2, h3, h4, h5⟩ := ih pre1 x (y :: mid) rest _ hn1 hr1 hs1
        (by simpa using hp)
        (by
          intro m hm
          rcases List.mem_cons.mp hm with rfl | hm
          · exact hxy
          · exact hx m hm)
      exact ⟨t, sp, h1, h2, h3, by simp at h4 ⊢; omega, h5⟩
    | false =>
      refine ⟨s, pre1 ++ [y] ++ x :: mid, rfl, hr, by simpa using he, by simp; omega, ?_⟩
      rw [List.pairwise_append] at hp ⊢
      obtain ⟨hp1, hp2, hp3⟩ := hp
      refine ⟨hp1, ?_, ?_⟩
      · rw [List.pairwise_cons]
        exact ⟨fun m hm => hasym x m (hx m hm), hp2⟩
      · intro p hp q hq
        rcases List.mem_cons.mp hq with rfl | hq
        · rcases List.mem_append.mp hp with hp | hp
          · have hpy : lt y p = false := by
              rw [List.pairwise_append] at hp1
              exact hp1.2.2 p hp y (by simp)
            exact htrans p y q hpy hxy
          · simp only [List.mem_singleton] at hp
            subst hp
            exact hxy
        · exact hp3 p hp q hq

/-- The outer loop of `insertionSort` on a sequence whose first `i` elements
are in order. -/
theorem insertionSort_loop {σ α : Type} (I : Interface σ) (elems : σ → List α)
    (lt : α → α → Bool) (s0 : σ)
    (hseq : ∀ t, I.Reach s0 t → I.IsSequenceAt elems lt t)
    (hasym : ∀ a b, lt a b = true → lt b a = false)
    (htrans : ∀ a b c, lt b a = false → lt c b = false → lt c a = false) :
    ∀ (k i : Nat) (s : σ) (sortedPart rest : List α), I.Reach s0 s →
      elems s = sortedPart ++ rest → sortedPart.length = i → rest.length = k →
      sortedPart.Pairwise (fun a b => lt b a = false) →
      ∃ t, (List.range' i k).foldlM (fun d j => insertLoop I 0 j d) s = some t ∧
        I.Reach s0 t ∧ (elems t).Pairwise fun a b => lt b a = false := by
  intro k
  induction k with
  | zero =>
    intro i s sp rest hr he _ hk hp
    have : rest = [] := List.length_eq_zero.mp hk
    subst this
    refine ⟨s, rfl, hr, ?_⟩
    rw [he, List.append_nil]
    exact hp
  | succ k ih =>
    intro i s sp rest hr he hi hk hp
    cases rest with
    | nil => simp at hk
    | cons x rest =>
      obtain ⟨t, sp1, h1, h2, h3, h4, h5⟩ :=
        insertLoop_spec I elems lt s0 hseq hasym htrans i sp x [] rest s hi hr
          (by simpa using he) (by simpa using hp) (by simp)
      obtain ⟨u, h6, h7, h8⟩ := ih (i + 1) t sp1 rest h2 h3 (by simpa using h4)
        (by simpa using hk) h5
      refine ⟨u, ?_, h7, h8⟩
      rw [List.range'_succ, List.foldlM_cons, h1]
      exact h6

/-- The routine `insertionSort(data, 0, n)` keeps the contract of `sort.Sort`. -/
theorem sortShort_contract : SortContract sortShort := by
  intro σ α I elems lt s hseq hasym htrans
  have hlen := (hseq s (Interface.Reach.refl s)).1
  cases he : elems s with
  | nil =>
    refine ⟨s, ?_, Interface.Reach.refl s, by simp [he]⟩
    simp [sortShort, insertionSort, hlen, he]
  | cons x rest =>
    obtain ⟨t, h1, h2, h3⟩ := insertionSort_loop I elems lt s hseq hasym htrans rest.length 1 s
      [x] rest (Interface.Reach.refl s) (by simpa using he) rfl rfl (by simp)
    refine ⟨t, ?_, h2, h3⟩
    simpa [sortShort, insertionSort, hlen, he] using h1

end Golang
namespace Dev03

open Dev08 (Str Err Split)
open Golang

/-! ## `sort.Sort` on a `FileHolder` -/

theorem strLess_asymm : ∀ a b : Str, strLess a b = true → strLess b a = false
  | _, [], h => by simp [strLess] at h
  | [], _ :: _, _ => by simp [strLess]
  | a :: as, b :: bs, h => by
    simp only [strLess, Bool.or_eq_true, decide_eq_true_eq, Bool.and_eq_true, beq_iff_eq] at h
    simp only [strLess, Bool.or_eq_false_iff, decide_eq_false_iff_not, not_lt,
      Bool.and_eq_false_imp, beq_iff_eq]
    rcases h with h | ⟨h1, h2⟩
    · exact ⟨by omega, fun e => by omega⟩
    · exact ⟨by omega, fun _ => strLess_asymm as bs h2⟩

/-- The order of strings is transitive: `a <= b` and `b <= c` give `a <= c`. -/
theorem strLess_le_trans : ∀ a b c : Str,
    strLess b a = false → strLess c b = false → strLess c a = false
  | [], _, c, _, _ => by cases c <;> rfl
  | _ :: _, [], _, h, _ => by simp [strLess] at h
  | _ :: _, _ :: _, [], _, h => by simp [strLess] at h
  | a :: as, b :: bs, c :: cs, h1, h2 => by
    simp only [strLess, Bool.or_eq_false_iff, decide_eq_false_iff_not, not_lt,
      Bool.and_eq_false_imp, beq_iff_eq] at h1 h2 ⊢
    refine ⟨by omega, fun e => ?_⟩
    have hab : b.toNat = a.toNat := by omega
    have hcb : c.toNat = b.toNat := by omega
    exact strLess_le_trans as bs cs (h1.2 hab) (h2.2 hcb)

/-- Exchanging two elements of a list rearranges it. -/
theorem set_set_perm {α : Type} [DecidableEq α] (l : List α) (i j : Nat) (a b : α)
    (hi : l[i]? = some a) (hj : l[j]? = some b) : ((l.set i b).set j a).Perm l := by
  obtain ⟨hil, hia⟩ := List.getElem?_eq_some_iff.mp hi
  obtain ⟨hjl, hjb⟩ := List.getElem?_eq_some_iff.mp hj
  have hjl2 : j < (l.set i b).length := by simpa using hjl
  have hjb2 : (l.set i b)[j] = b := by
    by_cases hij : i = j
    · subst hij; simp
    · rw [List.getElem_set_ne hij]; exact hjb
  rw [List.perm_iff_count]
  intro x
  rw [List.count_set _ _ _ _ hjl2, hjb2, List.count_set _ _ _ _ hil, hia]
  have hmem : a ∈ l := hia ▸ List.getElem_mem hil
  have hpos : 0 < l.count a := List.count_pos_iff.mpr hmem
  by_cases hax : a = x
  · subst hax
    by_cases hbx : b = a
    · subst hbx
      simp only [beq_self_eq_true, if_true]
      omega
    · have hb : (b == a) = false := by simpa using hbx
      simp only [beq_self_eq_true, hb, if_true, Bool.false_eq_true, if_false]
      omega
  · have ha : (a == x) = false := by simpa using hax
    by_cases hbx : b = x
    · subst hbx
      simp only [beq_self_eq_true, ha, if_true, Bool.false_eq_true, if_false]
      omega
    · have hb : (b == x) = false := by simpa using hbx
      simp only [ha, hb, Bool.false_eq_true, if_false]
      omega

/-- What `sort.Sort` can leave of a holder: the settings are the same and the
lines are rearranged. -/
theorem Reach_holder (pf : Str → Option Float) (h t : FileHolder)
    (hr : (FileHolder.interface pf).Reach h t) :
    t.columnIndex = h.columnIndex ∧ t.arithmeticValue = h.arithmeticValue ∧
    t.reverseOrder = h.reverseOrder ∧ t.unique = h.unique ∧ t.lines.Perm h.lines := by
  induction hr with
  | refl => exact ⟨rfl, rfl, rfl, rfl, List.Perm.refl _⟩
  | swap u i j _ hi hj ih =>
    obtain ⟨h1, h2, h3, h4, h5⟩ := ih
    have hi2 : i < u.lines.length := hi
    have hj2 : j < u.lines.length := hj
    have hgi := List.getElem?_eq_getElem hi2
    have hgj := List.getElem?_eq_getElem hj2
    have hs : (FileHolder.interface pf).Swap u i j =
        { u with lines := (u.lines.set i u.lines[j]).set j u.lines[i] } := by
      simp [FileHolder.interface, FileHolder.Swap, hgi, hgj]
    rw [hs]
    exact ⟨h1, h2, h3, h4, (set_set_perm u.lines i j _ _ hgi hgj).trans h5⟩

/-- Without `-n` a holder that `sort.Sort` can reach is a sequence of lines that
`Less` compares by their columns, and `Swap` exchanges two lines. -/
theorem interface_isSequence (pf : Str → Option Float) (h t : FileHolder)
    (ha : h.arithmeticValue = false) (hr : (FileHolder.interface pf).Reach h t) :
    (FileHolder.interface pf).IsSequenceAt FileHolder.lines
      (fun a b => if h.reverseOrder then strLess (h.column b) (h.column a)
        else strLess (h.column a) (h.column b)) t := by
  obtain ⟨h1, h2, h3, -, -⟩ := Reach_holder pf h t hr
  have hcol : ∀ l, t.column l = h.column l := by
    intro l
    simp [FileHolder.column, h1]
  refine ⟨rfl, ?_, ?_⟩
  · intro i j a b hi hj
    show t.Less pf i j = _
    simp only [FileHolder.Less, hi, hj]
    rw [lessLines_of_string pf t (h2.trans ha), h3, hcol, hcol]
  · intro i j a b hi hj
    show (t.Swap i j).lines = _
    simp [FileHolder.Swap, hi, hj]

/-- When `sort.Sort` keeps its contract, on a holder without `-n` it returns and
leaves the holder with its lines rearranged into the order of `Less`. -/
theorem Sort_holder (sort : (σ : Type) → Interface σ → σ → Option σ) (hsort : SortContract sort)
    (pf : Str → Option Float) (h : FileHolder) (ha : h.arithmeticValue = false) :
    ∃ sorted : FileHolder, sort FileHolder (FileHolder.interface pf) h = some sorted ∧
      sorted = { h with lines := sorted.lines } ∧ SortResult pf h sorted.lines := by
  obtain ⟨t, h1, h2, h3⟩ := hsort FileHolder Str (FileHolder.interface pf) FileHolder.lines
    (fun a b => if h.reverseOrder then strLess (h.column b) (h.column a)
      else strLess (h.column a) (h.column b)) h
    (fun t hr => interface_isSequence pf h t ha hr)
    (by
      intro a b hab
      cases hr : h.reverseOrder with
      | true =>
        simp only [hr, if_true] at hab ⊢
        exact strLess_asymm _ _ hab
      | false =>
        simp only [hr, Bool.false_eq_true, if_false] at hab ⊢
        exact strLess_asymm _ _ hab)
    (by
      intro a b c hab hbc
      cases hr : h.reverseOrder with
      | true =>
        simp only [hr, if_true] at hab hbc ⊢
        exact strLess_le_trans _ _ _ hbc hab
      | false =>
        simp only [hr, Bool.false_eq_true, if_false] at hab hbc ⊢
        exact strLess_le_trans _ _ _ hab hbc)
  obtain ⟨e1, e2, e3, e4, hperm⟩ := Reach_holder pf h t h2
  refine ⟨t, h1, ?_, hperm, ?_⟩
  · cases t
    cases h
    simp only at e1 e2 e3 e4
    simp [e1, e2, e3, e4]
  · refine h3.imp ?_
    intro a b hab
    rw [lessLines_of_string pf h ha]
    exact congrArg some hab

/-- C16: for every list of lines and every `FileHolder` without `-n` and `-u`,
`sort.Sort`, called with the methods `Len`, `Less` and `Swap` of the holder and
keeping the contract of the library, returns, and what it leaves and
`WriteOutput` then writes is a permutation of the lines, each followed by a
newline, whose keys (the keys are strings, the column of the line) never
decrease, in the byte-wise order of strings, when `reverseOrder` is not set and
never increase when it is set. For the contract to apply, `Swap` has to exchange
two lines and `Less` has to be a transitive ordering of them: both are proved of
the methods. -/
theorem sort_then_write (sort : (σ : Type) → Interface σ → σ → Option σ)
    (hsort : SortContract sort) (pf : Str → Option Float) (h : FileHolder) (w : Writer)
    (ha : h.arithmeticValue = false) (hu : h.unique = false) (hw : ∀ k, w.fail k = none) :
    ∃ sorted : FileHolder, sort FileHolder (FileHolder.interface pf) h = some sorted ∧
      sorted.lines.Perm h.lines ∧
      (sorted.WriteOutput pf w).1.chunks = w.chunks ++ sorted.lines.map (· ++ ['\n']) ∧
      (sorted.WriteOutput pf w).2.2 = none ∧
      (∀ l, sorted.Key pf l = .str (h.column l)) ∧
      sorted.lines.Pairwise (fun a b =>
        if h.reverseOrder then h.column b = h.column a ∨ strLess (h.column b) (h.column a) = true
        else h.column a = h.column b ∨ strLess (h.column a) (h.column b) = true) := by
  obtain ⟨sorted, hrun, heq, hperm, hsorted⟩ := Sort_holder sort hsort pf h ha
  have ha2 : sorted.arithmeticValue = false := by rw [heq]; exact ha
  have hu2 : sorted.unique = false := by rw [heq]; exact hu
  have hkey : ∀ l, sorted.Key pf l = .str (h.column l) := by
    intro l
    rw [heq]
    exact Key_of_string pf h ha l
  obtain ⟨h1, -, h3⟩ := WriteOutput_spec pf sorted ha2 w hw
  refine ⟨sorted, hrun, hperm, ?_, h3, hkey, ?_⟩
  · simpa [hu2] using h1
  · refine hsorted.imp ?_
    intro a b hab
    rw [lessLines_of_string pf h ha] at hab
    cases hr : h.reverseOrder with
    | true =>
      simp only [hr, if_true, Option.some.injEq] at hab
      simpa using strLess_total _ _ hab
    | false =>
      simp only [hr, Bool.false_eq_true, if_false, Option.some.injEq] at hab
      simpa using strLess_total _ _ hab

/-- Witness of C16: the third case of `TestFileHolder` (`-r`), seven lines,
which `sort.Sort` sorts with `insertionSort`. -/
theorem sort_then_write_witness :
    sortShort FileHolder (FileHolder.interface fun _ => none) (testHolder true false) =
      some { testHolder true false with
        lines := ["5 0".toList, "4 2".toList, "3 3".toList, "3 3".toList, "2 5".toList,
          "2 4".toList, "10 1".toList] } ∧
    ∃ sorted : FileHolder,
      sortShort FileHolder (FileHolder.interface fun _ => none) (testHolder true false) =
        some sorted ∧
      sorted.lines.Perm (testHolder true false).lines ∧
      (sorted.WriteOutput (fun _ => none) Writer.buffer).1.chunks =
        Writer.buffer.chunks ++ sorted.lines.map (· ++ ['\n']) :=
  have h := sort_then_write sortShort sortShort_contract (fun _ => none) (testHolder true false)
    Writer.buffer rfl rfl (fun _ => rfl)
  ⟨rfl, h.imp fun _ hs => ⟨hs.1, hs.2.1, hs.2.2.1⟩⟩

end Dev03

/-! # The library of the calendar server -/

namespace Dev11

open Dev08 (Str Err digitsValue TrimSpace)
open Golang

/-! ## `strconv.ParseInt(s, 10, 64)` -/

theorem digitsValue_ge : ∀ (cs : Str) (acc v : Nat), digitsValue acc cs = some v → acc ≤ v := by
  intro cs
  induction cs with
  | nil =>
    intro acc v h
    simp only [digitsValue, Option.some.injEq] at h
    omega
  | cons c cs ih =>
    intro acc v h
    simp only [digitsValue] at h
    split_ifs at h
    have := ih _ _ h
    omega

/-- A decimal digit in `ParseUint`. -/
theorem digitOf_digit (c : Char) (h : '0' ≤ c ∧ c ≤ '9') :
    digitOf c = some (c.toNat - '0'.toNat) ∧ c.toNat - '0'.toNat < 10 := by
  have h1 : 48 ≤ c.toNat := h.1
  have h2 : c.toNat ≤ 57 := h.2
  refine ⟨by simp [digitOf, h], ?_⟩
  show c.toNat - 48 < 10
  omega

/-- A character that is no decimal digit is no digit in base 10. -/
theorem digitOf_other (c : Char) (h : ¬ ('0' ≤ c ∧ c ≤ '9')) :
    digitOf c = none ∨ ∃ d, digitOf c = some d ∧ 10 ≤ d := by
  simp only [digitOf, h, if_false]
  split_ifs
  · exact .inr ⟨_, rfl, by omega⟩
  · exact .inr ⟨_, rfl, by omega⟩
  · exact .inl rfl

/-- One round of the loop of `ParseUint` in base 10 on a decimal digit. -/
theorem parseUintLoop_cons (maxVal n d : Nat) (c : Char) (cs : Str) (hd : digitOf c = some d)
    (hlt : d < 10) :
    parseUintLoop 10 maxVal n (c :: cs) =
      if (2 ^ 64 - 1) / 10 + 1 ≤ n then (maxVal, some .outOfRange)
      else if (n * 10 + d) % 2 ^ 64 < n * 10 ∨ maxVal < (n * 10 + d) % 2 ^ 64 then
        (maxVal, some .outOfRange)
      else parseUintLoop 10 maxVal ((n * 10 + d) % 2 ^ 64) cs := by
  rw [parseUintLoop, hd]
  exact if_neg (by omega)

/-- The loop of `ParseUint` in base 10 with 64 bits reads the digits up to the
largest `uint64`. -/
theorem parseUintLoop_decimal : ∀ (cs : Str) (n : Nat), n < 2 ^ 64 →
    (∀ v, digitsValue n cs = some v →
      parseUintLoop 10 (2 ^ 64 - 1) n cs =
        if v < 2 ^ 64 then (v, none) else (2 ^ 64 - 1, some .outOfRange)) ∧
    (digitsValue n cs = none →
      parseUintLoop 10 (2 ^ 64 - 1) n cs = (0, some .invalidSyntax) ∨
        parseUintLoop 10 (2 ^ 64 - 1) n cs = (2 ^ 64 - 1, some .outOfRange)) := by
  intro cs
  induction cs with
  | nil =>
    intro n hn
    refine ⟨?_, fun h => by cases h⟩
    intro v hv
    simp only [digitsValue, Option.some.injEq] at hv
    subst hv
    rw [if_pos hn, parseUintLoop]
  | cons c cs ih =>
    intro n hn
    by_cases hc : '0' ≤ c ∧ c ≤ '9'
    · obtain ⟨hd, hlt⟩ := digitOf_digit c hc
      have hstep : digitsValue n (c :: cs) = digitsValue (n * 10 + (c.toNat - '0'.toNat)) cs := by
        simp [digitsValue, hc]
      rw [hstep, parseUintLoop_cons _ n _ c cs hd hlt]
      generalize c.toNat - '0'.toNat = d at hd hlt ⊢
      by_cases hcut : (2 ^ 64 - 1) / 10 + 1 ≤ n
      · rw [if_pos hcut]
        refine ⟨?_, fun _ => .inr rfl⟩
        intro v hv
        have := digitsValue_ge cs _ v hv
        rw [if_neg (by omega)]
      · rw [if_neg hcut]
        by_cases hov : 2 ^ 64 ≤ n * 10 + d
        · have hcond : (n * 10 + d) % 2 ^ 64 < n * 10 ∨ 2 ^ 64 - 1 < (n * 10 + d) % 2 ^ 64 := by
            left; omega
          rw [if_pos hcond]
          refine ⟨?_, fun _ => .inr rfl⟩
          intro v hv
          have := digitsValue_ge cs _ v hv
          rw [if_neg (by omega)]
        · have hmod : (n * 10 + d) % 2 ^ 64 = n * 10 + d := Nat.mod_eq_of_lt (by omega)
          have hcond : ¬ ((n * 10 + d) % 2 ^ 64 < n * 10 ∨
              2 ^ 64 - 1 < (n * 10 + d) % 2 ^ 64) := by
            rw [hmod]; omega
          rw [if_neg hcond, hmod]
          exact ih (n * 10 + d) (by omega)
    · have hnone : digitsValue n (c :: cs) = none := by simp [digitsValue, hc]
      rw [hnone]
      refine ⟨fun v hv => (by cases hv), fun _ => .inl ?_⟩
      rcases digitOf_other c hc with h | ⟨d, h, hd⟩
      · rw [parseUintLoop, h]
      · rw [parseUintLoop, h]
        exact if_pos hd

theorem ParseUint_decimal (ds : Str) (hne : ds ≠ []) :
    ParseUint ds 10 64 = parseUintLoop 10 (2 ^ 64 - 1) 0 ds := by
  rw [ParseUint, if_neg hne, if_neg (by omega), if_neg (by omega)]
  rfl

/-- What `ParseInt` does after the sign, on a text that is not a string of
digits: it fails. -/
theorem parseIntRest_fails (neg : Bool) (ds : Str) (h : ds = [] ∨ digitsValue 0 ds = none) :
    (parseIntRest neg ds 10 64).2 ≠ none := by
  by_cases hne : ds = []
  · subst hne
    cases neg <;> exact fun h => nomatch h
  · have hnone : digitsValue 0 ds = none := h.resolve_left hne
    rcases (parseUintLoop_decimal ds 0 (by norm_num)).2 hnone with h1 | h1
    · rw [parseIntRest, ParseUint_decimal ds hne, h1]
      exact fun h => nomatch h
    · rw [parseIntRest, ParseUint_decimal ds hne, h1]
      cases neg <;> exact fun h => nomatch h

/-- What `ParseInt` does after the sign, on a string of digits: the number, when
it is below the bound for its sign. -/
theorem parseIntRest_digits (neg : Bool) (ds : Str) (v : Nat) (hne : ds ≠ [])
    (hv : digitsValue 0 ds = some v) :
    parseIntRest neg ds 10 64 =
      if neg = true then
        (if v ≤ 2 ^ 63 then (-(v : Int), none) else (-2 ^ 63, some .outOfRange))
      else (if v < 2 ^ 63 then ((v : Int), none) else (2 ^ 63 - 1, some .outOfRange)) := by
  have hl := (parseUintLoop_decimal ds 0 (by norm_num)).1 v hv
  by_cases h64 : v < 2 ^ 64
  · rw [if_pos h64] at hl
    have h1 : parseIntRest neg ds 10 64 =
        if neg = false ∧ 2 ^ 63 ≤ v then ((2 ^ 63 - 1 : Int), some NumError.outOfRange)
        else if neg = true ∧ 2 ^ 63 < v then (-2 ^ 63, some .outOfRange)
        else (if neg then wrap (-wrap v) else wrap v, none) := by
      rw [parseIntRest, ParseUint_decimal ds hne, hl]
      rfl
    rw [h1]
    cases neg with
    | false =>
      by_cases h63 : v < 2 ^ 63
      · have hw : wrap (v : Int) = v := by unfold wrap; omega
        rw [if_neg (by simp; omega), if_neg (by simp), if_neg (by simp), if_pos h63]
        simp [hw]
      · rw [if_pos ⟨rfl, by omega⟩, if_neg (by simp), if_neg h63]
    | true =>
      by_cases h63 : v ≤ 2 ^ 63
      · have hw : wrap (-wrap (v : Int)) = -(v : Int) := by
          unfold wrap
          omega
        rw [if_neg (by simp), if_neg (by simp; omega), if_pos rfl, if_pos h63]
        simp [hw]
      · rw [if_neg (by simp), if_pos ⟨rfl, by omega⟩, if_pos rfl, if_neg h63]
  · rw [if_neg h64] at hl
    have h1 : parseIntRest neg ds 10 64 =
        if neg = false ∧ 2 ^ 63 ≤ 2 ^ 64 - 1 then ((2 ^ 63 - 1 : Int), some NumError.outOfRange)
        else if neg = true ∧ 2 ^ 63 < 2 ^ 64 - 1 then (-2 ^ 63, some .outOfRange)
        else (if neg then wrap (-wrap ((2 ^ 64 - 1 : Nat) : Int))
          else wrap ((2 ^ 64 - 1 : Nat) : Int), none) := by
      rw [parseIntRest, ParseUint_decimal ds hne, hl]
      rfl
    rw [h1]
    cases neg with
    | false => rw [if_pos ⟨rfl, by norm_num⟩, if_neg (by simp), if_neg (by omega)]
    | true =>
      rw [if_neg (by simp), if_pos ⟨rfl, by norm_num⟩, if_pos rfl, if_neg (by omega)]

/-- What `ParseInt` does after the sign: it succeeds exactly on a string of
digits whose number, with the sign, is in the range of `int64`, and returns that
number. -/
theorem parseIntRest_spec (neg : Bool) (ds : Str) :
    (∀ v : Int, (if ds = [] then none
        else (digitsValue 0 ds).map fun (n : Nat) => if neg = true then -(n : Int) else (n : Int)) = some v →
      -2 ^ 63 ≤ v → v < 2 ^ 63 → parseIntRest neg ds 10 64 = (v, none)) ∧
    ((parseIntRest neg ds 10 64).2 = none →
      ∃ v : Int, (if ds = [] then none
        else (digitsValue 0 ds).map fun (n : Nat) => if neg = true then -(n : Int) else (n : Int)) = some v ∧
        -2 ^ 63 ≤ v ∧ v < 2 ^ 63) := by
  by_cases hne : ds = []
  · refine ⟨fun v hv => ?_, fun h => absurd h (parseIntRest_fails neg ds (.inl hne))⟩
    rw [if_pos hne] at hv
    cases hv
  · rw [if_neg hne]
    cases hd : digitsValue 0 ds with
    | none =>
      refine ⟨fun v hv => (by cases hv), fun h => absurd h (parseIntRest_fails neg ds (.inr hd))⟩
    | some n =>
      have hr := parseIntRest_digits neg ds n hne hd
      simp only [Option.map_some', Option.some.injEq]
      cases neg with
      | false =>
        simp only [Bool.false_eq_true, if_false] at hr ⊢
        constructor
        · intro v hv _ h2
          subst hv
          rw [hr, if_pos (by omega)]
        · intro h
          by_cases h63 : n < 2 ^ 63
          · exact ⟨n, rfl, by omega, by omega⟩
          · rw [hr, if_neg h63] at h
            cases h
      | true =>
        simp only [if_true] at hr ⊢
        constructor
        · intro v hv h1 _
          subst hv
          rw [hr, if_pos (by omega)]
        · intro h
          by_cases h63 : n ≤ 2 ^ 63
          · exact ⟨-(n : Int), rfl, by omega, by omega⟩
          · rw [hr, if_neg h63] at h
            cases h

theorem ParseInt_other (c : Char) (rest : Str) (base bitSize : Nat) (h1 : c ≠ '+')
    (h2 : c ≠ '-') : ParseInt (c :: rest) base bitSize = parseIntRest false (c :: rest) base bitSize := by
  unfold ParseInt
  split
  · rename_i heq; cases heq
  · rename_i heq; exact absurd (List.cons.inj heq).1 h1
  · rename_i heq; exact absurd (List.cons.inj heq).1 h2
  · rename_i heq
    obtain ⟨rfl, rfl⟩ := List.cons.inj heq
    rfl

theorem decimalValue_other (c : Char) (rest : Str) (h1 : c ≠ '+') (h2 : c ≠ '-') :
    decimalValue (c :: rest) = (digitsValue 0 (c :: rest)).map fun (n : Nat) => (n : Int) := by
  unfold decimalValue
  split
  · rename_i heq; cases heq
  · rename_i heq; exact absurd (List.cons.inj heq).1 h2
  · rename_i heq; exact absurd (List.cons.inj heq).1 h1
  · rename_i heq
    obtain ⟨rfl, rfl⟩ := List.cons.inj heq
    rfl

/-- `strconv.ParseInt(s, 10, 64)` succeeds exactly on the strings that write an
integer of the range of `int64` in base 10, and returns that integer. -/
theorem ParseInt_decimal (s : Str) :
    (∀ v : Int, decimalValue s = some v → -2 ^ 63 ≤ v → v < 2 ^ 63 →
      ParseInt s 10 64 = (v, none)) ∧
    ((ParseInt s 10 64).2 = none →
      ∃ v : Int, decimalValue s = some v ∧ -2 ^ 63 ≤ v ∧ v < 2 ^ 63) := by
  cases s with
  | nil => exact ⟨fun v hv => (by cases hv), fun h => (by cases h)⟩
  | cons c rest =>
    by_cases hp : c = '+'
    · subst hp
      have h := parseIntRest_spec false rest
      simp only [Bool.false_eq_true, if_false] at h
      exact h
    · by_cases hm : c = '-'
      · subst hm
        have h := parseIntRest_spec true rest
        simp only [if_true] at h
        exact h
      · have h := parseIntRest_spec false (c :: rest)
        simp only [Bool.false_eq_true, if_false, if_neg (List.cons_ne_nil c rest)] at h
        rw [ParseInt_other c rest 10 64 hp hm, decimalValue_other c rest hp hm]
        exact h

/-! ## `time.Parse(dateFormat, s)` -/

theorem layoutElems_dateFormat :
    layoutElems dateFormat =
      [.stdLongYear, .text '-', .stdZeroMonth, .text '-', .stdZeroDay] := by
  rfl

/-- The number a string of digits writes has at most as many digits. -/
theorem digitsValue_lt : ∀ (cs : Str) (acc v : Nat), digitsValue acc cs = some v →
    v < (acc + 1) * 10 ^ cs.length := by
  intro cs
  induction cs with
  | nil =>
    intro acc v h
    simp only [digitsValue, Option.some.injEq] at h
    simp
    omega
  | cons c cs ih =>
    intro acc v h
    simp only [digitsValue] at h
    split_ifs at h with hc
    have h2 : c.toNat ≤ 57 := hc.2
    have := ih _ _ h
    have hd : c.toNat - '0'.toNat ≤ 9 := by
      show c.toNat - 48 ≤ 9
      omega
    calc v < (acc * 10 + (c.toNat - '0'.toNat) + 1) * 10 ^ cs.length := this
      _ ≤ ((acc + 1) * 10) * 10 ^ cs.length := Nat.mul_le_mul_right _ (by omega)
      _ = (acc + 1) * 10 ^ (c :: cs).length := by
        rw [List.length_cons, pow_succ]; ring

/-- On a string of digits `leadingInt` gives the number they write. -/
theorem leadingInt_digits : ∀ (cs : Str) (acc v : Nat), digitsValue acc cs = some v →
    v ≤ 2 ^ 63 → leadingInt acc cs = some (v, []) := by
  intro cs
  induction cs with
  | nil =>
    intro acc v h _
    simp only [digitsValue, Option.some.injEq] at h
    subst h
    rfl
  | cons c cs ih =>
    intro acc v h hv
    simp only [digitsValue] at h
    split_ifs at h with hc
    have h1 : 48 ≤ c.toNat := hc.1
    have h2 : c.toNat ≤ 57 := hc.2
    have hge := digitsValue_ge cs _ v h
    have hn1 : ¬ (c < '0' ∨ '9' < c) := by
      rintro (h3 | h3)
      · have : c.toNat < 48 := h3
        omega
      · have : 57 < c.toNat := h3
        omega
    rw [leadingInt, if_neg hn1, if_neg (by omega), if_neg (by omega)]
    exact ih _ v h hv

/-- On a string that has a character that is no digit, `leadingInt` fails or
leaves a rest. -/
theorem leadingInt_rest : ∀ (cs : Str) (acc : Nat), digitsValue acc cs = none →
    ∀ q rem, leadingInt acc cs = some (q, rem) → rem ≠ [] := by
  intro cs
  induction cs with
  | nil =>
    intro acc h
    simp [digitsValue] at h
  | cons c cs ih =>
    intro acc h q rem hl
    rw [leadingInt] at hl
    split_ifs at hl with h1 h2 h3
    · cases hl
      exact List.cons_ne_nil _ _
    · have hc : '0' ≤ c ∧ c ≤ '9' := by
        constructor
        · show 48 ≤ c.toNat
          have : ¬ c.toNat < 48 := fun h => h1 (.inl h)
          omega
        · show c.toNat ≤ 57
          have : ¬ 57 < c.toNat := fun h => h1 (.inr h)
          omega
      simp only [digitsValue, hc, and_self, if_true] at h
      exact ih _ h q rem hl

/-- `atoi` of package `time` on a text that starts with a digit. -/
theorem atoi_digit (c : Char) (cs : Str) (hc : '0' ≤ c ∧ c ≤ '9') :
    atoi (c :: cs) =
      match digitsValue 0 (c :: cs) with
      | none => none
      | some v => if v < 2 ^ 63 then some (v : Int) else atoi (c :: cs) := by
  have h1 : 48 ≤ c.toNat := hc.1
  have h2 : c.toNat ≤ 57 := hc.2
  have hm : c ≠ '-' := by rintro rfl; exact absurd h1 (by decide)
  have hp : c ≠ '+' := by rintro rfl; exact absurd h1 (by decide)
  have hs : (if (c :: cs).head? = some '-' ∨ (c :: cs).head? = some '+' then (c :: cs).tail
      else c :: cs) = c :: cs := by
    simp [hm, hp]
  cases hd : digitsValue 0 (c :: cs) with
  | none =>
    show atoi (c :: cs) = none
    rw [atoi, hs]
    cases hl : leadingInt 0 (c :: cs) with
    | none => rfl
    | some p =>
      obtain ⟨q, rem⟩ := p
      have := leadingInt_rest (c :: cs) 0 hd q rem hl
      simp [this]
  | some v =>
    show atoi (c :: cs) = if v < 2 ^ 63 then some (v : Int) else atoi (c :: cs)
    by_cases hv : v < 2 ^ 63
    · rw [if_pos hv, atoi, hs, leadingInt_digits (c :: cs) 0 v hd (by omega)]
      have hw : wrap (v : Int) = v := by unfold wrap; omega
      simp [hm, hw]
    · rw [if_neg hv]

/-- The year of `time.Parse`: four characters, all digits. -/
theorem parseElems_year (rest : List Elem) (y1 y2 y3 y4 : Char) (value : Str) (f : Fields) :
    parseElems (.stdLongYear :: rest) (y1 :: y2 :: y3 :: y4 :: value) f =
      match digitsValue 0 [y1, y2, y3, y4] with
      | none => .error .bad
      | some y => parseElems rest value { f with year := (y : Int) } := by
  by_cases hc : '0' ≤ y1 ∧ y1 ≤ '9'
  · have hdig : isDigit (y1 :: y2 :: y3 :: y4 :: value) 0 = true := by
      simp [isDigit, hc]
    have hcond : ¬ ((y1 :: y2 :: y3 :: y4 :: value).length < 4 ∨
        isDigit (y1 :: y2 :: y3 :: y4 :: value) 0 = false) := by
      rw [hdig]
      simp
    have hat := atoi_digit y1 [y2, y3, y4] hc
    rw [parseElems, if_neg hcond]
    show (match atoi [y1, y2, y3, y4] with
      | none => Except.error ParseError.bad
      | some year => parseElems rest value { f with year := year }) = _
    cases hd : digitsValue 0 [y1, y2, y3, y4] with
    | none =>
      rw [hd] at hat
      rw [hat]
    | some y =>
      have hlt := digitsValue_lt _ _ _ hd
      simp only [List.length_cons, List.length_nil] at hlt
      rw [hd] at hat
      have hat2 : atoi [y1, y2, y3, y4] = some (y : Int) := by
        rw [hat]
        exact if_pos (by omega)
      rw [hat2]
  · have hdig : isDigit (y1 :: y2 :: y3 :: y4 :: value) 0 = false := by
      simp only [isDigit, List.getElem?_cons_zero, decide_eq_false_iff_not]
      exact hc
    have hd : digitsValue 0 [y1, y2, y3, y4] = none := by
      simp [digitsValue, hc]
    rw [parseElems, if_pos (.inr hdig), hd]

/-- `getnum(s, true)` on a text of two characters or more: both have to be
digits. -/
theorem getnum_fixed (c1 c2 : Char) (value : Str) :
    getnum (c1 :: c2 :: value) true =
      (digitsValue 0 [c1, c2]).map fun (n : Nat) => ((n : Int), value) := by
  by_cases h1 : '0' ≤ c1 ∧ c1 ≤ '9'
  · by_cases h2 : '0' ≤ c2 ∧ c2 ≤ '9'
    · have hd1 : isDigit (c1 :: c2 :: value) 0 = true := by simp [isDigit, h1]
      have hd2 : isDigit (c1 :: c2 :: value) 1 = true := by simp [isDigit, h2]
      rw [getnum, hd1, hd2]
      simp [digitsValue, h1, h2]
    · have hd1 : isDigit (c1 :: c2 :: value) 0 = true := by simp [isDigit, h1]
      have hd2 : isDigit (c1 :: c2 :: value) 1 = false := by
        simp only [isDigit, List.getElem?_cons_succ, List.getElem?_cons_zero,
          decide_eq_false_iff_not]
        exact h2
      rw [getnum, hd1, hd2]
      simp [digitsValue, h1, h2]
  · have hd1 : isDigit (c1 :: c2 :: value) 0 = false := by
      simp only [isDigit, List.getElem?_cons_zero, decide_eq_false_iff_not]
      exact h1
    rw [getnum, hd1]
    simp [digitsValue, h1]

/-- `getnum(s, true)` takes two characters off. -/
theorem getnum_length (value value1 : Str) (n : Int) (h : getnum value true = some (n, value1)) :
    value.length = value1.length + 2 := by
  match value with
  | [] => simp [getnum, isDigit] at h
  | [c] =>
    rw [getnum] at h
    by_cases h0 : isDigit [c] 0 = false
    · rw [if_pos h0] at h
      cases h
    · rw [if_neg h0, if_pos (by simp [isDigit])] at h
      simp at h
  | c1 :: c2 :: rest =>
    rw [getnum_fixed] at h
    cases hd : digitsValue 0 [c1, c2] with
    | none => rw [hd] at h; cases h
    | some m =>
      rw [hd] at h
      simp only [Option.map_some', Option.some.injEq, Prod.mk.injEq] at h
      rw [← h.2]
      simp

/-- The number of characters an element of the layout stands for. -/
theorem parseElems_length : ∀ (elems : List Elem) (value : Str) (f g : Fields),
    parseElems elems value f = .ok g →
      value.length = (elems.map fun e => if e = .stdLongYear then 4
        else if e = .stdZeroMonth ∨ e = .stdZeroDay then 2 else 1).sum := by
  intro elems
  induction elems with
  | nil =>
    intro value f g h
    rw [parseElems] at h
    split_ifs at h with hv
    simp only [ne_eq, not_not] at hv
    simp [hv]
  | cons e rest ih =>
    intro value f g h
    cases e with
    | stdLongYear =>
      rw [parseElems] at h
      split_ifs at h with hc
      cases ha : atoi (value.take 4) with
      | none => rw [ha] at h; cases h
      | some y =>
        rw [ha] at h
        have := ih _ _ _ h
        simp only [List.length_drop] at this
        simp only [List.map_cons, List.sum_cons, if_true, ← this]
        omega
    | stdZeroMonth =>
      rw [parseElems] at h
      cases hg : getnum value true with
      | none => rw [hg] at h; cases h
      | some p =>
        obtain ⟨m, value1⟩ := p
        rw [hg] at h
        simp only at h
        split_ifs at h
        have := ih _ _ _ h
        have hl := getnum_length value value1 m hg
        simp [← this, hl]
        omega
    | stdZeroDay =>
      rw [parseElems] at h
      cases hg : getnum value true with
      | none => rw [hg] at h; cases h
      | some p =>
        obtain ⟨m, value1⟩ := p
        rw [hg] at h
        simp only at h
        have := ih _ _ _ h
        have hl := getnum_length value value1 m hg
        simp [← this, hl]
        omega
    | text c =>
      cases value with
      | nil => rw [parseElems] at h; cases h
      | cons v vs =>
        rw [parseElems] at h
        split_ifs at h
        have := ih _ _ _ h
        simp [← this]
        omega

theorem parseElems_text (rest : List Elem) (c v : Char) (vs : Str) (f : Fields) :
    parseElems (.text c :: rest) (v :: vs) f =
      if v = c then parseElems rest vs f else .error .bad := by
  rw [parseElems]

/-- The month of `time.Parse`: two digits that write a number from 1 to 12. -/
theorem parseElems_month (rest : List Elem) (m1 m2 : Char) (value : Str) (f : Fields) :
    parseElems (.stdZeroMonth :: rest) (m1 :: m2 :: value) f =
      match digitsValue 0 [m1, m2] with
      | none => .error .bad
      | some m =>
        if 1 ≤ m ∧ m ≤ 12 then parseElems rest value { f with month := (m : Int) }
        else .error .monthOutOfRange := by
  rw [parseElems, getnum_fixed]
  cases hd : digitsValue 0 [m1, m2] with
  | none => rfl
  | some m =>
    simp only [Option.map_some']
    by_cases hr : 1 ≤ m ∧ m ≤ 12
    · rw [if_neg (by omega), if_pos hr]
    · rw [if_pos (by omega), if_neg hr]

/-- The day of `time.Parse`: two digits. -/
theorem parseElems_day (rest : List Elem) (d1 d2 : Char) (value : Str) (f : Fields) :
    parseElems (.stdZeroDay :: rest) (d1 :: d2 :: value) f =
      match digitsValue 0 [d1, d2] with
      | none => .error .bad
      | some d => parseElems rest value { f with day := (d : Int) } := by
  rw [parseElems, getnum_fixed]
  cases hd : digitsValue 0 [d1, d2] with
  | none => rfl
  | some d => rfl

/-- The days of a month as package `time` counts them. -/
theorem daysIn_eq (y m : Nat) (h1 : 1 ≤ m) (h2 : m ≤ 12) :
    daysIn (m : Int) (y : Int) = (monthLength y m : Int) := by
  have hleap : (isLeap (y : Int) = true) ↔ (y % 4 = 0 ∧ (y % 100 ≠ 0 ∨ y % 400 = 0)) := by
    simp only [isLeap, Bool.and_eq_true, Bool.or_eq_true, decide_eq_true_eq, ne_eq]
    omega
  interval_cases m
  all_goals simp only [daysIn, monthLength]
  all_goals
    by_cases hl : y % 4 = 0 ∧ (y % 100 ≠ 0 ∨ y % 400 = 0)
    · have := hleap.mpr hl
      simp [this, hl]
    · have : ¬ isLeap (y : Int) = true := fun h => hl (hleap.mp h)
      simp [this, hl]

theorem dateOf_ten (y1 y2 y3 y4 s1 m1 m2 s2 d1 d2 : Char) :
    dateOf [y1, y2, y3, y4, s1, m1, m2, s2, d1, d2] =
      if s1 = '-' ∧ s2 = '-' then
        match digitsValue 0 [y1, y2, y3, y4], digitsValue 0 [m1, m2], digitsValue 0 [d1, d2] with
        | some y, some m, some d =>
          if 1 ≤ m ∧ m ≤ 12 ∧ 1 ≤ d ∧ d ≤ monthLength y m then some (y, m, d) else none
        | _, _, _ => none
      else none := by
  rfl

theorem dateOf_length (s : Str) (x : Nat × Nat × Nat) (h : dateOf s = some x) :
    s.length = 10 := by
  unfold dateOf at h
  split at h
  · rfl
  · cases h

/-- `time.Parse(dateFormat, s)` on a text of ten characters. -/
theorem Parse_ten (y1 y2 y3 y4 s1 m1 m2 s2 d1 d2 : Char) :
    Parse dateFormat [y1, y2, y3, y4, s1, m1, m2, s2, d1, d2] =
      match digitsValue 0 [y1, y2, y3, y4] with
      | none => (Time.zero, some .bad)
      | some y =>
        if s1 = '-' then
          match digitsValue 0 [m1, m2] with
          | none => (Time.zero, some .bad)
          | some m =>
            if 1 ≤ m ∧ m ≤ 12 then
              if s2 = '-' then
                match digitsValue 0 [d1, d2] with
                | none => (Time.zero, some .bad)
                | some d =>
                  if 1 ≤ d ∧ d ≤ monthLength y m then (Date y m d 0 0 0 0, none)
                  else (Time.zero, some .dayOutOfRange)
              else (Time.zero, some .bad)
            else (Time.zero, some .monthOutOfRange)
        else (Time.zero, some .bad) := by
  rw [Parse, layoutElems_dateFormat, parseElems_year]
  cases hy : digitsValue 0 [y1, y2, y3, y4] with
  | none => rfl
  | some y =>
    simp only [parseElems_text]
    by_cases hs1 : s1 = '-'
    · rw [if_pos hs1, if_pos hs1, parseElems_month]
      cases hm : digitsValue 0 [m1, m2] with
      | none => rfl
      | some m =>
        simp only [parseElems_text]
        by_cases hmr : 1 ≤ m ∧ m ≤ 12
        · rw [if_pos hmr, if_pos hmr]
          by_cases hs2 : s2 = '-'
          · rw [if_pos hs2, if_pos hs2, parseElems_day]
            cases hd : digitsValue 0 [d1, d2] with
            | none => rfl
            | some d =>
              have hdays := daysIn_eq y m hmr.1 hmr.2
              have hm0 : ¬ ((m : Int) < 0) := by omega
              have hd0 : ¬ ((d : Int) < 0) := by omega
              simp only [parseElems, ne_eq, not_true_eq_false, if_false, hm0, hd0, hdays]
              by_cases hdr : 1 ≤ d ∧ d ≤ monthLength y m
              · rw [if_neg (by omega), if_pos hdr]
              · rw [if_pos (by omega), if_neg hdr]
          · rw [if_neg hs2, if_neg hs2]
        · rw [if_neg hmr, if_neg hmr]
    · rw [if_neg hs1, if_neg hs1]

/-- `time.Parse(dateFormat, s)` succeeds exactly on the strings that write a date
in the format `YYYY-MM-DD`, and returns the start of that day in UTC; when it
fails it returns the zero time. -/
theorem Parse_date (s : Str) :
    (∀ y m d, dateOf s = some (y, m, d) →
      Parse dateFormat s = (Date y m d 0 0 0 0, none)) ∧
    (dateOf s = none → (Parse dateFormat s).1 = Time.zero ∧ (Parse dateFormat s).2 ≠ none) := by
  by_cases hlen : s.length = 10
  · match s, hlen with
    | [y1, y2, y3, y4, s1, m1, m2, s2, d1, d2], _ =>
      rw [dateOf_ten, Parse_ten]
      by_cases hs1 : s1 = '-'
      · by_cases hs2 : s2 = '-'
        · cases digitsValue 0 [y1, y2, y3, y4] with
          | none => simp [hs1, hs2]
          | some y =>
            cases digitsValue 0 [m1, m2] with
            | none => simp [hs1, hs2]
            | some m =>
              cases digitsValue 0 [d1, d2] with
              | none =>
                by_cases hmr : 1 ≤ m ∧ m ≤ 12
                · simp [hs1, hs2, hmr]
                · simp [hs1, hs2, hmr]
              | some d =>
                by_cases hmr : 1 ≤ m ∧ m ≤ 12
                · by_cases hdr : 1 ≤ d ∧ d ≤ monthLength y m
                  · have hall : 1 ≤ m ∧ m ≤ 12 ∧ 1 ≤ d ∧ d ≤ monthLength y m :=
                      ⟨hmr.1, hmr.2, hdr.1, hdr.2⟩
                    simp only [hs1, hs2, and_self, if_true, if_pos hmr, if_pos hdr, if_pos hall]
                    refine ⟨fun _ _ _ h => ?_, fun h => (by cases h)⟩
                    cases h
                    rfl
                  · simp [hs1, hs2, hmr, hdr]
                · simp only [hs1, hs2, and_self, if_true, if_neg hmr]
                  refine ⟨fun _ _ _ h => ?_, fun _ => ⟨trivial, fun h => nomatch h⟩⟩
                  split_ifs at h with h3
                  exact absurd ⟨h3.1, h3.2.1⟩ hmr
        · cases digitsValue 0 [y1, y2, y3, y4] with
          | none => simp [hs1, hs2]
          | some y =>
            cases digitsValue 0 [m1, m2] with
            | none => simp [hs1, hs2]
            | some m =>
              by_cases hmr : 1 ≤ m ∧ m ≤ 12
              · simp [hs1, hs2, hmr]
              · simp [hs1, hs2, hmr]
      · cases digitsValue 0 [y1, y2, y3, y4] with
        | none => simp [hs1]
        | some y => simp [hs1]
  · have hnone : dateOf s = none := by
      cases h : dateOf s with
      | none => rfl
      | some x => exact absurd (dateOf_length s x h) hlen
    refine ⟨fun y m d h => ?_, fun _ => ?_⟩
    · rw [hnone] at h
      cases h
    · rw [Parse, layoutElems_dateFormat]
      cases hp : parseElems [.stdLongYear, .text '-', .stdZeroMonth, .text '-', .stdZeroDay] s
          { year := 0, month := -1, day := -1 } with
      | error e => exact ⟨rfl, fun h => nomatch h⟩
      | ok g =>
        have := parseElems_length _ _ _ _ hp
        simp at this
        exact absurd this hlen

/-! ## The requests read with `strconv.ParseInt` and `time.Parse` -/

theorem goStd_ParseInt (intMessage : Str → NumError → Err)
    (timeMessage : Str → ParseError → Err) (format : Time → Str) (s : Str) :
    ((goStd intMessage timeMessage format).ParseInt s).1 = (ParseInt s 10 64).1 ∧
    (((goStd intMessage timeMessage format).ParseInt s).2 = none ↔
      (ParseInt s 10 64).2 = none) := by
  show (match ParseInt s 10 64 with
      | (v, none) => (v, none)
      | (v, some e) => (v, some (intMessage s e))).1 = _ ∧
    ((match ParseInt s 10 64 with
      | (v, none) => (v, none)
      | (v, some e) => (v, some (intMessage s e))).2 = none ↔ _)
  rcases ParseInt s 10 64 with ⟨v, _ | e⟩ <;> simp

theorem goStd_Parse (intMessage : Str → NumError → Err)
    (timeMessage : Str → ParseError → Err) (format : Time → Str) (s : Str) :
    ((goStd intMessage timeMessage format).Parse s).1 = (Parse dateFormat s).1 ∧
    (((goStd intMessage timeMessage format).Parse s).2 = none ↔
      (Parse dateFormat s).2 = none) := by
  show (match Parse dateFormat s with
      | (t, none) => (t, none)
      | (t, some e) => (t, some (timeMessage s e))).1 = _ ∧
    ((match Parse dateFormat s with
      | (t, none) => (t, none)
      | (t, some e) => (t, some (timeMessage s e))).2 = none ↔ _)
  rcases Parse dateFormat s with ⟨t, _ | e⟩ <;> simp

/-- With the library as modelled, `ParseInt` refuses the `id` parameter exactly
when it does not write an integer of the range of `int64` in base 10. -/
theorem goStd_ParseInt_fails (intMessage : Str → NumError → Err)
    (timeMessage : Str → ParseError → Err) (format : Time → Str) (s : Str) :
    ((goStd intMessage timeMessage format).ParseInt s).2 ≠ none ↔
      ¬ ∃ v : Int, decimalValue s = some v ∧ -2 ^ 63 ≤ v ∧ v < 2 ^ 63 := by
  rw [Ne, (goStd_ParseInt intMessage timeMessage format s).2]
  constructor
  · rintro h ⟨v, h1, h2, h3⟩
    rw [(ParseInt_decimal s).1 v h1 h2 h3] at h
    exact h rfl
  · intro h h1
    exact h ((ParseInt_decimal s).2 h1)

/-- With the library as modelled, `Parse` refuses the `date` parameter exactly
when it does not write a date in the format `YYYY-MM-DD`. -/
theorem goStd_Parse_fails (intMessage : Str → NumError → Err)
    (timeMessage : Str → ParseError → Err) (format : Time → Str) (s : Str) :
    ((goStd intMessage timeMessage format).Parse s).2 ≠ none ↔ dateOf s = none := by
  rw [Ne, (goStd_Parse intMessage timeMessage format s).2]
  constructor
  · intro h
    cases hd : dateOf s with
    | none => rfl
    | some x =>
      obtain ⟨y, m, d⟩ := x
      rw [(Parse_date s).1 y m d hd] at h
      exact absurd rfl h
  · intro h
    exact ((Parse_date s).2 h).2

/-- The library as modelled on some texts: the last day of February, a month
and a day of one digit, and the ends of the range of `int64`. -/
theorem Parse_examples :
    Parse dateFormat "2019-09-09".toList = (Date 2019 9 9 0 0 0 0, none) ∧
    (Parse dateFormat "2020-02-29".toList).2 = none ∧
    Parse dateFormat "2019-02-29".toList = (Time.zero, some .dayOutOfRange) ∧
    Parse dateFormat "2019-13-01".toList = (Time.zero, some .monthOutOfRange) ∧
    Parse dateFormat "2019-9-9".toList = (Time.zero, some .bad) ∧
    Parse dateFormat "2019-09-09 ".toList = (Time.zero, some .extraText) ∧
    ParseInt "-9223372036854775808".toList 10 64 = (-9223372036854775808, none) ∧
    ParseInt "9223372036854775808".toList 10 64 = (9223372036854775807, some .outOfRange) ∧
    ParseInt "+7".toList 10 64 = (7, none) ∧
    ParseInt "7a".toList 10 64 = (0, some .invalidSyntax) ∧
    ParseInt "".toList 10 64 = (0, some .invalidSyntax) :=
  ⟨rfl, rfl, rfl, rfl, rfl, rfl, rfl, rfl, rfl, rfl, rfl⟩

/-- C30: with `strconv.ParseInt(s, 10, 64)` and `time.Parse("2006-01-02", s)`
as the library has them, `IdRequest.Parse` fails if and only if the `id`
parameter does not write an integer of the range of `int64` in base 10 (an
optional sign and decimal digits), `EventRequest.Parse` fails if and only if the
`date` parameter does not write a date of the calendar in the format
`YYYY-MM-DD` or the `name` parameter is empty once trimmed, and
`EventRequestWithId.Parse` fails if and only if one of the two does; every
failure is an `ErrorResponse` with the status 400; on success the integer, the
start of the day in UTC and the trimmed name are in the request. -/
theorem Parse_spec (intMessage : Str → NumError → Err)
    (timeMessage : Str → ParseError → Err) (format : Time → Str) (values : Values)
    (r : IdRequest) (e : EventRequest) (w : EventRequestWithId) :
    (((r.Parse (goStd intMessage timeMessage format) values).2 ≠ none ↔
        ¬ ∃ v : Int, decimalValue (values.Get "id") = some v ∧ -2 ^ 63 ≤ v ∧ v < 2 ^ 63) ∧
      (∀ err, (r.Parse (goStd intMessage timeMessage format) values).2 = some err →
        ∃ message, err = .response { code := 400, Message := message }) ∧
      (∀ v : Int, decimalValue (values.Get "id") = some v → -2 ^ 63 ≤ v → v < 2 ^ 63 →
        r.Parse (goStd intMessage timeMessage format) values = ({ ID := v }, none))) ∧
    (((e.Parse (goStd intMessage timeMessage format) values).2 ≠ none ↔
        dateOf (values.Get "date") = none ∨ TrimSpace (values.Get "name") = []) ∧
      (∀ err, (e.Parse (goStd intMessage timeMessage format) values).2 = some err →
        ∃ message, err = .response { code := 400, Message := message }) ∧
      (∀ y m d : Nat, dateOf (values.Get "date") = some (y, m, d) →
        TrimSpace (values.Get "name") ≠ [] →
        e.Parse (goStd intMessage timeMessage format) values =
          ({ Name := TrimSpace (values.Get "name"), Date := Date y m d 0 0 0 0 }, none))) ∧
    (((w.Parse (goStd intMessage timeMessage format) values).2 ≠ none ↔
        (¬ ∃ v : Int, decimalValue (values.Get "id") = some v ∧ -2 ^ 63 ≤ v ∧ v < 2 ^ 63) ∨
          dateOf (values.Get "date") = none ∨ TrimSpace (values.Get "name") = []) ∧
      (∀ err, (w.Parse (goStd intMessage timeMessage format) values).2 = some err →
        ∃ message, err = .response { code := 400, Message := message }) ∧
      (∀ (v : Int) (y m d : Nat), decimalValue (values.Get "id") = some v → -2 ^ 63 ≤ v →
        v < 2 ^ 63 → dateOf (values.Get "date") = some (y, m, d) →
        TrimSpace (values.Get "name") ≠ [] →
        w.Parse (goStd intMessage timeMessage format) values =
          ({ IdRequest := { ID := v },
             EventRequest := { Name := TrimSpace (values.Get "name"),
                               Date := Date y m d 0 0 0 0 } }, none))) := by
  obtain ⟨⟨h1, h2, -⟩, ⟨h4, h5, -⟩, ⟨h7, h8, -⟩⟩ :=
    Parse_std (goStd intMessage timeMessage format) values r e w
  have hint := goStd_ParseInt_fails intMessage timeMessage format (values.Get "id")
  have hdate := goStd_Parse_fails intMessage timeMessage format (values.Get "date")
  have hid : ∀ v : Int, decimalValue (values.Get "id") = some v → -2 ^ 63 ≤ v → v < 2 ^ 63 →
      ((goStd intMessage timeMessage format).ParseInt (values.Get "id")).2 = none ∧
      ((goStd intMessage timeMessage format).ParseInt (values.Get "id")).1 = v := by
    intro v hv hlo hhi
    have hp := (ParseInt_decimal (values.Get "id")).1 v hv hlo hhi
    obtain ⟨g1, g2⟩ := goStd_ParseInt intMessage timeMessage format (values.Get "id")
    exact ⟨g2.mpr (by rw [hp]), by rw [g1, hp]⟩
  have hdt : ∀ y m d : Nat, dateOf (values.Get "date") = some (y, m, d) →
      ((goStd intMessage timeMessage format).Parse (values.Get "date")).2 = none ∧
      ((goStd intMessage timeMessage format).Parse (values.Get "date")).1 =
        Date y m d 0 0 0 0 := by
    intro y m d hd
    have hp := (Parse_date (values.Get "date")).1 y m d hd
    obtain ⟨g1, g2⟩ := goStd_Parse intMessage timeMessage format (values.Get "date")
    exact ⟨g2.mpr (by rw [hp]), by rw [g1, hp]⟩
  refine ⟨⟨h1.trans hint, h2, ?_⟩, ⟨?_, h5, ?_⟩, ⟨?_, h8, ?_⟩⟩
  · intro v hv hlo hhi
    obtain ⟨g1, g2⟩ := hid v hv hlo hhi
    rw [IdRequest_Parse_ok _ r values g1, g2]
  · rw [h4, hdate]
  · intro y m d hd hn
    obtain ⟨g1, g2⟩ := hdt y m d hd
    rw [EventRequest_Parse_ok _ e values g1 hn, g2]
  · rw [h7, hint, hdate]
  · intro v y m d hv hlo hhi hd hn
    obtain ⟨g1, g2⟩ := hid v hv hlo hhi
    obtain ⟨g3, g4⟩ := hdt y m d hd
    unfold EventRequestWithId.Parse
    rw [IdRequest_Parse_ok _ w.IdRequest values g1, g2,
      EventRequest_Parse_ok _ w.EventRequest values g3 hn, g4]

end Dev11
